import Mathlib

/-!
Verification of the FTex core engines: the entity-resolution engine
(`backend/app/services/entity_resolution_engine.py`) and the network-generation
engine (`backend/app/services/network_generation.py`).

Strings are embedded as `List Char`; Python floats are embedded as exact
rationals (`ℚ`); Python dicts keyed by strings are embedded as association
lists with replace-or-append insertion, which preserves the insertion order
that Python dictionaries guarantee.  Python's `str.lower`/`str.upper` are
embedded per character (the ASCII case mapping used by every string the
engines handle).
-/

namespace FTex

abbrev Str := List Char

/-- Model of Python `str.lower` (per-character ASCII lowering). -/
def lowerStr (s : Str) : Str := s.map Char.toLower

/-- Model of Python `str.upper` (per-character ASCII uppering). -/
def upperStr (s : Str) : Str := s.map Char.toUpper

/-- Python truthiness of an optional string value: `None` and `""` are falsy. -/
def truthy : Option Str → Bool
  | none => false
  | some s => !s.isEmpty

/-! ## BlockingStrategy.soundex -/

/-- Soundex digit class of a character (`mapping.get(char, '0')` in the source). -/
def soundexCode (c : Char) : Char :=
  if c = 'B' ∨ c = 'F' ∨ c = 'P' ∨ c = 'V' then '1'
  else if c = 'C' ∨ c = 'G' ∨ c = 'J' ∨ c = 'K' ∨ c = 'Q' ∨ c = 'S' ∨ c = 'X' ∨ c = 'Z' then '2'
  else if c = 'D' ∨ c = 'T' then '3'
  else if c = 'L' then '4'
  else if c = 'M' ∨ c = 'N' then '5'
  else if c = 'R' then '6'
  else '0'

/-- The consonant-scanning loop of `BlockingStrategy.soundex`: walks the
remaining characters carrying `prev_code` and the accumulated result, and
stops as soon as the result reaches four characters. -/
def soundexLoop : Str → Char → Str → Str
  | [], _, acc => acc
  | c :: cs, prev, acc =>
    let code := soundexCode c
    if code ≠ '0' ∧ code ≠ prev then
      let acc' := acc ++ [code]
      if acc'.length = 4 then acc' else soundexLoop cs code acc'
    else soundexLoop cs code acc

/-- `BlockingStrategy.soundex`: `"0000"` for an empty name, otherwise the first
letter followed by collapsed digit classes, padded with `'0'` and cut to four
characters. -/
def soundex (name : Str) : Str :=
  match upperStr name with
  | [] => "0000".data
  | c :: cs => (soundexLoop cs (soundexCode c) [c] ++ "0000".data).take 4

/-! ## SimilarityScorer -/

/-- `SimilarityScorer.phonetic_similarity`: 1 on equal Soundex codes, else the
fraction of positionally equal code characters out of 4. -/
def phonetic_similarity (s1 s2 : Str) : ℚ :=
  let c1 := soundex s1
  let c2 := soundex s2
  if c1 = c2 then 1
  else (((c1.zip c2).countP fun p => p.1 == p.2 : ℕ) : ℚ) / 4

/-- `get_ngrams` inside `SimilarityScorer.jaccard_similarity`: lower-case,
remove spaces, and take the set of character `n`-grams (the whole string if it
is shorter than `n`). -/
def getNgrams (n : ℕ) (s : Str) : Finset Str :=
  let t := (lowerStr s).filter fun c => c != ' '
  if t.length < n then {t}
  else ((List.range (t.length - n + 1)).map fun i => (t.drop i).take n).toFinset

/-- `SimilarityScorer.jaccard_similarity` with the default `ngram = 2`, which
no caller overrides. -/
def jaccard_similarity (s1 s2 : Str) : ℚ :=
  if s1 = [] ∧ s2 = [] then 1
  else if s1 = [] ∨ s2 = [] then 0
  else
    let g1 := getNgrams 2 s1
    let g2 := getNgrams 2 s2
    let inter := (g1 ∩ g2).card
    let uni := (g1 ∪ g2).card
    if 0 < uni then (inter : ℚ) / (uni : ℚ) else 0

/-- Whitespace test used to model Python `str.split()`. -/
def isWs (c : Char) : Bool := c = ' ' || c = '\t' || c = '\n' || c = '\r'

/-- Model of Python `str.split()`: split on whitespace runs, dropping empty
tokens; `cur` accumulates the current token reversed. -/
def splitWsAux : Str → Str → List Str
  | [], cur => if cur.isEmpty then [] else [cur.reverse]
  | c :: cs, cur =>
    if isWs c then
      if cur.isEmpty then splitWsAux cs [] else cur.reverse :: splitWsAux cs []
    else splitWsAux cs (c :: cur)

/-- Model of Python `str.split()`. -/
def splitWs (s : Str) : List Str := splitWsAux s []

/-- `SimilarityScorer.token_based_similarity`: Jaccard over whitespace-split
token sets of the lowered strings. -/
def token_based_similarity (s1 s2 : Str) : ℚ :=
  if s1 = [] ∧ s2 = [] then 1
  else if s1 = [] ∨ s2 = [] then 0
  else
    let t1 := (splitWs (lowerStr s1)).toFinset
    let t2 := (splitWs (lowerStr s2)).toFinset
    if t1 = ∅ ∨ t2 = ∅ then 0
    else ((t1 ∩ t2).card : ℚ) / (((t1 ∪ t2).card : ℕ) : ℚ)

/-! ### Levenshtein distance (row dynamic programming) -/

/-- Reference edit-distance recurrence used to verify the row dynamic program
of `SimilarityScorer.levenshtein_distance`. -/
def levRec : Str → Str → ℕ
  | [], ys => ys.length
  | _ :: xs, [] => xs.length + 1
  | x :: xs, y :: ys =>
    min (levRec xs (y :: ys) + 1)
      (min (levRec (x :: xs) ys + 1) (levRec xs ys + if x = y then 0 else 1))
termination_by xs ys => xs.length + ys.length

/-- Inner loop of `SimilarityScorer.levenshtein_distance`: builds the rest of
`curr_row` from `c1`, the remaining characters of `s2`, `prev_row[j]`, the
list `prev_row[j+1:]`, and the last built entry `curr_row[j]`.  The source
computes `min(insertions, deletions, substitutions)`. -/
def levAux (c1 : Char) : Str → ℕ → List ℕ → ℕ → List ℕ
  | [], _, _, _ => []
  | _ :: _, _, [], _ => []
  | c2 :: cs, pj, pj1 :: ps, cj =>
    let ins := pj1 + 1
    let del := cj + 1
    let sub := pj + if c1 = c2 then 0 else 1
    let v := min ins (min del sub)
    v :: levAux c1 cs pj1 ps v

/-- Row iteration of `SimilarityScorer.levenshtein_distance`: each character of
`s1` replaces `prev_row` by `curr_row = [i+1, ...]`. -/
def levLoop (s2 : Str) : Str → ℕ → List ℕ → List ℕ
  | [], _, prev => prev
  | c1 :: rest, i, prev =>
    levLoop s2 rest (i + 1) ((i + 1) :: levAux c1 s2 (prev.headD 0) prev.tail (i + 1))

/-- `SimilarityScorer.levenshtein_distance`: the initial swap makes `s1` the
longer string, empty `s2` short-circuits, then the row dynamic program runs
and the answer is `prev_row[-1]`. -/
def levenshtein_distance (a b : Str) : ℕ :=
  let s1 := if a.length < b.length then b else a
  let s2 := if a.length < b.length then a else b
  if s2.length = 0 then s1.length
  else (levLoop s2 s1 0 (List.range (s2.length + 1))).getLastD 0

/-- `SimilarityScorer.levenshtein_similarity`: `1 - distance / max_len` on the
lowered strings (`max_len` over the original strings). -/
def levenshtein_similarity (s1 s2 : Str) : ℚ :=
  if s1 = [] ∧ s2 = [] then 1
  else if s1 = [] ∨ s2 = [] then 0
  else 1 - (levenshtein_distance (lowerStr s1) (lowerStr s2) : ℚ)
    / ((max s1.length s2.length : ℕ) : ℚ)

/-! ### Jaro and Jaro-Winkler -/

/-- Window scan of `SimilarityScorer.jaro_similarity`: the first index
`j ∈ [start, fin)` with `s2_matches[j]` unset and `s2[j] = c1`. -/
def jaroFind (c1 : Char) (s2 : Str) (flags : List Bool) (start fin : ℕ) : Option ℕ :=
  (List.range' start (fin - start)).find? fun j =>
    !(flags.getD j true) && (s2.getD j ' ' == c1)

/-- Matching phase of `SimilarityScorer.jaro_similarity` over the enumerated
characters of `s1`; returns the `s1_matches` flags, the final `s2_matches`
flags and the match count. -/
def jaroMatches (s2 : Str) (md : ℕ) :
    List (ℕ × Char) → List Bool → ℕ → List Bool × List Bool × ℕ
  | [], s2f, m => ([], s2f, m)
  | (i, c1) :: rest, s2f, m =>
    match jaroFind c1 s2 s2f (i - md) (min (i + md + 1) s2.length) with
    | none =>
      let r := jaroMatches s2 md rest s2f m
      (false :: r.1, r.2.1, r.2.2)
    | some j =>
      let r := jaroMatches s2 md rest (s2f.set j true) (m + 1)
      (true :: r.1, r.2.1, r.2.2)

/-- Transposition-counting phase of `SimilarityScorer.jaro_similarity` (the
`k`-pointer walk over `s2_matches`).  An exhausted pointer — impossible in
actual runs, where both flag lists carry the same number of `true`s — returns
the count so far (the source would raise there). -/
def jaroTrans : List (Char × Bool) → List (Char × Bool) → ℕ → ℕ
  | [], _, t => t
  | (_, false) :: rest, zs, t => jaroTrans rest zs t
  | (c1, true) :: rest, zs, t =>
    match zs.dropWhile (fun p => !p.2) with
    | [] => t
    | (c2, _) :: zrest => jaroTrans rest zrest (t + if c1 = c2 then 0 else 1)

/-- `match_distance = max(len(s1), len(s2)) // 2 - 1`, clamped at 0 (the
truncated natural subtraction models the source's explicit clamp). -/
def jaroMd (t1 t2 : Str) : ℕ := max t1.length t2.length / 2 - 1

/-- The matching phase of `jaro_similarity` run on the lowered strings, with
all-false `s2_matches` and zero matches. -/
def jaroR (t1 t2 : Str) : List Bool × List Bool × ℕ :=
  jaroMatches t2 (jaroMd t1 t2) t1.enum (List.replicate t2.length false) 0

/-- The transposition count of `jaro_similarity`. -/
def jaroT (t1 t2 : Str) : ℕ :=
  jaroTrans (t1.zip (jaroR t1 t2).1) (t2.zip (jaroR t1 t2).2.1) 0

/-- The main branch of `jaro_similarity` (both strings non-empty, already
lowered): zero on no matches, else the three-way Jaro formula. -/
def jaroMain (t1 t2 : Str) : ℚ :=
  if (jaroR t1 t2).2.2 = 0 then 0
  else
    (((jaroR t1 t2).2.2 : ℚ) / t1.length + ((jaroR t1 t2).2.2 : ℚ) / t2.length
        + (((jaroR t1 t2).2.2 : ℚ) - (jaroT t1 t2 : ℚ) / 2) / (jaroR t1 t2).2.2) / 3

/-- `SimilarityScorer.jaro_similarity`. -/
def jaro_similarity (s1 s2 : Str) : ℚ :=
  if s1 = [] ∧ s2 = [] then 1
  else if s1 = [] ∨ s2 = [] then 0
  else jaroMain (lowerStr s1) (lowerStr s2)

/-- Common-prefix loop of `SimilarityScorer.jaro_winkler_similarity`: walks the
two lowered strings with fuel `min(len s1, len s2, 4)` (the plain fuel 4
suffices since the patterns stop at either string end) and stops at the first
mismatch. -/
def jwPrefixLen : Str → Str → ℕ → ℕ
  | x :: xs, y :: ys, n + 1 => if x = y then 1 + jwPrefixLen xs ys n else 0
  | _, _, _ => 0

/-- `SimilarityScorer.jaro_winkler_similarity` with the default scaling factor
`p = 0.1`, which no caller overrides. -/
def jaro_winkler_similarity (s1 s2 : Str) : ℚ :=
  let jaro := jaro_similarity s1 s2
  let plen := jwPrefixLen (lowerStr s1) (lowerStr s2) 4
  jaro + (plen : ℚ) * (1 / 10) * (1 - jaro)

/-- `SimilarityScorer.composite_name_score`: fixed weighted combination of the
five name similarities (the source sums `scores[k] * weights[k]` over its
score dictionary). -/
def composite_name_score (n1 n2 : Str) : ℚ :=
  3 / 10 * jaro_winkler_similarity n1 n2
    + 1 / 4 * levenshtein_similarity n1 n2
    + 3 / 20 * jaccard_similarity n1 n2
    + 1 / 5 * token_based_similarity n1 n2
    + 1 / 10 * phonetic_similarity n1 n2

/-! ## Dictionaries

Python dicts are embedded as association lists; assignment replaces in place
or appends, preserving Python's insertion-order guarantee. -/

/-- Python dict lookup (first — in a dict, only — entry with the key). -/
def dGet? [DecidableEq κ] : List (κ × α) → κ → Option α
  | [], _ => none
  | p :: ps, k => if p.1 = k then some p.2 else dGet? ps k

/-- Python dict assignment: replace in place, else append. -/
def dSet [DecidableEq κ] : List (κ × α) → κ → α → List (κ × α)
  | [], k, v => [(k, v)]
  | p :: ps, k, v => if p.1 = k then (k, v) :: ps else p :: dSet ps k v

/-! ## Entity records and pairwise scoring -/

/-- `EntityRecord`, with its `attributes` dictionary embedded as the fixed set
of optional keys the engine consults (`none` models an absent key). -/
structure EntityRecord where
  id : String
  source_system : String
  entity_type : String
  name : Option Str := none
  name_standardized : Option Str := none
  date_of_birth : Option Str := none
  dob_standardized : Option Str := none
  address : Option Str := none
  address_standardized : Option Str := none
  national_id : Option Str := none
  passport : Option Str := none
  tax_id : Option Str := none
  company_reg : Option Str := none
deriving DecidableEq, Repr

/-- Python `attrs.get(k1) or attrs.get(k2, '')`: the first value if truthy,
else the second with default `''`. -/
def orGet (a b : Option Str) : Str := if truthy a then a.getD [] else b.getD []

/-- `MatchCandidate` (the `record_a`/`record_b` pair with its per-attribute
similarity scores and the weighted overall score). -/
structure MatchCandidate where
  record_a : EntityRecord
  record_b : EntityRecord
  blocking_key : String
  similarity_scores : List (String × ℚ)
  overall_score : ℚ
deriving DecidableEq, Repr

/-- The fixed attribute weights of `score_candidate_pair`
(`weights.get(k, 0.1)` for any unlisted key). -/
def attrWeight : String → ℚ
  | "name" => 7 / 20
  | "dob" => 1 / 5
  | "address" => 3 / 20
  | "national_id" => 3 / 20
  | "passport" => 1 / 10
  | "tax_id" => 1 / 20
  | "company_reg" => 1 / 20
  | _ => 1 / 10

/-- The identifier comparison of `score_candidate_pair`: present when both
sides are truthy, `1` on equality. -/
def idScore (key : String) (a b : Option Str) : List (String × ℚ) :=
  if truthy a ∧ truthy b then [(key, if a.getD [] = b.getD [] then 1 else 0)] else []

/-- `EntityResolutionEngine.score_candidate_pair`. -/
def score_candidate_pair (ra rb : EntityRecord) : MatchCandidate :=
  let name_a := orGet ra.name_standardized ra.name
  let name_b := orGet rb.name_standardized rb.name
  let addr_a := orGet ra.address_standardized ra.address
  let addr_b := orGet rb.address_standardized rb.address
  let scores : List (String × ℚ) :=
    (if name_a ≠ [] ∧ name_b ≠ [] then [("name", composite_name_score name_a name_b)] else [])
    ++ (if truthy ra.date_of_birth ∧ truthy rb.date_of_birth then
          [("dob", if ra.date_of_birth.getD [] = rb.date_of_birth.getD [] then 1 else 0)]
        else [])
    ++ (if addr_a ≠ [] ∧ addr_b ≠ [] then
          [("address", jaro_winkler_similarity addr_a addr_b)]
        else [])
    ++ idScore "national_id" ra.national_id rb.national_id
    ++ idScore "passport" ra.passport rb.passport
    ++ idScore "tax_id" ra.tax_id rb.tax_id
    ++ idScore "company_reg" ra.company_reg rb.company_reg
  let total := (scores.map fun p => attrWeight p.1).sum
  let overall := if 0 < total then (scores.map fun p => p.2 * attrWeight p.1).sum / total else 0
  { record_a := ra, record_b := rb, blocking_key := "",
    similarity_scores := scores, overall_score := overall }

/-! ## Standardization and blocking -/

/-- The honorific/suffix alternatives of the name-standardization regex
`\b(Mr|Mrs|Ms|Dr|Prof|Jr|Sr|III|II|IV)\b\.?` (compared case-insensitively). -/
def titleWords : List Str :=
  ["mr".data, "mrs".data, "ms".data, "dr".data, "prof".data,
   "jr".data, "sr".data, "iii".data, "ii".data, "iv".data]

/-- Word-level model of the title regex: a whitespace token is removed when,
lowered and with one trailing `'.'` dropped, it is a title word. -/
def isTitleToken (t : Str) : Bool :=
  let core := match (lowerStr t).reverse with
    | '.' :: rest => rest.reverse
    | _ => lowerStr t
  titleWords.contains core

/-- Python `\w` (ASCII model): letters, digits and underscore. -/
def isWordChar (c : Char) : Bool := c.isAlphanum || c = '_'

/-- The name-standardization step of `standardize_record`: drop title tokens,
remove characters outside `\w`/`\s`, collapse whitespace
(`' '.join(name.split())`), strip.  The two regex substitutions are modelled
at whitespace-token level. -/
def standardizeName (name : Str) : Str :=
  let toks := (splitWs name).filter fun t => !isTitleToken t
  let toks := (toks.map fun t => t.filter isWordChar).filter fun t => !t.isEmpty
  List.intercalate [' '] toks

/-- Word-level model of the address-abbreviation substitutions of
`standardize_record` (`Street→St`, `Road→Rd`, `Avenue→Ave`,
case-insensitive). -/
def standardizeAddr (addr : Str) : Str :=
  let toks := (splitWs addr).map fun t =>
    if lowerStr t = "street".data then "St".data
    else if lowerStr t = "road".data then "Rd".data
    else if lowerStr t = "avenue".data then "Ave".data
    else t
  List.intercalate [' '] toks

/-- `EntityResolutionEngine.standardize_record`: adds the `*_standardized`
attributes for each present key (`str(dob)` is the identity on strings). -/
def standardize_record (r : EntityRecord) : EntityRecord :=
  let r1 := match r.name with
    | some n => { r with name_standardized := some (standardizeName n) }
    | none => r
  let r2 := match r1.date_of_birth with
    | some d => { r1 with dob_standardized := some d }
    | none => r1
  match r2.address with
  | some a => { r2 with address_standardized := some (standardizeAddr a) }
  | none => r2

/-- `BlockingStrategy.ngram_blocking` (default `n = 3`): lowered, spaces
removed; a Python `range` over a negative count is empty, modelled by the
truncated subtraction `t.length + 1 - n`. -/
def ngram_blocking (name : Str) (n : ℕ) : List Str :=
  if name = [] then []
  else if name.length < n then [lowerStr name]
  else
    let t := (lowerStr name).filter fun c => c != ' '
    (List.range (t.length + 1 - n)).map fun i => (t.drop i).take n

/-- `EntityResolutionEngine.generate_blocking_keys` for the default strategy
configuration `['soundex', 'ngram']` (the constructor default, the only one
`resolve` is exercised with). -/
def generate_blocking_keys (r : EntityRecord) : List String :=
  let name := orGet r.name_standardized r.name
  ("soundex_" ++ String.mk (soundex name))
    :: ((ngram_blocking name 3).take 3).map fun g => "ngram_" ++ String.mk g

/-! ## Union-find clustering -/

/-- Union-find state of `EntityResolutionEngine.cluster_matches` (the `parent`
and `rank` dictionaries). -/
structure UF where
  parent : List (String × String)
  rank : List (String × ℕ)
deriving DecidableEq, Repr

/-- One `find(x)` of `cluster_matches`, fuelled: initialise `x` on first
sight, then recurse on `parent[x]` with path compression.  The fuel used by
`ufFindTop` always suffices on the acyclic states the engine builds; an
exhausted fuel returns its argument. -/
def ufFind : ℕ → UF → String → String × UF
  | 0, uf, x => (x, uf)
  | fuel + 1, uf, x =>
    let uf0 := if (dGet? uf.parent x).isSome then uf
      else { parent := uf.parent ++ [(x, x)], rank := uf.rank ++ [(x, 0)] }
    let px := (dGet? uf0.parent x).getD x
    if px = x then (x, uf0)
    else
      let r := ufFind fuel uf0 px
      (r.1, { r.2 with parent := dSet r.2.parent x r.1 })

/-- `find` at the fuel every caller uses. -/
def ufFindTop (uf : UF) (x : String) : String × UF := ufFind (uf.parent.length + 2) uf x

/-- `union(x, y)` of `cluster_matches` (union by rank; ranks are read after
the swap, before the parent update). -/
def ufUnion (uf : UF) (x y : String) : UF :=
  let fx := ufFindTop uf x
  let fy := ufFindTop fx.2 y
  let px := fx.1
  let py := fy.1
  let uf2 := fy.2
  if px = py then uf2
  else
    let rx := (dGet? uf2.rank px).getD 0
    let ry := (dGet? uf2.rank py).getD 0
    let big := if rx < ry then py else px
    let small := if rx < ry then px else py
    let uf3 := { uf2 with parent := dSet uf2.parent small big }
    if (dGet? uf3.rank big).getD 0 = (dGet? uf3.rank small).getD 0
    then { uf3 with rank := dSet uf3.rank big ((dGet? uf3.rank big).getD 0 + 1) }
    else uf3

/-- The union loop of `cluster_matches`: unions each accepted pair and records
both records in the `all_records` dictionary. -/
def clusterUnionLoop (threshold : ℚ) :
    List MatchCandidate → UF → List (String × EntityRecord) → UF × List (String × EntityRecord)
  | [], uf, recs => (uf, recs)
  | m :: ms, uf, recs =>
    if threshold ≤ m.overall_score then
      clusterUnionLoop threshold ms (ufUnion uf m.record_a.id m.record_b.id)
        (dSet (dSet recs m.record_a.id m.record_a) m.record_b.id m.record_b)
    else clusterUnionLoop threshold ms uf recs

/-- The grouping loop of `cluster_matches`:
`clusters[find(record_id)].append(record)` over `all_records`. -/
def clusterGroupLoop : List (String × EntityRecord) → UF →
    List (String × List EntityRecord) → List (String × List EntityRecord)
  | [], _, cl => cl
  | (rid, rec) :: rest, uf, cl =>
    let f := ufFindTop uf rid
    clusterGroupLoop rest f.2 (dSet cl f.1 ((dGet? cl f.1).getD [] ++ [rec]))

/-- `EntityResolutionEngine.cluster_matches`. -/
def cluster_matches (threshold : ℚ) (cands : List MatchCandidate) :
    List (List EntityRecord) :=
  let st := clusterUnionLoop threshold cands ⟨[], []⟩ []
  (clusterGroupLoop st.2 st.1 []).map (·.2)

/-! ## Canonical records and the resolution pipeline -/

/-- Deterministic stand-in for `hashlib.md5(s.encode()).hexdigest()[:16]`: the
engines use the digest only as a deterministic function of `s` that keeps the
distinct inputs of interest distinct, so it is modelled as the identity. -/
def md5Hex16 (s : String) : String := s

/-- `ResolvedEntity`; `canonical_attrs` is embedded through the canonical
per-key fields actually consumed downstream. -/
structure ResolvedEntity where
  resolved_id : String
  canonical_name : Str
  entity_type : String
  source_records : List EntityRecord
  confidence_score : ℚ
deriving DecidableEq, Repr

/-- Non-null attribute count of a record
(`sum(1 for v in record.attributes.values() if v)` over the modelled keys). -/
def countNonNull (r : EntityRecord) : ℕ :=
  ([r.name, r.name_standardized, r.date_of_birth, r.dob_standardized, r.address,
    r.address_standardized, r.national_id, r.passport, r.tax_id, r.company_reg].filter
    truthy).length

/-- Stable insertion of `x` after all earlier records with a key at least as
large (one step of Python's stable descending sort). -/
def insertDesc (key : EntityRecord → ℕ) (x : EntityRecord) :
    List EntityRecord → List EntityRecord
  | [] => [x]
  | y :: ys => if key y < key x then x :: y :: ys else y :: insertDesc key x ys

/-- `completeness.sort(key=..., reverse=True)`: stable descending sort by
non-null attribute count. -/
def sortDesc (key : EntityRecord → ℕ) (l : List EntityRecord) : List EntityRecord :=
  l.foldl (fun acc x => insertDesc key x acc) []

/-- The per-key survivorship of `create_canonical_record`: the first truthy
value in completeness order (`if key not in canonical_attrs and value`). -/
def surviving (ordered : List EntityRecord) (f : EntityRecord → Option Str) : Option Str :=
  ((ordered.filter fun r => truthy (f r)).head?).bind f

/-- `EntityResolutionEngine.create_canonical_record`; `none` models the
`ValueError` raised on an empty cluster. -/
def create_canonical_record (cluster : List EntityRecord) : Option ResolvedEntity :=
  match cluster with
  | [] => none
  | c0 :: _ =>
    let sorted_ids := (cluster.map (·.id)).insertionSort (· ≤ ·)
    let rid := md5Hex16 (String.intercalate "_" sorted_ids)
    let ordered := sortDesc countNonNull cluster
    let num_sources := ((cluster.map (·.source_system)).dedup).length
    let confidence := min 1 (1 / 2 + (num_sources : ℚ) * (1 / 10) + (cluster.length : ℚ) * (1 / 20))
    let canonical_name :=
      orGet (surviving ordered (·.name_standardized))
        (some (orGet (surviving ordered (·.name)) (some "Unknown".data)))
    some { resolved_id := rid, canonical_name := canonical_name,
           entity_type := c0.entity_type, source_records := cluster,
           confidence_score := confidence }

/-- `tuple(sorted([id_a, id_b]))`: the order-independent pair key. -/
def pairKey (x y : String) : String × String := if x ≤ y then (x, y) else (y, x)

/-- `block_index[key].append(record)` over every record and its keys. -/
def buildBlockIndex (records : List EntityRecord) : List (String × List EntityRecord) :=
  records.foldl
    (fun idx r => (generate_blocking_keys r).foldl
      (fun idx k => dSet idx k ((dGet? idx k).getD [] ++ [r])) idx)
    []

/-- Inner pair loop of `resolve`: one `record_a` against the records after it
in its block, skipping pairs already in `seen_pairs`. -/
def pairsForA (key : String) (ra : EntityRecord) :
    List EntityRecord → List (String × String) → List MatchCandidate →
    List (String × String) × List MatchCandidate
  | [], seen, out => (seen, out)
  | rb :: rest, seen, out =>
    let pk := pairKey ra.id rb.id
    if pk ∈ seen then pairsForA key ra rest seen out
    else pairsForA key ra rest (seen ++ [pk])
        (out ++ [{ score_candidate_pair ra rb with blocking_key := key }])

/-- All in-block pairs (`i < j`) of one block. -/
def pairsForBlock (key : String) :
    List EntityRecord → List (String × String) → List MatchCandidate →
    List (String × String) × List MatchCandidate
  | [], seen, out => (seen, out)
  | ra :: rest, seen, out =>
    let st := pairsForA key ra rest seen out
    pairsForBlock key rest st.1 st.2

/-- Candidate generation and scoring of `resolve` (steps 3 and 4). -/
def scoredPairs (blocks : List (String × List EntityRecord)) : List MatchCandidate :=
  (blocks.foldl (fun st b => pairsForBlock b.1 b.2 st.1 st.2)
    (([] : List (String × String)), ([] : List MatchCandidate))).2

/-- `EntityResolutionEngine.resolve` (default blocking strategies):
standardize, block, score in-block pairs, cluster, append unmatched records as
singletons, and build canonical records. -/
def resolve (threshold : ℚ) (records : List EntityRecord) : List ResolvedEntity :=
  let standardized := records.map standardize_record
  let blocks := buildBlockIndex standardized
  let scored := scoredPairs blocks
  let clusters := cluster_matches threshold scored
  let matchedIds := clusters.flatMap fun c => c.map (·.id)
  let allClusters := clusters
    ++ (standardized.filter fun r => !(matchedIds.contains r.id)).map fun r => [r]
  allClusters.filterMap create_canonical_record

/-! ## Network generation engine -/

/-- `RelationshipType` (a string-valued enum in the source). -/
inductive RelationshipType
  | OWNS | CONTROLS | DIRECTOR_OF | SHAREHOLDER_OF | EMPLOYEE_OF | RELATED_TO | FAMILY_OF
  | TRANSACTED_WITH | SENT_TO | RECEIVED_FROM
  | ACCOUNT_HOLDER | AUTHORIZED_SIGNATORY | BENEFICIAL_OWNER
  | REGISTERED_AT | RESIDES_AT | OPERATES_FROM
  | CONTACTED | SHARES_PHONE | SHARES_EMAIL | SHARES_DEVICE
  | CO_LOCATED | SAME_NETWORK | POTENTIAL_DUPLICATE
deriving DecidableEq, Repr

/-- The string value of each `RelationshipType` member. -/
def RelationshipType.value : RelationshipType → String
  | OWNS => "OWNS"
  | CONTROLS => "CONTROLS"
  | DIRECTOR_OF => "DIRECTOR_OF"
  | SHAREHOLDER_OF => "SHAREHOLDER_OF"
  | EMPLOYEE_OF => "EMPLOYEE_OF"
  | RELATED_TO => "RELATED_TO"
  | FAMILY_OF => "FAMILY_OF"
  | TRANSACTED_WITH => "TRANSACTED_WITH"
  | SENT_TO => "SENT_TO"
  | RECEIVED_FROM => "RECEIVED_FROM"
  | ACCOUNT_HOLDER => "ACCOUNT_HOLDER"
  | AUTHORIZED_SIGNATORY => "AUTHORIZED_SIGNATORY"
  | BENEFICIAL_OWNER => "BENEFICIAL_OWNER"
  | REGISTERED_AT => "REGISTERED_AT"
  | RESIDES_AT => "RESIDES_AT"
  | OPERATES_FROM => "OPERATES_FROM"
  | CONTACTED => "CONTACTED"
  | SHARES_PHONE => "SHARES_PHONE"
  | SHARES_EMAIL => "SHARES_EMAIL"
  | SHARES_DEVICE => "SHARES_DEVICE"
  | CO_LOCATED => "CO_LOCATED"
  | SAME_NETWORK => "SAME_NETWORK"
  | POTENTIAL_DUPLICATE => "POTENTIAL_DUPLICATE"

/-- The members of `RelationshipType` in declaration order. -/
def RelationshipType.all : List RelationshipType :=
  [OWNS, CONTROLS, DIRECTOR_OF, SHAREHOLDER_OF, EMPLOYEE_OF, RELATED_TO, FAMILY_OF,
   TRANSACTED_WITH, SENT_TO, RECEIVED_FROM,
   ACCOUNT_HOLDER, AUTHORIZED_SIGNATORY, BENEFICIAL_OWNER,
   REGISTERED_AT, RESIDES_AT, OPERATES_FROM,
   CONTACTED, SHARES_PHONE, SHARES_EMAIL, SHARES_DEVICE,
   CO_LOCATED, SAME_NETWORK, POTENTIAL_DUPLICATE]

/-- `RelationshipType(s)`: enum lookup by value; `none` models the
`ValueError` on an unrecognized string. -/
def parseRelationshipType (s : String) : Option RelationshipType :=
  RelationshipType.all.find? fun t => t.value == s

/-- A Python attribute/evidence value (string, number or `None`). -/
inductive PyVal
  | str (s : String)
  | num (q : ℚ)
  | null
deriving DecidableEq, Repr

/-- `NetworkNode` (`created_at`, a wall-clock timestamp, is not modelled;
attribute values are the strings the engine groups on). -/
structure NetworkNode where
  id : String
  node_type : String
  label : String
  attributes : List (String × Str) := []
  risk_score : ℚ := 0
  source_systems : List String := []
deriving DecidableEq, Repr

/-- `NetworkEdge` (`created_at` is not modelled). -/
structure NetworkEdge where
  id : String
  source_id : String
  target_id : String
  relationship_type : RelationshipType
  weight : ℚ := 1
  attributes : List (String × PyVal) := []
  evidence : List (List (String × PyVal)) := []
  confidence : ℚ := 1
deriving DecidableEq, Repr

/-- `Network`: node and edge dictionaries keyed by id. -/
structure Network where
  nodes : List (String × NetworkNode) := []
  edges : List (String × NetworkEdge) := []
deriving DecidableEq, Repr

/-- `self.nodes.values()` in insertion order. -/
def Network.nodeList (n : Network) : List NetworkNode := n.nodes.map (·.2)

/-- `self.edges.values()` in insertion order. -/
def Network.edgeList (n : Network) : List NetworkEdge := n.edges.map (·.2)

/-- `Network.add_node`. -/
def Network.add_node (n : Network) (node : NetworkNode) : Network :=
  { n with nodes := dSet n.nodes node.id node }

/-- `Network.add_edge`. -/
def Network.add_edge (n : Network) (e : NetworkEdge) : Network :=
  { n with edges := dSet n.edges e.id e }

/-! ### Network.get_neighbors -/

/-- Edge scan of `Network.get_neighbors` for one frontier node: the `elif` is
only reached when the `if` condition fails, exactly as in the source. -/
def neighborsEdgeScan (nid : String) :
    List NetworkEdge → List String → List String → List String × List String
  | [], nbrs, nxt => (nbrs, nxt)
  | e :: es, nbrs, nxt =>
    if e.source_id = nid ∧ e.target_id ∉ nbrs then
      neighborsEdgeScan nid es (nbrs ++ [e.target_id]) (nxt ++ [e.target_id])
    else if ¬(e.source_id = nid ∧ e.target_id ∉ nbrs) ∧
        e.target_id = nid ∧ e.source_id ∉ nbrs then
      neighborsEdgeScan nid es (nbrs ++ [e.source_id]) (nxt ++ [e.source_id])
    else neighborsEdgeScan nid es nbrs nxt

/-- One frontier of `Network.get_neighbors`. -/
def neighborsLevelScan (edges : List NetworkEdge) :
    List String → List String → List String → List String × List String
  | [], nbrs, nxt => (nbrs, nxt)
  | nid :: rest, nbrs, nxt =>
    let st := neighborsEdgeScan nid edges nbrs nxt
    neighborsLevelScan edges rest st.1 st.2

/-- The depth loop of `Network.get_neighbors`. -/
def neighborsHops (edges : List NetworkEdge) : ℕ → List String → List String → List String
  | 0, _, nbrs => nbrs
  | d + 1, current, nbrs =>
    let st := neighborsLevelScan edges current nbrs []
    neighborsHops edges d st.2 st.1

/-- `Network.get_neighbors` (the returned Python set is modelled as a
duplicate-free list in discovery order). -/
def get_neighbors (net : Network) (nodeId : String) (depth : ℕ) : List String :=
  if depth < 1 then [] else neighborsHops net.edgeList depth [nodeId] []

/-! ### Edge creation and inference rules -/

/-- Edge-id derivation of `NetworkGenerationEngine.create_edge`. -/
def edgeId (s t : String) (k : RelationshipType) : String :=
  md5Hex16 (s ++ "_" ++ t ++ "_" ++ k.value)

/-- `NetworkGenerationEngine.create_edge`. -/
def create_edge (net : Network) (s t : String) (k : RelationshipType)
    (attrs : List (String × PyVal)) (weight confidence : ℚ) : Network :=
  net.add_edge
    { id := edgeId s t k, source_id := s, target_id := t, relationship_type := k,
      weight := weight, confidence := confidence, attributes := attrs }

/-- `attr_groups[value].append(node)` of `SharedAttributeRule.apply`
(only truthy attribute values group). -/
def groupByAttr (attrName : String) (nodes : List NetworkNode) :
    List (Str × List NetworkNode) :=
  nodes.foldl
    (fun gs nd => match dGet? nd.attributes attrName with
      | some v => if v ≠ [] then dSet gs v ((dGet? gs v).getD [] ++ [nd]) else gs
      | none => gs)
    []

/-- The nested pair loop of `SharedAttributeRule.apply` for one value group (a
group with fewer than two nodes yields no pairs, as in the source). -/
def sharedPairs (attrName : String) (rel : RelationshipType) (conf : ℚ) (value : Str) :
    List NetworkNode → List NetworkEdge
  | [] => []
  | a :: rest =>
    (rest.map fun b =>
      { id := "inferred_" ++ a.id ++ "_" ++ b.id ++ "_" ++ attrName,
        source_id := a.id, target_id := b.id, relationship_type := rel,
        confidence := conf,
        evidence := [[("rule", .str "shared_attribute"), ("attribute", .str attrName),
                      ("value", .str (String.mk value))]] })
    ++ sharedPairs attrName rel conf value rest

/-- `SharedAttributeRule.apply`. -/
def sharedAttributeApply (attrName : String) (rel : RelationshipType) (conf : ℚ)
    (net : Network) : List NetworkEdge :=
  (groupByAttr attrName net.nodeList).flatMap fun g => sharedPairs attrName rel conf g.1 g.2

/-- `edge.attributes.get('amount', 0)` (numeric reading; the engine only sums
numeric amounts). -/
def amountOf (e : NetworkEdge) : ℚ :=
  match dGet? e.attributes "amount" with
  | some (.num q) => q
  | _ => 0

/-- Transaction tallying of `TransactionPatternRule.apply`: counts and sums
directed transaction edges per unordered id pair. -/
def txCounts (edges : List NetworkEdge) : List ((String × String) × ℕ × ℚ) :=
  (edges.filter fun e =>
      decide (e.relationship_type = .SENT_TO ∨ e.relationship_type = .RECEIVED_FROM)).foldl
    (fun m e =>
      let k := pairKey e.source_id e.target_id
      let cur := (dGet? m k).getD (0, 0)
      dSet m k (cur.1 + 1, cur.2 + amountOf e))
    []

/-- `TransactionPatternRule.apply` (default `min_transactions = 3`,
`confidence = 0.85`; confidence is bumped `0.02` per transaction, capped). -/
def transactionPatternApply (minTx : ℕ) (conf : ℚ) (edges : List NetworkEdge) :
    List NetworkEdge :=
  (txCounts edges).filterMap fun entry =>
    if minTx ≤ entry.2.1 then
      some { id := "inferred_tx_" ++ entry.1.1 ++ "_" ++ entry.1.2,
             source_id := entry.1.1, target_id := entry.1.2,
             relationship_type := .TRANSACTED_WITH, weight := (entry.2.1 : ℚ),
             confidence := min 1 (conf + (entry.2.1 : ℚ) * (1 / 50)),
             evidence := [[("rule", .str "transaction_pattern"),
                           ("transaction_count", .num (entry.2.1 : ℚ)),
                           ("total_amount", .num entry.2.2)]] }
    else none

/-- An inference rule (the two rule classes of the source). -/
inductive InferenceRule
  | shared (attrName : String) (rel : RelationshipType) (conf : ℚ)
  | txPattern (minTx : ℕ) (conf : ℚ)
deriving DecidableEq, Repr

/-- `rule.apply(network)`. -/
def InferenceRule.apply : InferenceRule → Network → List NetworkEdge
  | .shared a rel conf, net => sharedAttributeApply a rel conf net
  | .txPattern minTx conf, net => transactionPatternApply minTx conf net.edgeList

/-- The default rule configuration installed by `_setup_default_rules`. -/
def defaultRules : List InferenceRule :=
  [.shared "address" .CO_LOCATED (7 / 10), .shared "phone" .SHARES_PHONE (4 / 5),
   .shared "email" .SHARES_EMAIL (4 / 5), .txPattern 3 (17 / 20)]

/-- The edge-adding loop of `run_inference`: add each rule-produced edge whose
id is not yet present, collecting the added ones. -/
def addInferred : List NetworkEdge → Network → List NetworkEdge →
    Network × List NetworkEdge
  | [], net, acc => (net, acc)
  | e :: es, net, acc =>
    if (dGet? net.edges e.id).isSome then addInferred es net acc
    else addInferred es (net.add_edge e) (acc ++ [e])

/-- `NetworkGenerationEngine.run_inference` with the default rules: each rule
is applied to the network as updated by the previous rules; returns the final
network and the inferred (newly added) edges. -/
def run_inference (net : Network) : Network × List NetworkEdge :=
  defaultRules.foldl (fun st rule => addInferred (rule.apply st.1) st.1 st.2) (net, [])

/-! ### Risk propagation -/

/-- The mutable state of the `propagate_risk` hop loop. -/
structure PropState where
  contributions : List (String × ℚ)
  currentLevel : List String
  visited : List String
  currentRisk : ℚ
deriving DecidableEq, Repr

/-- Edge scan of `propagate_risk` for one frontier node: a neighbour is the
other endpoint; `if neighbor_id and neighbor_id not in visited` (the empty id
is falsy) records `current_risk × confidence × weight` and schedules it. -/
def propNodeScan (cr : ℚ) (nid : String) :
    List NetworkEdge → List (String × ℚ) → List String → List String →
    List (String × ℚ) × List String × List String
  | [], contr, nxt, vis => (contr, nxt, vis)
  | e :: es, contr, nxt, vis =>
    let nb : Option String :=
      if e.source_id = nid then some e.target_id
      else if e.target_id = nid then some e.source_id
      else none
    match nb with
    | some x =>
      if x ≠ "" ∧ x ∉ vis then
        propNodeScan cr nid es (dSet contr x (cr * e.confidence * e.weight))
          (nxt ++ [x]) (vis ++ [x])
      else propNodeScan cr nid es contr nxt vis
    | none => propNodeScan cr nid es contr nxt vis

/-- One hop of `propagate_risk`: `current_risk` is decayed first, then every
frontier node scans all edges. -/
def propStep (net : Network) (decay : ℚ) (s : PropState) : PropState :=
  let cr := s.currentRisk * decay
  let scan := s.currentLevel.foldl
    (fun st nid => propNodeScan cr nid net.edgeList st.1 st.2.1 st.2.2)
    (s.contributions, ([] : List String), s.visited)
  { contributions := scan.1, currentLevel := scan.2.1, visited := scan.2.2,
    currentRisk := cr }

/-- The hop loop of `propagate_risk` with its early `break` on an empty
frontier. -/
def propLoop (net : Network) (decay : ℚ) : ℕ → PropState → PropState
  | 0, s => s
  | n + 1, s =>
    let s' := propStep net decay s
    if s'.currentLevel.isEmpty then s' else propLoop net decay n s'

/-- The initial state of the `propagate_risk` loop: the source carries its own
risk score and is already visited. -/
def propInit (sourceId : String) (r : ℚ) : PropState :=
  { contributions := [(sourceId, r)], currentLevel := [sourceId],
    visited := [sourceId], currentRisk := r }

/-- `NetworkGenerationEngine.propagate_risk`: empty result for an unknown
source; otherwise BFS from the source, seeded with its own risk score. -/
def propagate_risk (net : Network) (sourceId : String) (maxHops : ℕ) (decay : ℚ) :
    List (String × ℚ) :=
  match dGet? net.nodes sourceId with
  | none => []
  | some src =>
    (propLoop net decay maxHops (propInit sourceId src.risk_score)).contributions

/-! ### The /network/generate endpoint's edge handling -/

/-- The per-edge handling of the `/network/generate` endpoint
(`api/endpoints/ftex.py`): `RelationshipType(edge.relationship_type)` with the
`ValueError` recovered by substituting `RELATED_TO`, followed by
`create_edge` with the call site's default weight and confidence. -/
def generateNetworkEdgeStep (net : Network) (sourceId targetId kindStr : String)
    (attrs : List (String × PyVal)) : Network :=
  create_edge net sourceId targetId ((parseRelationshipType kindStr).getD .RELATED_TO)
    attrs 1 1

/-! ## Concrete fixtures used by counterexamples and witnesses -/

/-- A self-loop edge on `"V"`. -/
def loopEdge : NetworkEdge :=
  { id := "e", source_id := "V", target_id := "V", relationship_type := .RELATED_TO }

/-- A network whose only edge is a self-loop on `"V"`. -/
def loopNet : Network := { edges := [("e", loopEdge)] }

/-- The high-risk source node of the risk-propagation fixtures. -/
def nodeA : NetworkNode :=
  { id := "A", node_type := "individual", label := "A", risk_score := 4 / 5 }

/-- Risk fixture: `A → B` (unit factors) and `B → C` with weight 10. -/
def riskNet : Network :=
  create_edge (create_edge
    { nodes := [("A", nodeA),
                ("B", { id := "B", node_type := "individual", label := "B" }),
                ("C", { id := "C", node_type := "individual", label := "C" })] }
    "A" "B" .SENT_TO [] 1 1) "B" "C" .SENT_TO [] 10 1

/-- Risk fixture with unit confidence and weight on every edge. -/
def riskNetUnit : Network :=
  create_edge (create_edge
    { nodes := [("A", nodeA),
                ("B", { id := "B", node_type := "individual", label := "B" }),
                ("C", { id := "C", node_type := "individual", label := "C" })] }
    "A" "B" .SENT_TO [] 1 1) "B" "C" .SENT_TO [] 1 1

/-! # Dictionary lemmas -/

theorem dGet?_dSet_self [DecidableEq κ] (l : List (κ × α)) (k : κ) (v : α) :
    dGet? (dSet l k v) k = some v := by
  induction l with
  | nil => simp [dGet?, dSet]
  | cons p ps ih =>
    by_cases h : p.1 = k
    · simp [dSet, h, dGet?]
    · simp [dSet, h, dGet?, ih]

theorem dGet?_dSet_ne [DecidableEq κ] (l : List (κ × α)) (k k' : κ) (v : α)
    (h : k' ≠ k) : dGet? (dSet l k v) k' = dGet? l k' := by
  induction l with
  | nil => simp [dGet?, dSet, Ne.symm h]
  | cons p ps ih =>
    by_cases hp : p.1 = k
    · subst hp
      simp [dSet, dGet?, Ne.symm h]
    · simp [dSet, hp, dGet?, ih]

theorem dSet_dSet_self [DecidableEq κ] (l : List (κ × α)) (k : κ) (v w : α) :
    dSet (dSet l k v) k w = dSet l k w := by
  induction l with
  | nil => simp [dSet]
  | cons p ps ih =>
    by_cases h : p.1 = k
    · simp [dSet, h]
    · simp [dSet, h, ih]

theorem dSet_of_dGet?_none [DecidableEq κ] (l : List (κ × α)) (k : κ) (v : α)
    (h : dGet? l k = none) : dSet l k v = l ++ [(k, v)] := by
  induction l with
  | nil => simp [dSet]
  | cons p ps ih =>
    by_cases hp : p.1 = k
    · simp [dGet?, hp] at h
    · simp [dGet?, hp] at h
      simp [dSet, hp, ih h]

theorem keys_dSet [DecidableEq κ] (l : List (κ × α)) (k : κ) (v : α) :
    (dSet l k v).map (·.1) = if (dGet? l k).isSome then l.map (·.1) else l.map (·.1) ++ [k] := by
  induction l with
  | nil => simp [dSet, dGet?]
  | cons p ps ih =>
    by_cases hp : p.1 = k
    · simp [dSet, hp, dGet?]
    · simp only [dSet, hp, if_false, dGet?, List.map_cons]
      rw [ih]
      by_cases h2 : (dGet? ps k).isSome <;> simp [h2, hp]

theorem dGet?_append_left [DecidableEq κ] (l l' : List (κ × α)) (k : κ)
    (h : (dGet? l k).isSome) : dGet? (l ++ l') k = dGet? l k := by
  induction l with
  | nil => simp [dGet?] at h
  | cons p ps ih =>
    by_cases hp : p.1 = k
    · simp [dGet?, hp]
    · simp [dGet?, hp] at h ⊢
      exact ih h

theorem dGet?_append_right [DecidableEq κ] (l l' : List (κ × α)) (k : κ)
    (h : dGet? l k = none) : dGet? (l ++ l') k = dGet? l' k := by
  induction l with
  | nil => simp [dGet?]
  | cons p ps ih =>
    by_cases hp : p.1 = k
    · simp [dGet?, hp] at h
    · simp [dGet?, hp] at h ⊢
      exact ih h

theorem dGet?_isSome_of_append [DecidableEq κ] (l l' : List (κ × α)) (k : κ)
    (h : (dGet? l k).isSome) : (dGet? (l ++ l') k).isSome := by
  rw [dGet?_append_left l l' k h]; exact h

/-! # Claim C6: empty-string convention -/

/-- C6 (counterexample): the claim says every similarity function returns
exactly 0.0 when exactly one input is empty, but
`phonetic_similarity("", "a")` compares Soundex `"0000"` with `"A000"`,
three positions of which agree, and returns 0.75. -/
theorem phonetic_one_empty_counterexample :
    phonetic_similarity [] ['a'] = 3 / 4 ∧ ((3 : ℚ) / 4) ≠ 0 := by
  with_unfolding_all decide

theorem jwPrefixLen_nil_right (xs : Str) (n : ℕ) : jwPrefixLen xs [] n = 0 := by
  cases xs <;> cases n <;> rfl

/-- C6 (amended): every similarity function returns 1.0 when both inputs are
empty; Levenshtein, Jaro, Jaro-Winkler, Jaccard n-gram and token-set
similarity return 0.0 when exactly one input is empty; phonetic similarity
(and consequently the composite name score) does not — it compares
4-character Soundex codes, e.g. `phonetic("", "a") = 0.75` and
`composite("", "a") = 0.075`. -/
theorem empty_string_convention (s : Str) (hs : s ≠ []) :
    levenshtein_similarity [] [] = 1 ∧ jaro_similarity [] [] = 1 ∧
    jaro_winkler_similarity [] [] = 1 ∧ jaccard_similarity [] [] = 1 ∧
    token_based_similarity [] [] = 1 ∧ phonetic_similarity [] [] = 1 ∧
    composite_name_score [] [] = 1 ∧
    levenshtein_similarity [] s = 0 ∧ levenshtein_similarity s [] = 0 ∧
    jaro_similarity [] s = 0 ∧ jaro_similarity s [] = 0 ∧
    jaro_winkler_similarity [] s = 0 ∧ jaro_winkler_similarity s [] = 0 ∧
    jaccard_similarity [] s = 0 ∧ jaccard_similarity s [] = 0 ∧
    token_based_similarity [] s = 0 ∧ token_based_similarity s [] = 0 ∧
    phonetic_similarity [] ['a'] = 3 / 4 ∧ composite_name_score [] ['a'] = 3 / 40 := by
  refine ⟨by with_unfolding_all decide, by with_unfolding_all decide,
    by with_unfolding_all decide, by with_unfolding_all decide,
    by with_unfolding_all decide, by with_unfolding_all decide,
    by with_unfolding_all decide,
    ?_, ?_, ?_, ?_, ?_, ?_, ?_, ?_, ?_, ?_,
    by with_unfolding_all decide, by with_unfolding_all decide⟩
  · simp [levenshtein_similarity, hs]
  · simp [levenshtein_similarity, hs]
  · simp [jaro_similarity, hs]
  · simp [jaro_similarity, hs]
  · simp [jaro_winkler_similarity, jaro_similarity, hs, jwPrefixLen, lowerStr]
  · simp [jaro_winkler_similarity, jaro_similarity, hs, jwPrefixLen_nil_right, lowerStr]
  · simp [jaccard_similarity, hs]
  · simp [jaccard_similarity, hs]
  · simp [token_based_similarity, hs]
  · simp [token_based_similarity, hs]

theorem empty_string_convention_witness :
    (['b'] : Str) ≠ [] ∧ levenshtein_similarity [] ['b'] = 0 :=
  ⟨by decide, (empty_string_convention ['b'] (by decide)).2.2.2.2.2.2.2.1⟩

/-! # Claim C7: singleton confidence -/

/-- C7 (counterexample): the claim (with the spec's "Concrete scenario 2")
says a one-source singleton receives confidence ≈ 0.55, but the
implementation's own formula `min(1, 0.5 + 0.1·1 + 0.05·1)` gives exactly
0.65 — evaluated here on the scenario's record. -/
theorem singleton_confidence_counterexample :
    (create_canonical_record
        [{ id := "CRM_002", source_system := "crm", entity_type := "individual",
           name := some "Jane Mary Doe".data,
           date_of_birth := some "1990-07-22".data }]).map (·.confidence_score)
      = some (13 / 20) ∧ ((13 : ℚ) / 20) ≠ 11 / 20 := by
  constructor
  · with_unfolding_all rfl
  · norm_num

/-- C7 (amended): a record alone in its cluster receives confidence exactly
`min(1, 0.5 + 0.1 × 1 + 0.05 × 1) = 0.65` (one distinct source system, cluster
size one), for every record. -/
theorem singleton_confidence (r : EntityRecord) :
    (create_canonical_record [r]).map (·.confidence_score) = some (13 / 20) := by
  have h1 : (([r].map (·.source_system)).dedup).length = 1 := by simp
  simp only [create_canonical_record, h1, Option.map_some, List.length_cons,
    List.length_nil]
  norm_num

/-! # Claim C8: unknown relationship kinds -/

/-- C8: for every edge-creation request whose relationship-kind string is not
a `RelationshipType` value, the `/network/generate` handler substitutes
`RELATED_TO` instead of failing, and the edge is stored in the network under
the deterministic id for `(source, target, RELATED_TO)`. -/
theorem unknown_relationship_kind_defaults (net : Network) (s t kind : String)
    (attrs : List (String × PyVal)) (h : parseRelationshipType kind = none) :
    generateNetworkEdgeStep net s t kind attrs = create_edge net s t .RELATED_TO attrs 1 1 ∧
    dGet? (generateNetworkEdgeStep net s t kind attrs).edges (edgeId s t .RELATED_TO) =
      some { id := edgeId s t .RELATED_TO, source_id := s, target_id := t,
             relationship_type := .RELATED_TO, weight := 1, confidence := 1,
             attributes := attrs } := by
  have h1 : generateNetworkEdgeStep net s t kind attrs
      = create_edge net s t .RELATED_TO attrs 1 1 := by
    simp [generateNetworkEdgeStep, h]
  refine ⟨h1, ?_⟩
  rw [h1]
  simp [create_edge, Network.add_edge, dGet?_dSet_self]

theorem unknown_relationship_kind_defaults_witness :
    parseRelationshipType "BFF" = none ∧
    dGet? (generateNetworkEdgeStep {} "S" "T" "BFF" []).edges (edgeId "S" "T" .RELATED_TO) =
      some { id := edgeId "S" "T" .RELATED_TO, source_id := "S", target_id := "T",
             relationship_type := .RELATED_TO, weight := 1, confidence := 1,
             attributes := [] } :=
  ⟨by decide, (unknown_relationship_kind_defaults {} "S" "T" "BFF" [] (by decide)).2⟩

/-! # Claim C10: get_neighbors returns the queried node -/

theorem mem_neighborsEdgeScan (nid : String) (es : List NetworkEdge)
    (nbrs nxt : List String) (x : String) (hx : x ∈ nbrs) :
    x ∈ (neighborsEdgeScan nid es nbrs nxt).1 := by
  induction es generalizing nbrs nxt with
  | nil => simpa [neighborsEdgeScan] using hx
  | cons e es ih =>
    rw [neighborsEdgeScan]
    split
    · exact ih _ _ (by simp [hx])
    · split
      · exact ih _ _ (by simp [hx])
      · exact ih _ _ hx

theorem mem_neighborsLevelScan (edges : List NetworkEdge) (level : List String)
    (nbrs nxt : List String) (x : String) (hx : x ∈ nbrs) :
    x ∈ (neighborsLevelScan edges level nbrs nxt).1 := by
  induction level generalizing nbrs nxt with
  | nil => simpa [neighborsLevelScan] using hx
  | cons u us ih =>
    rw [neighborsLevelScan]
    exact ih _ _ (mem_neighborsEdgeScan u edges nbrs nxt x hx)

theorem mem_neighborsHops (edges : List NetworkEdge) (d : ℕ) (level : List String)
    (nbrs : List String) (x : String) (hx : x ∈ nbrs) :
    x ∈ neighborsHops edges d level nbrs := by
  induction d generalizing level nbrs with
  | zero => simpa [neighborsHops] using hx
  | succ d ih =>
    rw [neighborsHops]
    exact ih _ _ (mem_neighborsLevelScan edges level nbrs [] x hx)

/-- If `e` connects the frontier node `nid` to `v`, the edge scan leaves `v`
recorded among the neighbours. -/
theorem neighborsEdgeScan_hits (nid : String) (es : List NetworkEdge)
    (nbrs nxt : List String) (v : String) (e : NetworkEdge) (he : e ∈ es)
    (hc : (e.source_id = nid ∧ e.target_id = v) ∨ (e.target_id = nid ∧ e.source_id = v)) :
    v ∈ (neighborsEdgeScan nid es nbrs nxt).1 := by
  induction es generalizing nbrs nxt with
  | nil => cases he
  | cons f fs ih =>
    rcases List.mem_cons.1 he with rfl | hfs
    · rw [neighborsEdgeScan]
      by_cases hA : e.source_id = nid ∧ e.target_id ∉ nbrs
      · rw [if_pos hA]
        have hv : v ∈ nbrs ++ [e.target_id] := by
          rcases hc with ⟨h1, h2⟩ | ⟨h1, h2⟩
          · simp [h2]
          · have hveq : v = e.target_id := by rw [← h2, hA.1, h1]
            simp [hveq]
        exact mem_neighborsEdgeScan _ _ _ _ _ hv
      · rw [if_neg hA]
        by_cases hB : e.target_id = nid ∧ e.source_id ∉ nbrs
        · rw [if_pos ⟨hA, hB⟩]
          have hv : v ∈ nbrs ++ [e.source_id] := by
            rcases hc with ⟨h1, h2⟩ | ⟨h1, h2⟩
            · have hmem : e.target_id ∈ nbrs := by
                by_contra hmm
                exact hA ⟨h1, hmm⟩
              exact List.mem_append.2 (Or.inl (h2 ▸ hmem))
            · simp [h2]
          exact mem_neighborsEdgeScan _ _ _ _ _ hv
        · rw [if_neg fun h => hB h.2]
          have hv : v ∈ nbrs := by
            rcases hc with ⟨h1, h2⟩ | ⟨h1, h2⟩
            · have hmem : e.target_id ∈ nbrs := by
                by_contra hmm
                exact hA ⟨h1, hmm⟩
              exact h2 ▸ hmem
            · have hmem : e.source_id ∈ nbrs := by
                by_contra hmm
                exact hB ⟨h1, hmm⟩
              exact h2 ▸ hmem
          exact mem_neighborsEdgeScan _ _ _ _ _ hv
    · rw [neighborsEdgeScan]
      split
      · exact ih _ _ hfs
      · split
        · exact ih _ _ hfs
        · exact ih _ _ hfs

/-- If some frontier node `u` is connected to `v` by an edge, the level scan
records `v`. -/
theorem neighborsLevelScan_hits (edges : List NetworkEdge) (level : List String)
    (nbrs nxt : List String) (u v : String) (hu : u ∈ level) (e : NetworkEdge)
    (he : e ∈ edges)
    (hc : (e.source_id = u ∧ e.target_id = v) ∨ (e.target_id = u ∧ e.source_id = v)) :
    v ∈ (neighborsLevelScan edges level nbrs nxt).1 := by
  induction level generalizing nbrs nxt with
  | nil => cases hu
  | cons w ws ih =>
    rw [neighborsLevelScan]
    rcases List.mem_cons.1 hu with rfl | hws
    · exact mem_neighborsLevelScan _ _ _ _ _
        (neighborsEdgeScan_hits u edges nbrs nxt v e he hc)
    · exact ih _ _ hws

/-- Within one hop the neighbour set and the next frontier receive exactly the
same additions: started equal, they stay equal. -/
theorem neighborsEdgeScan_eq (nid : String) (es : List NetworkEdge) (l : List String) :
    (neighborsEdgeScan nid es l l).2 = (neighborsEdgeScan nid es l l).1 := by
  induction es generalizing l with
  | nil => simp [neighborsEdgeScan]
  | cons e es ih =>
    rw [neighborsEdgeScan]
    split
    · exact ih _
    · split
      · exact ih _
      · exact ih _

/-- C10: `get_neighbors` does not exclude the queried node: whenever `v` has
any incident edge, a query of depth ≥ 2 returns a set containing `v` itself
(the traversal bounces back over the same edge); with a self-loop on `v`,
depth ≥ 1 already returns `v`. -/
theorem get_neighbors_returns_center (net : Network) (v : String) (depth : ℕ) :
    (2 ≤ depth → (∃ e ∈ net.edgeList, e.source_id = v ∨ e.target_id = v) →
      v ∈ get_neighbors net v depth) ∧
    (1 ≤ depth → (∃ e ∈ net.edgeList, e.source_id = v ∧ e.target_id = v) →
      v ∈ get_neighbors net v depth) := by
  constructor
  · intro hdepth ⟨e, he, hinc⟩
    obtain ⟨d, rfl⟩ : ∃ d, depth = d + 2 :=
      ⟨depth - 2, by omega⟩
    rw [get_neighbors, if_neg (by omega)]
    rw [neighborsHops]
    -- hop 1: the other endpoint w lands in both the neighbour set and frontier
    have hscan := neighborsEdgeScan_eq v net.edgeList []
    rcases hinc with hs | ht
    · -- e.source_id = v, other endpoint is e.target_id
      have hw : e.target_id ∈ (neighborsLevelScan net.edgeList [v] [] []).1 := by
        rw [neighborsLevelScan]
        exact mem_neighborsLevelScan _ _ _ _ _
          (neighborsEdgeScan_hits v net.edgeList [] [] e.target_id e he (Or.inl ⟨hs, rfl⟩))
      have hw2 : e.target_id ∈ (neighborsLevelScan net.edgeList [v] [] []).2 := by
        rw [neighborsLevelScan] at hw ⊢
        simp only [neighborsLevelScan] at hw ⊢
        rw [hscan]
        exact hw
      rw [neighborsHops]
      exact mem_neighborsHops _ _ _ _ _
        (neighborsLevelScan_hits net.edgeList _ _ [] e.target_id v hw2 e he
          (Or.inr ⟨rfl, hs⟩))
    · -- e.target_id = v, other endpoint is e.source_id
      have hw : e.source_id ∈ (neighborsLevelScan net.edgeList [v] [] []).1 := by
        rw [neighborsLevelScan]
        exact mem_neighborsLevelScan _ _ _ _ _
          (neighborsEdgeScan_hits v net.edgeList [] [] e.source_id e he (Or.inr ⟨ht, rfl⟩))
      have hw2 : e.source_id ∈ (neighborsLevelScan net.edgeList [v] [] []).2 := by
        rw [neighborsLevelScan] at hw ⊢
        simp only [neighborsLevelScan] at hw ⊢
        rw [hscan]
        exact hw
      rw [neighborsHops]
      exact mem_neighborsHops _ _ _ _ _
        (neighborsLevelScan_hits net.edgeList _ _ [] e.source_id v hw2 e he
          (Or.inl ⟨rfl, ht⟩))
  · intro hdepth ⟨e, he, hs, ht⟩
    obtain ⟨d, rfl⟩ : ∃ d, depth = d + 1 := ⟨depth - 1, by omega⟩
    rw [get_neighbors, if_neg (by omega), neighborsHops]
    exact mem_neighborsHops _ _ _ _ _
      (neighborsLevelScan_hits net.edgeList [v] [] [] v v (by simp) e he
        (Or.inl ⟨hs, ht⟩))

theorem get_neighbors_returns_center_witness :
    "V" ∈ get_neighbors loopNet "V" 2 ∧ "V" ∈ get_neighbors loopNet "V" 1 :=
  ⟨(get_neighbors_returns_center loopNet "V" 2).1 (by omega)
      ⟨loopEdge, by simp [loopNet, loopEdge, Network.edgeList], Or.inl rfl⟩,
    (get_neighbors_returns_center loopNet "V" 1).2 (by omega)
      ⟨loopEdge, by simp [loopNet, loopEdge, Network.edgeList], rfl, rfl⟩⟩

/-! # Claim C9: risk decay across hops -/

/-- Invariant of the `propagate_risk` scan state: scheduled nodes carry the
current hop's contribution, and every recorded key has been visited. -/
def ScanInv (contr : List (String × ℚ)) (nxt vis : List String) (cr : ℚ) : Prop :=
  (∀ x ∈ nxt, dGet? contr x = some cr) ∧
  (∀ x, (dGet? contr x).isSome → x ∈ vis)

theorem propNodeScan_inv (cr : ℚ) (nid : String) (es : List NetworkEdge)
    (contr : List (String × ℚ)) (nxt vis : List String)
    (hunit : ∀ e ∈ es, e.confidence = 1 ∧ e.weight = 1)
    (hinv : ScanInv contr nxt vis cr) :
    ScanInv (propNodeScan cr nid es contr nxt vis).1
      (propNodeScan cr nid es contr nxt vis).2.1
      (propNodeScan cr nid es contr nxt vis).2.2 cr ∧
    (∀ x ∈ vis, x ∈ (propNodeScan cr nid es contr nxt vis).2.2) ∧
    (∀ x, (dGet? contr x).isSome →
      dGet? (propNodeScan cr nid es contr nxt vis).1 x = dGet? contr x) := by
  induction es generalizing contr nxt vis with
  | nil => exact ⟨hinv, fun x hx => hx, fun x _ => rfl⟩
  | cons e es ih =>
    have hue := hunit e (by simp)
    have hunit' : ∀ f ∈ es, f.confidence = 1 ∧ f.weight = 1 :=
      fun f hf => hunit f (by simp [hf])
    rw [propNodeScan]
    rcases hnb : (if e.source_id = nid then some e.target_id
      else if e.target_id = nid then some e.source_id else none) with _ | y
    · exact ih contr nxt vis hunit' hinv
    · dsimp only
      by_cases hy : y ≠ "" ∧ y ∉ vis
      · rw [if_pos hy]
        have hval : cr * e.confidence * e.weight = cr := by
          rw [hue.1, hue.2, mul_one, mul_one]
        have hnewinv : ScanInv (dSet contr y (cr * e.confidence * e.weight))
            (nxt ++ [y]) (vis ++ [y]) cr := by
          constructor
          · intro x hx
            rcases List.mem_append.1 hx with hxn | hxy
            · have hxvis : x ∈ vis := hinv.2 x (by rw [hinv.1 x hxn]; rfl)
              have hxy : x ≠ y := fun h => hy.2 (h ▸ hxvis)
              rw [dGet?_dSet_ne _ _ _ _ hxy]
              exact hinv.1 x hxn
            · have : x = y := by simpa using hxy
              subst this
              rw [dGet?_dSet_self, hval]
          · intro x hx
            by_cases hxy : x = y
            · simp [hxy]
            · rw [dGet?_dSet_ne _ _ _ _ hxy] at hx
              exact List.mem_append.2 (Or.inl (hinv.2 x hx))
        have hres := ih _ _ _ hunit' hnewinv
        refine ⟨hres.1, ?_, ?_⟩
        · intro x hx
          exact hres.2.1 x (List.mem_append.2 (Or.inl hx))
        · intro x hx
          have hxvis : x ∈ vis := hinv.2 x hx
          have hxy : x ≠ y := fun h => hy.2 (h ▸ hxvis)
          rw [hres.2.2 x (by rw [dGet?_dSet_ne _ _ _ _ hxy]; exact hx),
            dGet?_dSet_ne _ _ _ _ hxy]
      · rw [if_neg hy]
        exact ih contr nxt vis hunit' hinv

theorem propLevelFold_inv (cr : ℚ) (edges : List NetworkEdge) (level : List String)
    (contr : List (String × ℚ)) (nxt vis : List String)
    (hunit : ∀ e ∈ edges, e.confidence = 1 ∧ e.weight = 1)
    (hinv : ScanInv contr nxt vis cr) :
    ScanInv (level.foldl (fun st nid => propNodeScan cr nid edges st.1 st.2.1 st.2.2)
        (contr, nxt, vis)).1
      (level.foldl (fun st nid => propNodeScan cr nid edges st.1 st.2.1 st.2.2)
        (contr, nxt, vis)).2.1
      (level.foldl (fun st nid => propNodeScan cr nid edges st.1 st.2.1 st.2.2)
        (contr, nxt, vis)).2.2 cr ∧
    (∀ x, (dGet? contr x).isSome →
      dGet? (level.foldl (fun st nid => propNodeScan cr nid edges st.1 st.2.1 st.2.2)
        (contr, nxt, vis)).1 x = dGet? contr x) := by
  induction level generalizing contr nxt vis with
  | nil => exact ⟨hinv, fun x _ => rfl⟩
  | cons u us ih =>
    simp only [List.foldl_cons]
    have h1 := propNodeScan_inv cr u edges contr nxt vis hunit hinv
    have h2 := ih _ _ _ h1.1
    refine ⟨h2.1, fun x hx => ?_⟩
    rw [h2.2 x (by rw [h1.2.2 x hx]; exact hx), h1.2.2 x hx]

/-- Invariant of the hop states: after `k` hops the frontier nodes carry
contribution `r·decay^k` and the current risk is `r·decay^k`. -/
def StateInv (s : PropState) (r decay : ℚ) (k : ℕ) : Prop :=
  s.currentRisk = r * decay ^ k ∧
  (∀ x ∈ s.currentLevel, dGet? s.contributions x = some (r * decay ^ k)) ∧
  (∀ x, (dGet? s.contributions x).isSome → x ∈ s.visited)

theorem propStep_inv (net : Network) (decay r : ℚ) (k : ℕ) (s : PropState)
    (hunit : ∀ e ∈ net.edgeList, e.confidence = 1 ∧ e.weight = 1)
    (hs : StateInv s r decay k) :
    StateInv (propStep net decay s) r decay (k + 1) ∧
    (∀ x, (dGet? s.contributions x).isSome →
      dGet? (propStep net decay s).contributions x = dGet? s.contributions x) := by
  have hcr : s.currentRisk * decay = r * decay ^ (k + 1) := by
    rw [hs.1]; ring
  have hfold := propLevelFold_inv (s.currentRisk * decay) net.edgeList s.currentLevel
    s.contributions [] s.visited hunit
    ⟨fun x hx => absurd hx (List.not_mem_nil x), fun x hx => hs.2.2 x hx⟩
  constructor
  · refine ⟨hcr, ?_, ?_⟩
    · intro x hx
      rw [← hcr]
      exact hfold.1.1 x hx
    · intro x hx
      exact hfold.1.2 x hx
  · intro x hx
    exact hfold.2 x hx

theorem propIter_inv (net : Network) (decay r : ℚ) (src : String) (k : ℕ)
    (hunit : ∀ e ∈ net.edgeList, e.confidence = 1 ∧ e.weight = 1) :
    StateInv ((propStep net decay)^[k] (propInit src r)) r decay k := by
  induction k with
  | zero =>
    refine ⟨by simp [propInit], ?_, ?_⟩
    · intro x hx
      have : x = src := by simpa [propInit] using hx
      subst this
      simp [propInit, dGet?]
    · intro x hx
      by_cases h : src = x
      · simp [propInit, h]
      · simp [propInit, dGet?, h] at hx
  | succ k ih =>
    rw [Function.iterate_succ_apply']
    exact (propStep_inv net decay r k _ hunit ih).1

theorem propIter_persist (net : Network) (decay r : ℚ) (src : String) (k j : ℕ)
    (x : String) (q : ℚ)
    (hunit : ∀ e ∈ net.edgeList, e.confidence = 1 ∧ e.weight = 1)
    (hx : dGet? ((propStep net decay)^[k] (propInit src r)).contributions x = some q) :
    dGet? ((propStep net decay)^[k + j] (propInit src r)).contributions x = some q := by
  induction j with
  | zero => exact hx
  | succ j ih =>
    have hinv := propIter_inv net decay r src (k + j) hunit
    have hpres := (propStep_inv net decay r (k + j) _ hunit hinv).2 x (by rw [ih]; rfl)
    have heq : k + (j + 1) = (k + j) + 1 := by omega
    rw [heq, Function.iterate_succ_apply', hpres, ih]

theorem propStep_emptyLevel (net : Network) (decay : ℚ) (s : PropState)
    (h : s.currentLevel = []) :
    (propStep net decay s).contributions = s.contributions ∧
    (propStep net decay s).currentLevel = [] := by
  simp [propStep, h]

theorem propIter_emptyLevel (net : Network) (decay : ℚ) (n : ℕ) (s : PropState)
    (h : s.currentLevel = []) :
    ((propStep net decay)^[n] s).contributions = s.contributions ∧
    ((propStep net decay)^[n] s).currentLevel = [] := by
  induction n generalizing s with
  | zero => exact ⟨rfl, h⟩
  | succ n ih =>
    rw [Function.iterate_succ_apply]
    have h2 := propStep_emptyLevel net decay s h
    have h3 := ih (propStep net decay s) h2.2
    exact ⟨h3.1.trans h2.1, h3.2⟩

theorem propLoop_contributions (net : Network) (decay : ℚ) (n : ℕ) (s : PropState) :
    (propLoop net decay n s).contributions
      = ((propStep net decay)^[n] s).contributions := by
  induction n generalizing s with
  | zero => rfl
  | succ n ih =>
    rw [propLoop, Function.iterate_succ_apply]
    by_cases h : (propStep net decay s).currentLevel = []
    · rw [if_pos (by simp [h])]
      exact (propIter_emptyLevel net decay n (propStep net decay s) h).1.symm
    · rw [if_neg (by simp [h])]
      exact ih (propStep net decay s)

/-- C9 (counterexample): with decay 0.5 strictly between 0 and 1 and source
risk 0.8 > 0, the node `B` reached at hop 1 receives contribution 0.4, while
`C`, reached at hop 2 over an edge of weight 10, receives 2 — the hop-2
contribution is not smaller than the hop-1 contribution, refuting the claim
for general networks. -/
theorem risk_decay_counterexample :
    "B" ∈ ((propStep riskNet (1 / 2))^[1] (propInit "A" (4 / 5))).currentLevel ∧
    "C" ∈ ((propStep riskNet (1 / 2))^[2] (propInit "A" (4 / 5))).currentLevel ∧
    dGet? (propagate_risk riskNet "A" 2 (1 / 2)) "B" = some (2 / 5) ∧
    dGet? (propagate_risk riskNet "A" 2 (1 / 2)) "C" = some 2 ∧
    ¬((2 : ℚ) < 2 / 5) := by
  with_unfolding_all decide

/-- C9 (amended): when every edge has unit confidence and unit weight, for
`decay ∈ (0,1)` and a source with positive risk, a node reached at hop
distance `d+1` records contribution `r·decay^(d+1)`, strictly smaller than
the contribution `r·decay^d` recorded for any node reached at hop `d`. -/
theorem risk_decay_monotone (net : Network) (src : String) (maxHops : ℕ)
    (decay : ℚ) (nd : NetworkNode) (d : ℕ) (u v : String)
    (hunit : ∀ e ∈ net.edgeList, e.confidence = 1 ∧ e.weight = 1)
    (h0 : 0 < decay) (h1 : decay < 1)
    (hsrc : dGet? net.nodes src = some nd) (hr : 0 < nd.risk_score)
    (hd : d + 1 ≤ maxHops)
    (hu : u ∈ ((propStep net decay)^[d] (propInit src nd.risk_score)).currentLevel)
    (hv : v ∈ ((propStep net decay)^[d + 1] (propInit src nd.risk_score)).currentLevel) :
    dGet? (propagate_risk net src maxHops decay) v
        = some (nd.risk_score * decay ^ (d + 1)) ∧
    dGet? (propagate_risk net src maxHops decay) u
        = some (nd.risk_score * decay ^ d) ∧
    nd.risk_score * decay ^ (d + 1) < nd.risk_score * decay ^ d := by
  have hprop : propagate_risk net src maxHops decay
      = (propLoop net decay maxHops (propInit src nd.risk_score)).contributions := by
    rw [propagate_risk, hsrc]
  have hcu : dGet? ((propStep net decay)^[d] (propInit src nd.risk_score)).contributions u
      = some (nd.risk_score * decay ^ d) :=
    (propIter_inv net decay nd.risk_score src d hunit).2.1 u hu
  have hcv : dGet? ((propStep net decay)^[d + 1] (propInit src nd.risk_score)).contributions v
      = some (nd.risk_score * decay ^ (d + 1)) :=
    (propIter_inv net decay nd.risk_score src (d + 1) hunit).2.1 v hv
  have hmu : dGet? ((propStep net decay)^[maxHops] (propInit src nd.risk_score)).contributions u
      = some (nd.risk_score * decay ^ d) := by
    have := propIter_persist net decay nd.risk_score src d (maxHops - d) u _ hunit hcu
    rwa [Nat.add_sub_cancel' (by omega)] at this
  have hmv : dGet? ((propStep net decay)^[maxHops] (propInit src nd.risk_score)).contributions v
      = some (nd.risk_score * decay ^ (d + 1)) := by
    have := propIter_persist net decay nd.risk_score src (d + 1) (maxHops - (d + 1)) v _ hunit hcv
    rwa [Nat.add_sub_cancel' hd] at this
  have hlt : nd.risk_score * decay ^ (d + 1) < nd.risk_score * decay ^ d := by
    have hp : decay ^ (d + 1) < decay ^ d :=
      pow_lt_pow_right_of_lt_one₀ h0 h1 (by omega)
    exact mul_lt_mul_of_pos_left hp hr
  rw [hprop, propLoop_contributions]
  exact ⟨hmv, hmu, hlt⟩

theorem risk_decay_monotone_witness :
    dGet? (propagate_risk riskNetUnit "A" 2 (1 / 2)) "C"
        = some (nodeA.risk_score * (1 / 2) ^ (1 + 1)) ∧
    dGet? (propagate_risk riskNetUnit "A" 2 (1 / 2)) "B"
        = some (nodeA.risk_score * (1 / 2) ^ 1) ∧
    nodeA.risk_score * (1 / 2) ^ (1 + 1) < nodeA.risk_score * (1 / 2) ^ 1 :=
  risk_decay_monotone riskNetUnit "A" 2 (1 / 2) nodeA 1 "B" "C"
    (by with_unfolding_all decide) (by norm_num) (by norm_num)
    (by with_unfolding_all decide) (by norm_num [nodeA]) (by omega)
    (by with_unfolding_all decide) (by with_unfolding_all decide)

/-! # Claim C3: edge creation and inference idempotence -/

theorem dGet?_isSome_iff_mem [DecidableEq κ] (l : List (κ × α)) (k : κ) :
    (dGet? l k).isSome ↔ k ∈ l.map (·.1) := by
  induction l with
  | nil => simp [dGet?]
  | cons p ps ih =>
    by_cases hp : p.1 = k
    · simp [dGet?, hp]
    · simp [dGet?, hp, ih, Ne.symm hp]

theorem dGet?_none_of_append [DecidableEq κ] (l l' : List (κ × α)) (k : κ)
    (h : dGet? (l ++ l') k = none) : dGet? l k = none := by
  rcases hl : dGet? l k with _ | v
  · rfl
  · rw [dGet?_append_left l l' k (by rw [hl]; rfl), hl] at h
    cases h

/-- An edge relationship kind that feeds `TransactionPatternRule`. -/
def isTxEdge (e : NetworkEdge) : Prop :=
  e.relationship_type = .SENT_TO ∨ e.relationship_type = .RECEIVED_FROM

instance (e : NetworkEdge) : Decidable (isTxEdge e) := by
  unfold isTxEdge
  infer_instance

/-- The transaction edges a network offers to `TransactionPatternRule`. -/
def txEdges (net : Network) : List NetworkEdge :=
  net.edgeList.filter fun e =>
    decide (e.relationship_type = .SENT_TO ∨ e.relationship_type = .RECEIVED_FROM)

theorem txCounts_eq_txEdges (net : Network) :
    txCounts net.edgeList
      = (txEdges net).foldl
        (fun m e =>
          let k := pairKey e.source_id e.target_id
          let cur := (dGet? m k).getD (0, 0)
          dSet m k (cur.1 + 1, cur.2 + amountOf e))
        [] := rfl

theorem addInferred_nodes (es : List NetworkEdge) (net : Network) (acc : List NetworkEdge) :
    (addInferred es net acc).1.nodes = net.nodes := by
  induction es generalizing net acc with
  | nil => rfl
  | cons e es ih =>
    rw [addInferred]
    split
    · exact ih net acc
    · exact ih (net.add_edge e) (acc ++ [e])

theorem addInferred_edges_ext (es : List NetworkEdge) (net : Network) (acc : List NetworkEdge) :
    ∃ ext, (addInferred es net acc).1.edges = net.edges ++ ext ∧
      ∀ p ∈ ext, p.2 ∈ es ∧ p.1 = p.2.id := by
  induction es generalizing net acc with
  | nil => exact ⟨[], by simp [addInferred], by simp⟩
  | cons e es ih =>
    rw [addInferred]
    split
    · obtain ⟨ext, he, hm⟩ := ih net acc
      exact ⟨ext, he, fun p hp => ⟨List.mem_cons_of_mem _ (hm p hp).1, (hm p hp).2⟩⟩
    · rename_i h
      obtain ⟨ext, he, hm⟩ := ih (net.add_edge e) (acc ++ [e])
      refine ⟨(e.id, e) :: ext, ?_, ?_⟩
      · rw [he]
        show dSet net.edges e.id e ++ ext = _
        rw [dSet_of_dGet?_none _ _ _ (Option.not_isSome_iff_eq_none.1 h)]
        simp
      · intro p hp
        rcases List.mem_cons.1 hp with rfl | hp'
        · exact ⟨by simp, rfl⟩
        · exact ⟨List.mem_cons_of_mem _ (hm p hp').1, (hm p hp').2⟩

theorem addInferred_grow (es : List NetworkEdge) (net : Network) (acc : List NetworkEdge)
    (x : String) (h : (dGet? net.edges x).isSome) :
    (dGet? (addInferred es net acc).1.edges x).isSome := by
  obtain ⟨ext, he, -⟩ := addInferred_edges_ext es net acc
  rw [he]
  exact dGet?_isSome_of_append _ _ _ h

theorem addInferred_skipAll (es : List NetworkEdge) (net : Network) (acc : List NetworkEdge)
    (h : ∀ e ∈ es, (dGet? net.edges e.id).isSome) : addInferred es net acc = (net, acc) := by
  induction es with
  | nil => rfl
  | cons e es ih =>
    rw [addInferred, if_pos (h e (by simp))]
    exact ih fun f hf => h f (by simp [hf])

theorem addInferred_present (es : List NetworkEdge) (net : Network) (acc : List NetworkEdge) :
    ∀ e ∈ es, (dGet? (addInferred es net acc).1.edges e.id).isSome := by
  induction es generalizing net acc with
  | nil => intro e he; cases he
  | cons e es ih =>
    intro f hf
    rw [addInferred]
    split
    · rename_i h
      rcases List.mem_cons.1 hf with rfl | hf'
      · exact addInferred_grow es net acc f.id h
      · exact ih net acc f hf'
    · rcases List.mem_cons.1 hf with rfl | hf'
      · exact addInferred_grow es (net.add_edge f) (acc ++ [f]) f.id
          (by show (dGet? (dSet net.edges f.id f) f.id).isSome; rw [dGet?_dSet_self]; rfl)
      · exact ih (net.add_edge e) (acc ++ [e]) f hf'

theorem addInferred_acc_inv (es : List NetworkEdge) (net : Network) (acc : List NetworkEdge)
    (net0 : Network)
    (hext : ∃ ext, net.edges = net0.edges ++ ext)
    (hfresh : ∀ a ∈ acc, dGet? net0.edges a.id = none)
    (hnodup : (acc.map (·.id)).Nodup)
    (hpres : ∀ a ∈ acc, (dGet? net.edges a.id).isSome) :
    (∀ a ∈ (addInferred es net acc).2, dGet? net0.edges a.id = none) ∧
    ((addInferred es net acc).2.map (·.id)).Nodup ∧
    (∀ a ∈ (addInferred es net acc).2, (dGet? (addInferred es net acc).1.edges a.id).isSome) := by
  induction es generalizing net acc with
  | nil => exact ⟨hfresh, hnodup, fun a ha => hpres a ha⟩
  | cons e es ih =>
    rw [addInferred]
    split
    · exact ih net acc hext hfresh hnodup hpres
    · rename_i h
      have hnone : dGet? net.edges e.id = none := Option.not_isSome_iff_eq_none.1 h
      have hfresh0 : dGet? net0.edges e.id = none := by
        obtain ⟨ext, hex⟩ := hext
        exact dGet?_none_of_append _ _ _ (hex ▸ hnone)
      have hnotin : e.id ∉ acc.map (·.id) := by
        intro hmem
        obtain ⟨a, ha, hida⟩ := List.mem_map.1 hmem
        have := hpres a ha
        rw [hida, hnone] at this
        cases this
      have hsetapp : dSet net.edges e.id e = net.edges ++ [(e.id, e)] :=
        dSet_of_dGet?_none _ _ _ hnone
      refine ih (net.add_edge e) (acc ++ [e]) ?_ ?_ ?_ ?_
      · obtain ⟨ext, hex⟩ := hext
        exact ⟨ext ++ [(e.id, e)], by
          show dSet net.edges e.id e = _
          rw [hsetapp, hex, List.append_assoc]⟩
      · intro a ha
        rcases List.mem_append.1 ha with ha' | ha'
        · exact hfresh a ha'
        · have : a = e := by simpa using ha'
          subst this
          exact hfresh0
      · rw [List.map_append]
        simp only [List.map_cons, List.map_nil]
        exact List.Nodup.append hnodup (List.nodup_singleton _)
          (by simpa [List.disjoint_singleton] using hnotin)
      · intro a ha
        show (dGet? (dSet net.edges e.id e) a.id).isSome
        rcases List.mem_append.1 ha with ha' | ha'
        · rw [hsetapp]
          exact dGet?_isSome_of_append _ _ _ (hpres a ha')
        · have : a = e := by simpa using ha'
          subst this
          rw [dGet?_dSet_self]
          rfl

theorem sharedPairs_rel (attrName : String) (rel : RelationshipType) (conf : ℚ)
    (value : Str) (l : List NetworkNode) (e : NetworkEdge)
    (he : e ∈ sharedPairs attrName rel conf value l) : e.relationship_type = rel := by
  induction l with
  | nil => cases he
  | cons a rest ih =>
    rw [sharedPairs] at he
    rcases List.mem_append.1 he with hm | hm
    · obtain ⟨b, -, rfl⟩ := List.mem_map.1 hm
      rfl
    · exact ih hm

theorem sharedAttributeApply_rel (attrName : String) (rel : RelationshipType) (conf : ℚ)
    (net : Network) (e : NetworkEdge) (he : e ∈ sharedAttributeApply attrName rel conf net) :
    e.relationship_type = rel := by
  obtain ⟨g, -, hm⟩ := List.mem_flatMap.1 he
  exact sharedPairs_rel attrName rel conf g.1 g.2 e hm

theorem transactionPatternApply_rel (minTx : ℕ) (conf : ℚ) (edges : List NetworkEdge)
    (e : NetworkEdge) (he : e ∈ transactionPatternApply minTx conf edges) :
    e.relationship_type = .TRANSACTED_WITH := by
  obtain ⟨entry, -, hf⟩ := List.mem_filterMap.1 he
  by_cases h : minTx ≤ entry.2.1
  · rw [if_pos h] at hf
    cases hf
    rfl
  · rw [if_neg h] at hf
    cases hf

theorem defaultRules_no_tx : ∀ r ∈ defaultRules, ∀ (net : Network) (e : NetworkEdge),
    e ∈ r.apply net → ¬isTxEdge e := by
  intro r hr net e he
  fin_cases hr
  · have := sharedAttributeApply_rel _ _ _ _ _ he
    simp [isTxEdge, this]
  · have := sharedAttributeApply_rel _ _ _ _ _ he
    simp [isTxEdge, this]
  · have := sharedAttributeApply_rel _ _ _ _ _ he
    simp [isTxEdge, this]
  · have := transactionPatternApply_rel _ _ _ _ he
    simp [isTxEdge, this]

theorem apply_congr (r : InferenceRule) (net net' : Network)
    (hn : net'.nodes = net.nodes) (ht : txEdges net' = txEdges net) :
    r.apply net' = r.apply net := by
  cases r with
  | shared a rel conf =>
    simp [InferenceRule.apply, sharedAttributeApply, Network.nodeList, hn]
  | txPattern m c =>
    show transactionPatternApply m c net'.edgeList = transactionPatternApply m c net.edgeList
    unfold transactionPatternApply
    rw [txCounts_eq_txEdges net', txCounts_eq_txEdges net, ht]

theorem txEdges_of_ext (net net' : Network)
    (hext : ∃ ext, net'.edges = net.edges ++ ext ∧ ∀ p ∈ ext, ¬isTxEdge p.2) :
    txEdges net' = txEdges net := by
  obtain ⟨ext, hex, hno⟩ := hext
  unfold txEdges Network.edgeList
  rw [hex, List.map_append, List.filter_append]
  have : (ext.map (·.2)).filter (fun e =>
      decide (e.relationship_type = .SENT_TO ∨ e.relationship_type = .RECEIVED_FROM)) = [] := by
    rw [List.filter_eq_nil_iff]
    intro e hme
    obtain ⟨p, hp, rfl⟩ := List.mem_map.1 hme
    simpa [isTxEdge] using hno p hp
  rw [this, List.append_nil]

theorem runFold_edges_ext (rules : List InferenceRule) (st0 : Network × List NetworkEdge) :
    ∃ ext, (rules.foldl (fun st rule => addInferred (rule.apply st.1) st.1 st.2) st0).1.edges
      = st0.1.edges ++ ext := by
  induction rules generalizing st0 with
  | nil => exact ⟨[], by simp⟩
  | cons r2 rs2 ih2 =>
    simp only [List.foldl_cons]
    obtain ⟨e2, he2, -⟩ := addInferred_edges_ext (r2.apply st0.1) st0.1 st0.2
    obtain ⟨e3, he3⟩ := ih2 (addInferred (r2.apply st0.1) st0.1 st0.2)
    exact ⟨e2 ++ e3, by rw [he3, he2, List.append_assoc]⟩

/-- The invariant carried through the `run_inference` rule fold. -/
def RunInv (net0 netk : Network) (acc : List NetworkEdge) : Prop :=
  netk.nodes = net0.nodes ∧
  (∃ ext, netk.edges = net0.edges ++ ext ∧ ∀ p ∈ ext, ¬isTxEdge p.2) ∧
  (∀ a ∈ acc, dGet? net0.edges a.id = none) ∧
  ((acc.map (·.id)).Nodup) ∧
  (∀ a ∈ acc, (dGet? netk.edges a.id).isSome)

theorem runFold_inv (rules : List InferenceRule)
    (hno : ∀ r ∈ rules, ∀ (net : Network) (e : NetworkEdge), e ∈ r.apply net → ¬isTxEdge e)
    (net0 netk : Network) (acc : List NetworkEdge) (hi : RunInv net0 netk acc) :
    RunInv net0
      (rules.foldl (fun st rule => addInferred (rule.apply st.1) st.1 st.2) (netk, acc)).1
      (rules.foldl (fun st rule => addInferred (rule.apply st.1) st.1 st.2) (netk, acc)).2 ∧
    ∀ r ∈ rules, ∀ e ∈ r.apply
      (rules.foldl (fun st rule => addInferred (rule.apply st.1) st.1 st.2) (netk, acc)).1,
      (dGet? (rules.foldl (fun st rule => addInferred (rule.apply st.1) st.1 st.2)
        (netk, acc)).1.edges e.id).isSome := by
  induction rules generalizing netk acc with
  | nil => exact ⟨hi, fun r hr => absurd hr (List.not_mem_nil r)⟩
  | cons r rs ih =>
    simp only [List.foldl_cons]
    obtain ⟨hn, hext, hfresh, hnodup, hpres⟩ := hi
    have hno_r := hno r (by simp)
    have hno_rs : ∀ q ∈ rs, ∀ (net : Network) (e : NetworkEdge), e ∈ q.apply net → ¬isTxEdge e :=
      fun q hq => hno q (by simp [hq])
    -- one addInferred step preserves the invariant
    have hstep : RunInv net0 (addInferred (r.apply netk) netk acc).1
        (addInferred (r.apply netk) netk acc).2 := by
      obtain ⟨ext1, hex1, hm1⟩ := addInferred_edges_ext (r.apply netk) netk acc
      obtain ⟨ext0, hex0, hno0⟩ := hext
      have hacc := addInferred_acc_inv (r.apply netk) netk acc net0
        ⟨ext0, hex0⟩ hfresh hnodup hpres
      refine ⟨?_, ?_, hacc.1, hacc.2.1, hacc.2.2⟩
      · rw [addInferred_nodes, hn]
      · refine ⟨ext0 ++ ext1, ?_, ?_⟩
        · rw [hex1, hex0, List.append_assoc]
        · intro p hp
          rcases List.mem_append.1 hp with hp' | hp'
          · exact hno0 p hp'
          · exact hno_r netk p.2 (hm1 p hp').1
    have hres := ih hno_rs _ _ hstep
    refine ⟨hres.1, ?_⟩
    intro q hq
    rcases List.mem_cons.1 hq with rfl | hq'
    · -- the rule just processed: its output over the final network equals its
      -- output over netk, every edge of which is now present
      intro e he
      have happly : q.apply (rs.foldl (fun st rule => addInferred (rule.apply st.1) st.1 st.2)
          (addInferred (q.apply netk) netk acc)).1 = q.apply netk := by
        apply apply_congr
        · rw [hres.1.1, hn]
        · exact (txEdges_of_ext net0 _ hres.1.2.1).trans
            (txEdges_of_ext net0 netk hext).symm
      rw [happly] at he
      have hpres1 := addInferred_present (q.apply netk) netk acc e he
      obtain ⟨extr, hextr⟩ :=
        runFold_edges_ext rs (addInferred (q.apply netk) netk acc)
      rw [hextr]
      exact dGet?_isSome_of_append _ _ _ hpres1
    · exact hres.2 q hq'

theorem runFold_fixed (rules : List InferenceRule) (n : Network) (acc : List NetworkEdge)
    (h : ∀ r ∈ rules, ∀ e ∈ r.apply n, (dGet? n.edges e.id).isSome) :
    rules.foldl (fun st rule => addInferred (rule.apply st.1) st.1 st.2) (n, acc) = (n, acc) := by
  induction rules with
  | nil => rfl
  | cons r rs ih =>
    simp only [List.foldl_cons]
    rw [addInferred_skipAll _ _ _ (h r (by simp))]
    exact ih fun q hq => h q (by simp [hq])

/-- C3: `create_edge` is idempotent — a second call with the same
`(source, target, kind)` triple overwrites the same derived id, leaving the
network unchanged with exactly one stored edge under that id — and
`run_inference` only ever adds edges whose ids are absent (their ids are fresh
and pairwise distinct), so running it a second time adds nothing at all. -/
theorem edge_inference_idempotent (net : Network) (s t : String) (k : RelationshipType)
    (attrs : List (String × PyVal)) (w c : ℚ)
    (hnodup : (net.edges.map (·.1)).Nodup) :
    create_edge (create_edge net s t k attrs w c) s t k attrs w c
      = create_edge net s t k attrs w c ∧
    ((create_edge (create_edge net s t k attrs w c) s t k attrs w c).edges.map (·.1)).count
        (edgeId s t k) = 1 ∧
    (∀ e ∈ (run_inference net).2, dGet? net.edges e.id = none) ∧
    ((run_inference net).2.map (·.id)).Nodup ∧
    run_inference (run_inference net).1 = ((run_inference net).1, []) := by
  have h1 : create_edge (create_edge net s t k attrs w c) s t k attrs w c
      = create_edge net s t k attrs w c := by
    simp [create_edge, Network.add_edge, dSet_dSet_self]
  have hinv := runFold_inv defaultRules defaultRules_no_tx net net []
    ⟨rfl, ⟨[], by simp, by simp⟩, by simp, by simp, by simp⟩
  refine ⟨h1, ?_, fun e he => hinv.1.2.2.1 e he, hinv.1.2.2.2.1, ?_⟩
  · rw [h1]
    show ((dSet net.edges (edgeId s t k) _).map (·.1)).count (edgeId s t k) = 1
    rw [keys_dSet]
    by_cases h : (dGet? net.edges (edgeId s t k)).isSome
    · rw [if_pos h]
      exact List.count_eq_one_of_mem hnodup ((dGet?_isSome_iff_mem _ _).1 h)
    · rw [if_neg h, List.count_append]
      have : (net.edges.map (·.1)).count (edgeId s t k) = 0 := by
        rw [List.count_eq_zero]
        intro hmem
        exact h ((dGet?_isSome_iff_mem _ _).2 hmem)
      simp [this]
  · simp only [run_inference]
    exact runFold_fixed defaultRules _ [] hinv.2

theorem edge_inference_idempotent_witness :
    ((({} : Network).edges.map (·.1)).Nodup) ∧
    create_edge (create_edge {} "S" "T" .OWNS [] 1 1) "S" "T" .OWNS [] 1 1
      = create_edge {} "S" "T" .OWNS [] 1 1 :=
  ⟨by simp, (edge_inference_idempotent {} "S" "T" .OWNS [] 1 1 (by simp)).1⟩

/-! # Levenshtein row DP correctness

`levLoop`/`levAux` (the translation of the source's row dynamic program) are
proved equal to the reference recurrence `levRec`; bounds and symmetry follow
from `levRec`. -/

/-- The row the DP maintains: entry `j` is the distance between the processed
prefix of `s1` (stored reversed in `xs`) and the prefix of `s2` of length `j`
beyond the processed part (stored reversed in `acc`). -/
def rowT (xs : Str) : Str → Str → List ℕ
  | acc, [] => [levRec xs acc]
  | acc, c :: cs => levRec xs acc :: rowT xs (c :: acc) cs

theorem rowT_eq_cons (xs acc t : Str) :
    rowT xs acc t = levRec xs acc :: (rowT xs acc t).tail := by
  cases t <;> rfl

theorem rowT_headD (xs acc t : Str) : (rowT xs acc t).headD 0 = levRec xs acc := by
  cases t <;> rfl

theorem levRec_nil_right (xs : Str) : levRec xs [] = xs.length := by
  cases xs <;> simp [levRec]

theorem levRec_cons_cons (x y : Char) (xs ys : Str) :
    levRec (x :: xs) (y :: ys)
      = min (levRec xs (y :: ys) + 1)
          (min (levRec (x :: xs) ys + 1) (levRec xs ys + if x = y then 0 else 1)) := by
  rw [levRec]

theorem levAux_rowT (c1 : Char) (xs : Str) (t : Str) : ∀ acc : Str,
    levAux c1 t (levRec xs acc) (rowT xs acc t).tail (levRec (c1 :: xs) acc)
      = (rowT (c1 :: xs) acc t).tail := by
  induction t with
  | nil => intro acc; rfl
  | cons c2 cs ih =>
    intro acc
    have h1 : (rowT xs acc (c2 :: cs)).tail = rowT xs (c2 :: acc) cs := rfl
    rw [h1, rowT_eq_cons xs (c2 :: acc) cs]
    simp only [levAux]
    rw [← levRec_cons_cons]
    have h2 : (rowT (c1 :: xs) acc (c2 :: cs)).tail = rowT (c1 :: xs) (c2 :: acc) cs := rfl
    rw [h2, rowT_eq_cons (c1 :: xs) (c2 :: acc) cs]
    exact congrArg _ (ih (c2 :: acc))

theorem levLoop_rowT (s2 : Str) (rest : Str) : ∀ xs : Str,
    levLoop s2 rest xs.length (rowT xs [] s2) = rowT (rest.reverse ++ xs) [] s2 := by
  induction rest with
  | nil => intro xs; simp [levLoop]
  | cons c1 rest' ih =>
    intro xs
    rw [levLoop, rowT_headD]
    have hidx : xs.length + 1 = levRec (c1 :: xs) [] := by
      rw [levRec_nil_right]; rfl
    rw [hidx, levAux_rowT c1 xs s2 [], ← rowT_eq_cons]
    have h3 : levRec (c1 :: xs) [] = (c1 :: xs).length := levRec_nil_right _
    rw [h3, ih (c1 :: xs)]
    simp

theorem rowT_nil_eq_range' (t : Str) : ∀ acc : Str,
    rowT [] acc t = List.range' acc.length (t.length + 1) := by
  induction t with
  | nil => intro acc; simp [rowT, levRec]
  | cons c cs ih =>
    intro acc
    rw [rowT, ih (c :: acc)]
    nth_rewrite 2 [List.range'_succ]
    simp [levRec]

theorem rowT_getLastD (xs t : Str) : ∀ (acc : Str) (d : ℕ),
    (rowT xs acc t).getLastD d = levRec xs (t.reverse ++ acc) := by
  induction t with
  | nil => intro acc d; simp [rowT]
  | cons c cs ih =>
    intro acc d
    rw [rowT, List.getLastD_cons, ih (c :: acc)]
    simp

theorem levCore (s1 s2 : Str) :
    (if s2.length = 0 then s1.length
     else (levLoop s2 s1 0 (List.range (s2.length + 1))).getLastD 0)
      = levRec s1.reverse s2.reverse := by
  by_cases h : s2.length = 0
  · rw [if_pos h]
    have : s2 = [] := List.length_eq_zero.1 h
    subst this
    simp [levRec_nil_right]
  · rw [if_neg h]
    have hr : List.range (s2.length + 1) = rowT [] [] s2 := by
      rw [rowT_nil_eq_range' s2 []]
      simp [List.range_eq_range']
    rw [hr]
    have h0 : (0 : ℕ) = ([] : Str).length := rfl
    rw [h0, levLoop_rowT s2 s1 [], rowT_getLastD]
    simp

theorem levRec_comm : ∀ xs ys : Str, levRec xs ys = levRec ys xs
  | [], ys => by rw [levRec_nil_right]; simp [levRec]
  | x :: xs, [] => by rw [levRec_nil_right]; simp [levRec]
  | x :: xs, y :: ys => by
    rw [levRec_cons_cons, levRec_cons_cons]
    rw [levRec_comm xs (y :: ys), levRec_comm (x :: xs) ys, levRec_comm xs ys]
    have hc : (if x = y then 0 else 1) = (if y = x then 0 else 1) := by
      by_cases hxy : x = y <;> simp [hxy, Ne.symm, eq_comm]
    rw [hc]
    omega
termination_by xs ys => xs.length + ys.length

theorem levRec_le_max : ∀ xs ys : Str, levRec xs ys ≤ max xs.length ys.length
  | [], ys => by simp [levRec]
  | x :: xs, [] => by rw [levRec_nil_right]; simp
  | x :: xs, y :: ys => by
    have h1 := levRec_le_max xs ys
    have h2 : (if x = y then 0 else 1) ≤ 1 := by split <;> omega
    rw [levRec_cons_cons]
    simp only [List.length_cons]
    omega
termination_by xs ys => xs.length + ys.length

theorem levenshtein_distance_eq (a b : Str) :
    levenshtein_distance a b = levRec a.reverse b.reverse := by
  unfold levenshtein_distance
  by_cases h : a.length < b.length
  · simp only [if_pos h]
    rw [levCore b a]
    exact levRec_comm _ _
  · simp only [if_neg h]
    exact levCore a b

theorem levenshtein_distance_comm (a b : Str) :
    levenshtein_distance a b = levenshtein_distance b a := by
  rw [levenshtein_distance_eq, levenshtein_distance_eq]
  exact levRec_comm _ _

theorem levenshtein_distance_le_max (a b : Str) :
    levenshtein_distance a b ≤ max a.length b.length := by
  rw [levenshtein_distance_eq]
  have := levRec_le_max a.reverse b.reverse
  simpa using this

/-! # Jaro matching invariants -/

theorem jwPrefixLen_le (n : ℕ) : ∀ xs ys : Str, jwPrefixLen xs ys n ≤ n := by
  induction n with
  | zero => intro xs ys; cases xs <;> cases ys <;> simp [jwPrefixLen]
  | succ n ih =>
    intro xs ys
    cases xs with
    | nil => simp [jwPrefixLen]
    | cons x xs' =>
      cases ys with
      | nil => simp [jwPrefixLen]
      | cons y ys' =>
        rw [jwPrefixLen]
        split
        · have := ih xs' ys'
          omega
        · omega

theorem jaroFind_spec (c1 : Char) (s2 : Str) (flags : List Bool) (start fin j : ℕ)
    (h : jaroFind c1 s2 flags start fin = some j) :
    flags.getD j true = false ∧ s2.getD j ' ' = c1 := by
  unfold jaroFind at h
  have hp := List.find?_some h
  simp only [Bool.and_eq_true, Bool.not_eq_true', beq_iff_eq] at hp
  exact hp

theorem countP_set_true (flags : List Bool) : ∀ j : ℕ, flags.getD j true = false →
    (flags.set j true).countP id = flags.countP id + 1 := by
  induction flags with
  | nil => intro j h; simp at h
  | cons b bs ih =>
    intro j h
    cases j with
    | zero =>
      simp only [List.getD_cons_zero] at h
      subst h
      simp [List.countP_cons]
    | succ j =>
      simp only [List.getD_cons_succ] at h
      have hset : (b :: bs).set (j + 1) true = b :: bs.set j true := rfl
      rw [hset, List.countP_cons, List.countP_cons, ih j h]
      omega

theorem countP_replicate_false (n : ℕ) : (List.replicate n false).countP id = 0 := by
  induction n with
  | zero => rfl
  | succ n ih => simp [List.replicate, List.countP_cons, ih]

theorem jaroMatches_spec (s2 : Str) (md : ℕ) :
    ∀ (l : List (ℕ × Char)) (s2f : List Bool) (m : ℕ), m = s2f.countP id →
    (jaroMatches s2 md l s2f m).1.length = l.length ∧
    (jaroMatches s2 md l s2f m).2.1.length = s2f.length ∧
    (jaroMatches s2 md l s2f m).2.2 = (jaroMatches s2 md l s2f m).2.1.countP id ∧
    (jaroMatches s2 md l s2f m).2.2 = m + (jaroMatches s2 md l s2f m).1.countP id := by
  intro l
  induction l with
  | nil =>
    intro s2f m hm
    exact ⟨rfl, rfl, hm, by simp [jaroMatches]⟩
  | cons p rest ih =>
    intro s2f m hm
    obtain ⟨i, c1⟩ := p
    rw [jaroMatches]
    rcases hfind : jaroFind c1 s2 s2f (i - md) (min (i + md + 1) s2.length) with _ | j
    · dsimp only
      obtain ⟨ihl, ihf, ihc, ihm⟩ := ih s2f m hm
      refine ⟨by simp [ihl], ihf, ihc, ?_⟩
      rw [ihm]
      simp [List.countP_cons]
    · dsimp only
      have hflag := (jaroFind_spec c1 s2 s2f _ _ j hfind).1
      have hcount : (s2f.set j true).countP id = s2f.countP id + 1 :=
        countP_set_true s2f j hflag
      obtain ⟨ihl, ihf, ihc, ihm⟩ := ih (s2f.set j true) (m + 1) (by rw [hcount, hm])
      refine ⟨by simp [ihl], by simpa using ihf, ihc, ?_⟩
      rw [ihm]
      simp [List.countP_cons]
      omega

theorem jaroTrans_le (l1 : List (Char × Bool)) :
    ∀ (zs : List (Char × Bool)) (t : ℕ), jaroTrans l1 zs t ≤ t + l1.countP (·.2) := by
  induction l1 with
  | nil => intro zs t; simp [jaroTrans]
  | cons p rest ih =>
    intro zs t
    obtain ⟨c, b⟩ := p
    cases b with
    | false =>
      rw [jaroTrans]
      have := ih zs t
      simp only [List.countP_cons]
      simpa using this
    | true =>
      rw [jaroTrans]
      rcases hd : zs.dropWhile (fun p => !p.2) with _ | ⟨⟨c2, b2⟩, zrest⟩
      · rw [hd]
        simp [List.countP_cons]
      · rw [hd]
        dsimp only
        have hrec := ih zrest (t + if c = c2 then 0 else 1)
        have hite : (if c = c2 then 0 else 1) ≤ 1 := by split <;> omega
        have hc : List.countP (fun x => x.2) ((c, true) :: rest)
            = List.countP (fun x => x.2) rest + 1 := by simp [List.countP_cons]
        rw [hc]
        omega

theorem countP_zip_snd (l : Str) : ∀ f : List Bool, l.length = f.length →
    (l.zip f).countP (·.2) = f.countP id := by
  induction l with
  | nil =>
    intro f h
    have : f = [] := List.length_eq_zero.1 h.symm
    subst this
    rfl
  | cons c cs ih =>
    intro f h
    cases f with
    | nil => simp at h
    | cons b bs =>
      simp only [List.length_cons, Nat.succ.injEq] at h
      simp [List.zip_cons_cons, List.countP_cons, ih bs h]

theorem jaro_formula_range (m t l1 l2 : ℕ) (hm : 1 ≤ m) (h1 : m ≤ l1) (h2 : m ≤ l2)
    (ht : t ≤ m) :
    0 ≤ ((m : ℚ) / l1 + (m : ℚ) / l2 + ((m : ℚ) - (t : ℚ) / 2) / m) / 3 ∧
    ((m : ℚ) / l1 + (m : ℚ) / l2 + ((m : ℚ) - (t : ℚ) / 2) / m) / 3 ≤ 1 := by
  have hmq : (1 : ℚ) ≤ (m : ℚ) := by exact_mod_cast hm
  have hl1 : (0 : ℚ) < (l1 : ℚ) := by
    have hn : 0 < l1 := by omega
    exact_mod_cast hn
  have hl2 : (0 : ℚ) < (l2 : ℚ) := by
    have hn : 0 < l2 := by omega
    exact_mod_cast hn
  have hmq0 : (0 : ℚ) < (m : ℚ) := lt_of_lt_of_le one_pos hmq
  have htq : (t : ℚ) ≤ (m : ℚ) := by exact_mod_cast ht
  have htq0 : (0 : ℚ) ≤ (t : ℚ) := Nat.cast_nonneg t
  have hA0 : (0 : ℚ) ≤ (m : ℚ) / l1 := div_nonneg (Nat.cast_nonneg m) hl1.le
  have hA1 : (m : ℚ) / l1 ≤ 1 := (div_le_one hl1).2 (by exact_mod_cast h1)
  have hB0 : (0 : ℚ) ≤ (m : ℚ) / l2 := div_nonneg (Nat.cast_nonneg m) hl2.le
  have hB1 : (m : ℚ) / l2 ≤ 1 := (div_le_one hl2).2 (by exact_mod_cast h2)
  have hC0 : (0 : ℚ) ≤ ((m : ℚ) - (t : ℚ) / 2) / m :=
    div_nonneg (by linarith) hmq0.le
  have hC1 : ((m : ℚ) - (t : ℚ) / 2) / m ≤ 1 := (div_le_one hmq0).2 (by linarith)
  constructor <;> linarith

theorem jaroMain_range (t1 t2 : Str) : 0 ≤ jaroMain t1 t2 ∧ jaroMain t1 t2 ≤ 1 := by
  unfold jaroMain
  by_cases hm : (jaroR t1 t2).2.2 = 0
  · rw [if_pos hm]
    norm_num
  · rw [if_neg hm]
    have hspec := jaroMatches_spec t2 (jaroMd t1 t2) t1.enum
      (List.replicate t2.length false) 0 (countP_replicate_false _).symm
    have hjr : jaroMatches t2 (jaroMd t1 t2) t1.enum (List.replicate t2.length false) 0
        = jaroR t1 t2 := rfl
    rw [hjr] at hspec
    have hs1len : (jaroR t1 t2).1.length = t1.length := by
      have := hspec.1
      rw [List.enum_length] at this
      exact this
    have hs2len : (jaroR t1 t2).2.1.length = t2.length := by
      have := hspec.2.1
      rwa [List.length_replicate] at this
    have hcount1 : (jaroR t1 t2).1.countP id ≤ (jaroR t1 t2).1.length :=
      List.countP_le_length _
    have hcount2 : (jaroR t1 t2).2.1.countP id ≤ (jaroR t1 t2).2.1.length :=
      List.countP_le_length _
    have hsum := hspec.2.2.2
    have hm1 : (jaroR t1 t2).2.2 ≤ t1.length := by omega
    have hm2 : (jaroR t1 t2).2.2 ≤ t2.length := by
      have := hspec.2.2.1
      omega
    have hT : jaroT t1 t2 ≤ (jaroR t1 t2).2.2 := by
      have ha := jaroTrans_le (t1.zip (jaroR t1 t2).1)
        (t2.zip (jaroR t1 t2).2.1) 0
      have hb : (t1.zip (jaroR t1 t2).1).countP (·.2) = (jaroR t1 t2).1.countP id :=
        countP_zip_snd t1 (jaroR t1 t2).1 hs1len.symm
      unfold jaroT
      omega
    exact jaro_formula_range (jaroR t1 t2).2.2 (jaroT t1 t2) t1.length t2.length
      (by omega) hm1 hm2 hT

theorem jaro_similarity_range (s1 s2 : Str) :
    0 ≤ jaro_similarity s1 s2 ∧ jaro_similarity s1 s2 ≤ 1 := by
  unfold jaro_similarity
  by_cases h1 : s1 = [] ∧ s2 = []
  · rw [if_pos h1]; norm_num
  · rw [if_neg h1]
    by_cases h2 : s1 = [] ∨ s2 = []
    · rw [if_pos h2]; norm_num
    · rw [if_neg h2]
      exact jaroMain_range _ _

/-! # Ranges of the remaining similarity functions -/

theorem jaro_winkler_similarity_range (s1 s2 : Str) :
    0 ≤ jaro_winkler_similarity s1 s2 ∧ jaro_winkler_similarity s1 s2 ≤ 1 := by
  unfold jaro_winkler_similarity
  obtain ⟨h0, h1⟩ := jaro_similarity_range s1 s2
  have hp : ((jwPrefixLen (lowerStr s1) (lowerStr s2) 4 : ℕ) : ℚ) ≤ 4 := by
    exact_mod_cast jwPrefixLen_le 4 (lowerStr s1) (lowerStr s2)
  have hp0 : (0 : ℚ) ≤ ((jwPrefixLen (lowerStr s1) (lowerStr s2) 4 : ℕ) : ℚ) :=
    Nat.cast_nonneg _
  constructor
  · have hterm : 0 ≤ ((jwPrefixLen (lowerStr s1) (lowerStr s2) 4 : ℕ) : ℚ) * (1 / 10)
        * (1 - jaro_similarity s1 s2) :=
      mul_nonneg (mul_nonneg hp0 (by norm_num)) (by linarith)
    linarith
  · have key : 0 ≤ (1 - jaro_similarity s1 s2)
        * (1 - ((jwPrefixLen (lowerStr s1) (lowerStr s2) 4 : ℕ) : ℚ) * (1 / 10)) :=
      mul_nonneg (by linarith) (by linarith)
    nlinarith [key]

theorem jaccard_similarity_range (s1 s2 : Str) :
    0 ≤ jaccard_similarity s1 s2 ∧ jaccard_similarity s1 s2 ≤ 1 := by
  unfold jaccard_similarity
  by_cases h1 : s1 = [] ∧ s2 = []
  · rw [if_pos h1]; norm_num
  · rw [if_neg h1]
    by_cases h2 : s1 = [] ∨ s2 = []
    · rw [if_pos h2]; norm_num
    · rw [if_neg h2]
      by_cases h3 : 0 < (getNgrams 2 s1 ∪ getNgrams 2 s2).card
      · rw [if_pos h3]
        have hle : (getNgrams 2 s1 ∩ getNgrams 2 s2).card
            ≤ (getNgrams 2 s1 ∪ getNgrams 2 s2).card :=
          Finset.card_le_card Finset.inter_subset_union
        have hpos : (0 : ℚ) < ((getNgrams 2 s1 ∪ getNgrams 2 s2).card : ℚ) := by
          exact_mod_cast h3
        exact ⟨div_nonneg (Nat.cast_nonneg _) hpos.le,
          (div_le_one hpos).2 (by exact_mod_cast hle)⟩
      · rw [if_neg h3]; norm_num

theorem token_based_similarity_range (s1 s2 : Str) :
    0 ≤ token_based_similarity s1 s2 ∧ token_based_similarity s1 s2 ≤ 1 := by
  unfold token_based_similarity
  by_cases h1 : s1 = [] ∧ s2 = []
  · rw [if_pos h1]; norm_num
  · rw [if_neg h1]
    by_cases h2 : s1 = [] ∨ s2 = []
    · rw [if_pos h2]; norm_num
    · rw [if_neg h2]
      by_cases h3 : (splitWs (lowerStr s1)).toFinset = ∅ ∨ (splitWs (lowerStr s2)).toFinset = ∅
      · rw [if_pos h3]; norm_num
      · rw [if_neg h3]
        push_neg at h3
        have hsub : (splitWs (lowerStr s1)).toFinset
            ⊆ (splitWs (lowerStr s1)).toFinset ∪ (splitWs (lowerStr s2)).toFinset :=
          Finset.subset_union_left
        have hne : ((splitWs (lowerStr s1)).toFinset
            ∪ (splitWs (lowerStr s2)).toFinset).Nonempty := by
          rcases Finset.nonempty_of_ne_empty h3.1 with ⟨x, hx⟩
          exact ⟨x, hsub hx⟩
        have hpos : (0 : ℚ) < (((splitWs (lowerStr s1)).toFinset
            ∪ (splitWs (lowerStr s2)).toFinset).card : ℚ) := by
          exact_mod_cast Finset.card_pos.2 hne
        have hle : ((splitWs (lowerStr s1)).toFinset ∩ (splitWs (lowerStr s2)).toFinset).card
            ≤ ((splitWs (lowerStr s1)).toFinset ∪ (splitWs (lowerStr s2)).toFinset).card :=
          Finset.card_le_card Finset.inter_subset_union
        exact ⟨div_nonneg (Nat.cast_nonneg _) hpos.le,
          (div_le_one hpos).2 (by exact_mod_cast hle)⟩

theorem soundex_length (s : Str) : (soundex s).length = 4 := by
  cases s with
  | nil => rfl
  | cons c cs =>
    show ((soundexLoop (upperStr cs) (soundexCode (Char.toUpper c)) [Char.toUpper c]
      ++ "0000".data).take 4).length = 4
    rw [List.length_take, List.length_append]
    have : "0000".data.length = 4 := rfl
    omega

theorem phonetic_similarity_range (s1 s2 : Str) :
    0 ≤ phonetic_similarity s1 s2 ∧ phonetic_similarity s1 s2 ≤ 1 := by
  unfold phonetic_similarity
  by_cases h : soundex s1 = soundex s2
  · rw [if_pos h]; norm_num
  · rw [if_neg h]
    have hcount : ((soundex s1).zip (soundex s2)).countP (fun p => p.1 == p.2) ≤ 4 := by
      have h1 := List.countP_le_length
        (l := (soundex s1).zip (soundex s2)) (fun p : Char × Char => p.1 == p.2)
      have h2 : ((soundex s1).zip (soundex s2)).length = 4 := by
        rw [List.length_zip, soundex_length, soundex_length]
        decide
      omega
    constructor
    · exact div_nonneg (Nat.cast_nonneg _) (by norm_num)
    · rw [div_le_one (by norm_num)]
      exact_mod_cast hcount

theorem levenshtein_similarity_range (s1 s2 : Str) :
    0 ≤ levenshtein_similarity s1 s2 ∧ levenshtein_similarity s1 s2 ≤ 1 := by
  unfold levenshtein_similarity
  by_cases h1 : s1 = [] ∧ s2 = []
  · rw [if_pos h1]; norm_num
  · rw [if_neg h1]
    by_cases h2 : s1 = [] ∨ s2 = []
    · rw [if_pos h2]; norm_num
    · rw [if_neg h2]
      push_neg at h2
      have hd : levenshtein_distance (lowerStr s1) (lowerStr s2)
          ≤ max s1.length s2.length := by
        have := levenshtein_distance_le_max (lowerStr s1) (lowerStr s2)
        simpa [lowerStr] using this
      have hpos : 0 < max s1.length s2.length := by
        have : s1.length ≠ 0 := fun h => h2.1 (List.length_eq_zero.1 h)
        omega
      have hposq : (0 : ℚ) < ((max s1.length s2.length : ℕ) : ℚ) := by exact_mod_cast hpos
      have hdq : ((levenshtein_distance (lowerStr s1) (lowerStr s2) : ℕ) : ℚ)
          ≤ ((max s1.length s2.length : ℕ) : ℚ) := by exact_mod_cast hd
      have hfrac0 : (0 : ℚ) ≤ ((levenshtein_distance (lowerStr s1) (lowerStr s2) : ℕ) : ℚ)
          / ((max s1.length s2.length : ℕ) : ℚ) := div_nonneg (Nat.cast_nonneg _) hposq.le
      have hfrac1 : ((levenshtein_distance (lowerStr s1) (lowerStr s2) : ℕ) : ℚ)
          / ((max s1.length s2.length : ℕ) : ℚ) ≤ 1 := (div_le_one hposq).2 hdq
      constructor <;> linarith

theorem composite_name_score_range (n1 n2 : Str) :
    0 ≤ composite_name_score n1 n2 ∧ composite_name_score n1 n2 ≤ 1 := by
  unfold composite_name_score
  obtain ⟨a0, a1⟩ := jaro_winkler_similarity_range n1 n2
  obtain ⟨b0, b1⟩ := levenshtein_similarity_range n1 n2
  obtain ⟨c0, c1⟩ := jaccard_similarity_range n1 n2
  obtain ⟨d0, d1⟩ := token_based_similarity_range n1 n2
  obtain ⟨e0, e1⟩ := phonetic_similarity_range n1 n2
  constructor <;> linarith

/-! # Range of the pairwise overall score -/

theorem attrWeight_pos (k : String) : 0 < attrWeight k := by
  unfold attrWeight
  split <;> norm_num

theorem mem_idScore (key : String) (a b : Option Str) (p : String × ℚ)
    (hp : p ∈ idScore key a b) : 0 ≤ p.2 ∧ p.2 ≤ 1 := by
  unfold idScore at hp
  split at hp
  · have := List.mem_singleton.1 hp
    subst this
    dsimp only
    split <;> norm_num
  · cases hp

theorem scores_mem_range (ra rb : EntityRecord) :
    ∀ p ∈ (score_candidate_pair ra rb).similarity_scores, 0 ≤ p.2 ∧ p.2 ≤ 1 := by
  intro p hp
  simp only [score_candidate_pair, List.mem_append] at hp
  rcases hp with ((((((hp | hp) | hp) | hp) | hp) | hp) | hp)
  · split at hp
    · have := List.mem_singleton.1 hp
      subst this
      exact composite_name_score_range _ _
    · cases hp
  · split at hp
    · have := List.mem_singleton.1 hp
      subst this
      dsimp only
      split <;> norm_num
    · cases hp
  · split at hp
    · have := List.mem_singleton.1 hp
      subst this
      exact jaro_winkler_similarity_range _ _
    · cases hp
  · exact mem_idScore _ _ _ _ hp
  · exact mem_idScore _ _ _ _ hp
  · exact mem_idScore _ _ _ _ hp
  · exact mem_idScore _ _ _ _ hp

theorem wsum_bounds (l : List (String × ℚ)) (h : ∀ p ∈ l, 0 ≤ p.2 ∧ p.2 ≤ 1) :
    0 ≤ (l.map fun p => p.2 * attrWeight p.1).sum ∧
    (l.map fun p => p.2 * attrWeight p.1).sum ≤ (l.map fun p => attrWeight p.1).sum := by
  induction l with
  | nil => simp
  | cons p ps ih =>
    obtain ⟨hp0, hp1⟩ := h p (by simp)
    obtain ⟨ih0, ih1⟩ := ih fun q hq => h q (by simp [hq])
    have hw := attrWeight_pos p.1
    have h1 : 0 ≤ p.2 * attrWeight p.1 := mul_nonneg hp0 hw.le
    have h2 : p.2 * attrWeight p.1 ≤ attrWeight p.1 :=
      mul_le_of_le_one_left hw.le hp1
    simp only [List.map_cons, List.sum_cons]
    constructor <;> linarith

theorem overall_score_range (ra rb : EntityRecord) :
    0 ≤ (score_candidate_pair ra rb).overall_score ∧
    (score_candidate_pair ra rb).overall_score ≤ 1 := by
  have hmem := scores_mem_range ra rb
  obtain ⟨w0, w1⟩ := wsum_bounds (score_candidate_pair ra rb).similarity_scores hmem
  have hov : (score_candidate_pair ra rb).overall_score
      = (if 0 < ((score_candidate_pair ra rb).similarity_scores.map
            fun p => attrWeight p.1).sum
         then ((score_candidate_pair ra rb).similarity_scores.map
            fun p => p.2 * attrWeight p.1).sum
          / ((score_candidate_pair ra rb).similarity_scores.map fun p => attrWeight p.1).sum
         else 0) := rfl
  rw [hov]
  split
  · rename_i hpos
    exact ⟨div_nonneg w0 (le_of_lt hpos), (div_le_one hpos).2 w1⟩
  · norm_num

/-- C4: every similarity function — Levenshtein similarity, Jaro,
Jaro-Winkler, Jaccard n-gram, token-set, phonetic, and the composite name
score — and every pairwise match `overall_score` lies in `[0, 1]`. -/
theorem similarity_and_match_scores_in_unit_interval :
    (∀ s1 s2 : Str, 0 ≤ levenshtein_similarity s1 s2 ∧ levenshtein_similarity s1 s2 ≤ 1) ∧
    (∀ s1 s2 : Str, 0 ≤ jaro_similarity s1 s2 ∧ jaro_similarity s1 s2 ≤ 1) ∧
    (∀ s1 s2 : Str, 0 ≤ jaro_winkler_similarity s1 s2 ∧ jaro_winkler_similarity s1 s2 ≤ 1) ∧
    (∀ s1 s2 : Str, 0 ≤ jaccard_similarity s1 s2 ∧ jaccard_similarity s1 s2 ≤ 1) ∧
    (∀ s1 s2 : Str, 0 ≤ token_based_similarity s1 s2 ∧ token_based_similarity s1 s2 ≤ 1) ∧
    (∀ s1 s2 : Str, 0 ≤ phonetic_similarity s1 s2 ∧ phonetic_similarity s1 s2 ≤ 1) ∧
    (∀ n1 n2 : Str, 0 ≤ composite_name_score n1 n2 ∧ composite_name_score n1 n2 ≤ 1) ∧
    (∀ ra rb : EntityRecord, 0 ≤ (score_candidate_pair ra rb).overall_score ∧
      (score_candidate_pair ra rb).overall_score ≤ 1) :=
  ⟨levenshtein_similarity_range, jaro_similarity_range, jaro_winkler_similarity_range,
    jaccard_similarity_range, token_based_similarity_range, phonetic_similarity_range,
    composite_name_score_range, overall_score_range⟩

/-! ## C5: symmetry of the similarity functions -/

/-! ### The matching phase as a pair trace -/

/-- Pair trace of the Jaro matching phase: the enumerated `s1` entries that
match, each paired with the `s2` index it claims. -/
def jaroPairs (s2 : Str) (md : ℕ) : List (ℕ × Char) → List Bool → List ((ℕ × Char) × ℕ)
  | [], _ => []
  | (i, c1) :: rest, s2f =>
    match jaroFind c1 s2 s2f (i - md) (min (i + md + 1) s2.length) with
    | none => jaroPairs s2 md rest s2f
    | some j => ((i, c1), j) :: jaroPairs s2 md rest (s2f.set j true)

/-- The characters standing at flagged positions
(`[c for c, f in zip(s, flags) if f]`). -/
def selChars (l : List (Char × Bool)) : Str := (l.filter (·.2)).map (·.1)

theorem selChars_nil : selChars [] = [] := rfl

theorem selChars_cons_true (c : Char) (l : List (Char × Bool)) :
    selChars ((c, true) :: l) = c :: selChars l := by
  simp [selChars, List.filter_cons]

theorem selChars_cons_false (c : Char) (l : List (Char × Bool)) :
    selChars ((c, false) :: l) = selChars l := by
  simp [selChars, List.filter_cons]

theorem jaroMatches_count_pairs (s2 : Str) (md : ℕ) :
    ∀ (l : List (ℕ × Char)) (s2f : List Bool) (m : ℕ),
    (jaroMatches s2 md l s2f m).2.2 = m + (jaroPairs s2 md l s2f).length := by
  intro l
  induction l with
  | nil => intro s2f m; simp [jaroMatches, jaroPairs]
  | cons hd rest ih =>
    obtain ⟨i, c1⟩ := hd
    intro s2f m
    rcases hfind : jaroFind c1 s2 s2f (i - md) (min (i + md + 1) s2.length) with _ | j
    · simp only [jaroMatches, jaroPairs, hfind]
      exact ih s2f m
    · simp only [jaroMatches, jaroPairs, hfind, List.length_cons]
      rw [ih]
      omega

theorem selChars_zip_matches (s2 : Str) (md : ℕ) :
    ∀ (l : List (ℕ × Char)) (s2f : List Bool) (m : ℕ),
    selChars ((l.map (·.2)).zip (jaroMatches s2 md l s2f m).1)
      = (jaroPairs s2 md l s2f).map (·.1.2) := by
  intro l
  induction l with
  | nil => intro s2f m; simp [jaroMatches, jaroPairs, selChars]
  | cons hd rest ih =>
    obtain ⟨i, c1⟩ := hd
    intro s2f m
    rcases hfind : jaroFind c1 s2 s2f (i - md) (min (i + md + 1) s2.length) with _ | j
    · simp only [jaroMatches, jaroPairs, hfind, List.map_cons, List.zip_cons_cons,
        selChars_cons_false]
      exact ih s2f m
    · simp only [jaroMatches, jaroPairs, hfind, List.map_cons, List.zip_cons_cons,
        selChars_cons_true]
      rw [ih]

theorem getD_false_bound (f : List Bool) (j : ℕ) (h : f.getD j true = false) :
    j < f.length := by
  by_contra hj
  rw [List.getD_eq_default _ _ (by omega)] at h
  exact absurd h (by simp)

theorem getD_set_true (f : List Bool) :
    ∀ (j0 j : ℕ) (d : Bool), j0 < f.length →
    (f.set j0 true).getD j d = if j = j0 then true else f.getD j d := by
  induction f with
  | nil => intro j0 j d h; simp at h
  | cons b f ih =>
    intro j0 j d h
    cases j0 with
    | zero =>
      cases j with
      | zero => simp
      | succ k => simp
    | succ m =>
      cases j with
      | zero => simp
      | succ k =>
        have hset : (b :: f).set (m + 1) true = b :: f.set m true := rfl
        rw [hset, List.getD_cons_succ, List.getD_cons_succ,
          ih m k d (by simpa using h)]
        simp [Nat.succ_inj]

theorem jaroMatches_flags_pairs (s2 : Str) (md : ℕ) :
    ∀ (l : List (ℕ × Char)) (s2f : List Bool) (m : ℕ) (j : ℕ),
    (jaroMatches s2 md l s2f m).2.1.getD j false
      = (s2f.getD j false || decide (j ∈ (jaroPairs s2 md l s2f).map (·.2))) := by
  intro l
  induction l with
  | nil => intro s2f m j; simp [jaroMatches, jaroPairs]
  | cons hd rest ih =>
    obtain ⟨i, c1⟩ := hd
    intro s2f m j
    rcases hfind : jaroFind c1 s2 s2f (i - md) (min (i + md + 1) s2.length) with _ | j0
    · simp only [jaroMatches, jaroPairs, hfind]
      exact ih s2f m j
    · have hb := getD_false_bound s2f j0 (jaroFind_spec _ _ _ _ _ _ hfind).1
      simp only [jaroMatches, jaroPairs, hfind, List.map_cons]
      rw [ih, getD_set_true s2f j0 j false hb]
      by_cases hj : j = j0
      · subst hj
        simp
      · have hfalse : (j == j0) = false := beq_eq_false_iff_ne.mpr hj
        simp [hj, List.mem_cons, hfalse]

/-! ### Canonical per-letter greedy matching -/

/-- Per-letter greedy matching within window `md`: both arguments are the
ascending positions of one fixed character in `s1` resp. `s2`; an `s2`
position below the window is discarded, an `s1` position with no reachable
`s2` position stays unmatched, otherwise the two heads are matched. -/
def gMatch (md : ℕ) : List ℕ → List ℕ → List (ℕ × ℕ)
  | [], _ => []
  | _ :: _, [] => []
  | p :: ps, q :: qs =>
    if q + md < p then gMatch md (p :: ps) qs
    else if p + md < q then gMatch md ps (q :: qs)
    else (p, q) :: gMatch md ps qs
termination_by ps qs => ps.length + qs.length

theorem gMatch_nil_left (md : ℕ) (qs : List ℕ) : gMatch md [] qs = [] := by
  simp [gMatch]

theorem gMatch_nil_right (md : ℕ) (ps : List ℕ) : gMatch md ps [] = [] := by
  cases ps <;> simp [gMatch]

theorem gMatch_swap (md : ℕ) : ∀ (ps qs : List ℕ),
    gMatch md qs ps = (gMatch md ps qs).map (fun pr => (pr.2, pr.1))
  | [], qs => by simp [gMatch_nil_left, gMatch_nil_right]
  | _ :: _, [] => by simp [gMatch_nil_left, gMatch_nil_right]
  | p :: ps, q :: qs => by
    simp only [gMatch]
    by_cases h1 : q + md < p
    · have h2 : ¬ p + md < q := by omega
      rw [if_neg h2, if_pos h1, if_pos h1]
      exact gMatch_swap md (p :: ps) qs
    · by_cases h2 : p + md < q
      · rw [if_pos h2, if_neg h1, if_pos h2]
        exact gMatch_swap md ps (q :: qs)
      · rw [if_neg h2, if_neg h1, if_neg h1, if_neg h2, List.map_cons]
        rw [gMatch_swap md ps qs]
termination_by ps qs => ps.length + qs.length

theorem gMatch_dropDead (md : ℕ) : ∀ (D : List ℕ) (ps live : List ℕ),
    (∀ q ∈ D, ∀ p ∈ ps, q + md < p) →
    gMatch md ps (D ++ live) = gMatch md ps live := by
  intro D
  induction D with
  | nil => intro ps live _; rfl
  | cons d D ih =>
    intro ps live h
    cases ps with
    | nil => rw [gMatch_nil_left, gMatch_nil_left]
    | cons p ps =>
      have hd : d + md < p := h d (by simp) p (by simp)
      rw [List.cons_append]
      rw [show gMatch md (p :: ps) (d :: (D ++ live)) = gMatch md (p :: ps) (D ++ live) from by
        simp only [gMatch]; rw [if_pos hd]]
      exact ih (p :: ps) live fun q hq p' hp' => h q (by simp [hq]) p' hp'

theorem gMatch_fst_sublist (md : ℕ) : ∀ (ps qs : List ℕ),
    ((gMatch md ps qs).map (·.1)).Sublist ps
  | [], qs => by simp [gMatch_nil_left]
  | p :: ps, [] => by simp [gMatch_nil_right]
  | p :: ps, q :: qs => by
    simp only [gMatch]
    split_ifs with h1 h2
    · exact gMatch_fst_sublist md (p :: ps) qs
    · exact (gMatch_fst_sublist md ps (q :: qs)).cons p
    · simpa using (gMatch_fst_sublist md ps qs).cons₂ p
termination_by ps qs => ps.length + qs.length

theorem gMatch_snd_sublist (md : ℕ) (ps qs : List ℕ) :
    ((gMatch md ps qs).map (·.2)).Sublist qs := by
  have h := gMatch_fst_sublist md qs ps
  rw [gMatch_swap md ps qs] at h
  simpa [List.map_map, Function.comp] using h

/-! ### Free positions of a letter -/

/-- The ascending positions of `c` in `s`. -/
def posC (c : Char) (s : Str) : List ℕ :=
  (List.range s.length).filter fun j => s.getD j ' ' == c

/-- The ascending positions of still-unmatched occurrences of `c` in `s2`. -/
def freeQ (s2 : Str) (c : Char) (flags : List Bool) : List ℕ :=
  (List.range s2.length).filter fun j =>
    (s2.getD j ' ' == c) && !(flags.getD j true)

theorem freeQ_sorted (s2 : Str) (c : Char) (flags : List Bool) :
    (freeQ s2 c flags).Pairwise (· < ·) :=
  (List.pairwise_lt_range _).filter _

theorem freeQ_nodup (s2 : Str) (c : Char) (flags : List Bool) : (freeQ s2 c flags).Nodup :=
  (List.nodup_range _).filter _

theorem mem_freeQ (s2 : Str) (c : Char) (flags : List Bool) (q : ℕ) :
    q ∈ freeQ s2 c flags ↔
      q < s2.length ∧ s2.getD q ' ' = c ∧ flags.getD q true = false := by
  simp [freeQ, List.mem_filter, List.mem_range, Bool.not_eq_true', and_assoc]

theorem getD_replicate_of_lt {α : Type} (a d : α) : ∀ (n j : ℕ), j < n →
    (List.replicate n a).getD j d = a := by
  intro n
  induction n with
  | zero => intro j h; omega
  | succ n ih =>
    intro j h
    cases j with
    | zero => simp [List.replicate_succ]
    | succ k =>
      rw [List.replicate_succ, List.getD_cons_succ]
      exact ih k (by omega)

theorem freeQ_replicate (s2 : Str) (c : Char) :
    freeQ s2 c (List.replicate s2.length false) = posC c s2 := by
  unfold freeQ posC
  apply List.filter_congr
  intro j hj
  rw [List.mem_range] at hj
  rw [getD_replicate_of_lt false true s2.length j hj]
  simp

theorem freeQ_set (s2 : Str) (flags : List Bool) (j0 : ℕ)
    (hj : flags.getD j0 true = false) (c : Char) :
    freeQ s2 c (flags.set j0 true) = (freeQ s2 c flags).filter fun q => decide (q ≠ j0) := by
  unfold freeQ
  rw [List.filter_filter]
  apply List.filter_congr
  intro j hjr
  rw [getD_set_true flags j0 j true (getD_false_bound flags j0 hj)]
  by_cases h : j = j0
  · subst h; simp
  · simp [h]

theorem filter_ne_self {l : List ℕ} {j0 : ℕ} (h : j0 ∉ l) :
    l.filter (fun q => decide (q ≠ j0)) = l := by
  apply List.filter_eq_self.mpr
  intro a ha
  simp only [decide_eq_true_eq]
  exact fun he => h (he ▸ ha)

/-! ### `find?` plumbing -/

theorem find?_congr' {α : Type} (p q : α → Bool) : ∀ (l : List α),
    (∀ x ∈ l, p x = q x) → l.find? p = l.find? q := by
  intro l
  induction l with
  | nil => intro _; rfl
  | cons a l ih =>
    intro h
    have ha := h a (by simp)
    by_cases hp : p a
    · rw [List.find?_cons_of_pos _ hp, List.find?_cons_of_pos _ (ha ▸ hp)]
    · rw [List.find?_cons_of_neg _ hp, List.find?_cons_of_neg _ (by rw [← ha]; exact hp)]
      exact ih fun x hx => h x (by simp [hx])

theorem find?_filter' {α : Type} (p q : α → Bool) : ∀ (l : List α),
    (l.filter q).find? p = l.find? fun x => q x && p x := by
  intro l
  induction l with
  | nil => rfl
  | cons a l ih =>
    rw [List.filter_cons]
    by_cases hq : q a
    · rw [if_pos hq]
      by_cases hp : p a
      · rw [List.find?_cons_of_pos _ hp, List.find?_cons_of_pos _ (by simp [hp, hq])]
      · rw [List.find?_cons_of_neg _ hp, List.find?_cons_of_neg _ (by simp [hp, hq])]
        exact ih
    · rw [if_neg hq, List.find?_cons_of_neg _ (by simp [hq]), ih]

theorem find?_append_or {α : Type} (p : α → Bool) : ∀ (l1 l2 : List α),
    (l1 ++ l2).find? p = (l1.find? p).or (l2.find? p) := by
  intro l1 l2
  induction l1 with
  | nil => simp
  | cons a l1 ih =>
    by_cases hp : p a
    · rw [List.cons_append, List.find?_cons_of_pos _ hp, List.find?_cons_of_pos _ hp]
      rfl
    · rw [List.cons_append, List.find?_cons_of_neg _ hp, List.find?_cons_of_neg _ hp, ih]

theorem find?_range'_window (n s len : ℕ) (p : ℕ → Bool) (hs : s + len ≤ n)
    (hlow : ∀ j < s, p j = false) (hhigh : ∀ j, s + len ≤ j → j < n → p j = false) :
    (List.range n).find? p = (List.range' s len).find? p := by
  have h1 : List.range' 0 s ++ List.range' s len = List.range' 0 (s + len) := by
    have h := List.range'_append 0 s len 1
    simpa [Nat.add_comm] using h
  have h2 : List.range' 0 (s + len) ++ List.range' (s + len) (n - (s + len))
      = List.range' 0 n := by
    have h := List.range'_append 0 (s + len) (n - (s + len)) 1
    have harith : n - (s + len) + (s + len) = n := by omega
    simpa [harith] using h
  rw [List.range_eq_range', ← h2, ← h1]
  rw [find?_append_or, find?_append_or]
  have hl : (List.range' 0 s).find? p = none := by
    rw [List.find?_eq_none]
    intro x hx
    rw [List.mem_range'_1] at hx
    simp [hlow x (by omega)]
  have hh : (List.range' (s + len) (n - (s + len))).find? p = none := by
    rw [List.find?_eq_none]
    intro x hx
    rw [List.mem_range'_1] at hx
    simp [hhigh x (by omega) (by omega)]
  rw [hl, hh, Option.or_none]
  simp

theorem jaroFind_eq_freeQ (c1 : Char) (s2 : Str) (flags : List Bool) (i md : ℕ) :
    jaroFind c1 s2 flags (i - md) (min (i + md + 1) s2.length)
      = (freeQ s2 c1 flags).find? fun q => decide (i ≤ q + md) && decide (q ≤ i + md) := by
  unfold jaroFind freeQ
  rw [find?_filter']
  by_cases hn : s2.length ≤ i - md
  · have h1 : min (i + md + 1) s2.length - (i - md) = 0 := by omega
    rw [h1]
    rw [show List.range' (i - md) 0 = [] from rfl, List.find?_nil]
    symm
    rw [List.find?_eq_none]
    intro j hj
    rw [List.mem_range] at hj
    have h2 : ¬ i ≤ j + md := by omega
    simp [h2]
  · push_neg at hn
    have hs : (i - md) + (min (i + md + 1) s2.length - (i - md)) ≤ s2.length := by omega
    have hlow : ∀ j < i - md,
        (((s2.getD j ' ' == c1) && !flags.getD j true) &&
          (decide (i ≤ j + md) && decide (j ≤ i + md))) = false := by
      intro j hj
      have h2 : ¬ i ≤ j + md := by omega
      simp [h2]
    have hhigh : ∀ j, (i - md) + (min (i + md + 1) s2.length - (i - md)) ≤ j →
        j < s2.length →
        (((s2.getD j ' ' == c1) && !flags.getD j true) &&
          (decide (i ≤ j + md) && decide (j ≤ i + md))) = false := by
      intro j hj1 hj2
      have h2 : ¬ j ≤ i + md := by omega
      simp [h2]
    rw [find?_range'_window s2.length (i - md) (min (i + md + 1) s2.length - (i - md))
      _ hs hlow hhigh]
    symm
    apply find?_congr'
    intro j hj
    rw [List.mem_range'_1] at hj
    have hw1 : i ≤ j + md := by omega
    have hw2 : j ≤ i + md := by omega
    simp [hw1, hw2, Bool.and_comm]

/-! ### The pair trace decomposes per letter into the greedy -/

/-- First components of the entries of `l` carrying character `c`. -/
def lpos (c : Char) (l : List (ℕ × Char)) : List ℕ :=
  (l.filter fun p => p.2 == c).map (·.1)

/-- The matched pairs of a trace whose `s1` character is `c`, as
`(s1 index, s2 index)` pairs. -/
def letterPairs (c : Char) (tr : List ((ℕ × Char) × ℕ)) : List (ℕ × ℕ) :=
  (tr.filter fun pr => pr.1.2 == c).map fun pr => (pr.1.1, pr.2)

theorem lpos_cons_self (c : Char) (i : ℕ) (l : List (ℕ × Char)) :
    lpos c ((i, c) :: l) = i :: lpos c l := by
  simp [lpos, List.filter_cons]

theorem lpos_cons_ne (c c1 : Char) (h : ¬ c1 = c) (i : ℕ) (l : List (ℕ × Char)) :
    lpos c ((i, c1) :: l) = lpos c l := by
  simp [lpos, List.filter_cons, h]

theorem mem_lpos (c : Char) (l : List (ℕ × Char)) (p : ℕ) :
    p ∈ lpos c l ↔ (p, c) ∈ l := by
  simp only [lpos, List.mem_map, List.mem_filter, beq_iff_eq]
  constructor
  · rintro ⟨⟨a, b⟩, ⟨hm, hb⟩, hp⟩
    simp only at hb hp
    subst hb; subst hp
    exact hm
  · intro h
    exact ⟨(p, c), ⟨h, rfl⟩, rfl⟩

theorem letterPairs_cons_self (c : Char) (i q : ℕ) (tr : List ((ℕ × Char) × ℕ)) :
    letterPairs c (((i, c), q) :: tr) = (i, q) :: letterPairs c tr := by
  simp [letterPairs, List.filter_cons]

theorem letterPairs_cons_ne (c c1 : Char) (h : ¬ c1 = c) (i q : ℕ)
    (tr : List ((ℕ × Char) × ℕ)) :
    letterPairs c (((i, c1), q) :: tr) = letterPairs c tr := by
  simp [letterPairs, List.filter_cons, h]

theorem dropWhile_head_false {α : Type} (p : α → Bool) : ∀ (l : List α) (a : α) (l' : List α),
    l.dropWhile p = a :: l' → p a = false := by
  intro l
  induction l with
  | nil => intro a l' h; simp [List.dropWhile] at h
  | cons b l ih =>
    intro a l' h
    rw [List.dropWhile_cons] at h
    by_cases hb : p b
    · rw [if_pos hb] at h
      exact ih a l' h
    · rw [if_neg hb] at h
      cases h
      simpa using hb

theorem gMatch_dead (md : ℕ) (ps qs : List ℕ) (h : ∀ q ∈ qs, ∀ p ∈ ps, q + md < p) :
    gMatch md ps qs = [] := by
  have h2 := gMatch_dropDead md qs ps [] h
  rw [List.append_nil] at h2
  rw [h2, gMatch_nil_right]

theorem jaroPairs_gMatch (s2 : Str) (md : ℕ) :
    ∀ (l : List (ℕ × Char)) (flags : List Bool),
    l.Pairwise (fun a b => a.1 < b.1) →
    ∀ c, letterPairs c (jaroPairs s2 md l flags)
      = gMatch md (lpos c l) (freeQ s2 c flags) := by
  intro l
  induction l with
  | nil =>
    intro flags _ c
    simp [jaroPairs, letterPairs, lpos, gMatch_nil_left]
  | cons hd rest ih =>
    obtain ⟨i, c1⟩ := hd
    intro flags hpw c
    rw [List.pairwise_cons] at hpw
    obtain ⟨hfut, hpw'⟩ := hpw
    have hfutpos : ∀ p ∈ lpos c1 rest, i < p := fun p hp =>
      hfut (p, c1) ((mem_lpos c1 rest p).mp hp)
    have hW := jaroFind_eq_freeQ c1 s2 flags i md
    have hsplitF := List.takeWhile_append_dropWhile
      (fun q => decide (q + md < i)) (freeQ s2 c1 flags)
    set D := (freeQ s2 c1 flags).takeWhile (fun q => decide (q + md < i)) with hD
    have hDdead : ∀ q ∈ D, q + md < i := by
      intro q hq
      have h1 := List.mem_takeWhile_imp hq
      simpa using h1
    have hDnone : D.find? (fun q => decide (i ≤ q + md) && decide (q ≤ i + md)) = none := by
      rw [List.find?_eq_none]
      intro q hq
      have h1 := hDdead q hq
      have h2 : ¬ i ≤ q + md := by omega
      simp [h2]
    have hDall : ∀ q ∈ D, ∀ p ∈ i :: lpos c1 rest, q + md < p := by
      intro q hq p hp
      rcases List.mem_cons.mp hp with rfl | hp'
      · exact hDdead q hq
      · have h1 := hfutpos p hp'
        have h2 := hDdead q hq
        omega
    have hDall' : ∀ q ∈ D, ∀ p ∈ lpos c1 rest, q + md < p := fun q hq p hp =>
      hDall q hq p (List.mem_cons_of_mem _ hp)
    rcases hlive : (freeQ s2 c1 flags).dropWhile (fun q => decide (q + md < i))
      with _ | ⟨q0, live'⟩
    · -- the free list for `c1` holds only dead positions: no match for `(i, c1)`
      rw [hlive, List.append_nil] at hsplitF
      have hfind : jaroFind c1 s2 flags (i - md) (min (i + md + 1) s2.length) = none := by
        rw [hW, ← hsplitF, hDnone]
      simp only [jaroPairs, hfind]
      by_cases hc : c1 = c
      · subst hc
        rw [lpos_cons_self, gMatch_dead md _ _ (fun q hq => hDall q (hsplitF ▸ hq)),
          ih flags hpw' c1]
        exact gMatch_dead md _ _ fun q hq p hp => hDall' q (hsplitF ▸ hq) p hp
      · rw [lpos_cons_ne c c1 hc]
        exact ih flags hpw' c
    · rw [hlive] at hsplitF
      have hq0nd : ¬ q0 + md < i := by
        have h1 := dropWhile_head_false (fun q => decide (q + md < i)) _ _ _ hlive
        simpa using h1
      have hq0mem : q0 ∈ freeQ s2 c1 flags := by
        rw [← hsplitF]
        exact List.mem_append_right _ (by simp)
      obtain ⟨hq0n, hq0c, hq0f⟩ := (mem_freeQ s2 c1 flags q0).mp hq0mem
      have hlivetail : ∀ q ∈ live', q0 < q := by
        have h1 := List.Pairwise.sublist
          (List.dropWhile_sublist (fun q => decide (q + md < i))) (freeQ_sorted s2 c1 flags)
        rw [hlive, List.pairwise_cons] at h1
        exact h1.1
      by_cases hw : q0 ≤ i + md
      · -- the head of the live list is matched
        have hfind : jaroFind c1 s2 flags (i - md) (min (i + md + 1) s2.length)
            = some q0 := by
          rw [hW, ← hsplitF, find?_append_or, hDnone,
            List.find?_cons_of_pos _ (by
              simp only [Bool.and_eq_true, decide_eq_true_eq]
              exact ⟨by omega, hw⟩)]
          rfl
        simp only [jaroPairs, hfind]
        have hnodup := freeQ_nodup s2 c1 flags
        rw [← hsplitF] at hnodup
        have hdisj := List.disjoint_of_nodup_append hnodup
        have hq0notD : q0 ∉ D := fun h => hdisj h (by simp)
        have hq0notlive' : q0 ∉ live' := by
          have h1 := hnodup.of_append_right
          exact (List.nodup_cons.mp h1).1
        have hfq1 : freeQ s2 c1 (flags.set q0 true) = D ++ live' := by
          rw [freeQ_set s2 flags q0 hq0f c1, ← hsplitF, List.filter_append,
            filter_ne_self hq0notD, List.filter_cons]
          rw [show (decide (q0 ≠ q0)) = false from by simp]
          simp only [Bool.false_eq_true, if_false]
          rw [filter_ne_self hq0notlive']
        by_cases hc : c1 = c
        · subst hc
          rw [letterPairs_cons_self, lpos_cons_self, ih (flags.set q0 true) hpw' c1, hfq1,
            ← hsplitF, gMatch_dropDead md D (i :: lpos c1 rest) (q0 :: live') hDall,
            gMatch_dropDead md D (lpos c1 rest) live' hDall']
          rw [show gMatch md (i :: lpos c1 rest) (q0 :: live')
              = (i, q0) :: gMatch md (lpos c1 rest) live' from by
            simp only [gMatch]
            rw [if_neg hq0nd, if_neg (by omega)]]
        · rw [letterPairs_cons_ne c c1 hc, lpos_cons_ne c c1 hc,
            ih (flags.set q0 true) hpw' c, freeQ_set s2 flags q0 hq0f c,
            filter_ne_self (fun hmem => by
              have h1 := ((mem_freeQ s2 c flags q0).mp hmem).2.1
              rw [hq0c] at h1
              exact hc h1)]
      · -- the whole live list sits above the window: no match for `(i, c1)`
        have hfind : jaroFind c1 s2 flags (i - md) (min (i + md + 1) s2.length)
            = none := by
          rw [hW, ← hsplitF, find?_append_or, hDnone,
            List.find?_cons_of_neg _ (by simp [hw]),
            List.find?_eq_none.mpr (fun q hq => by
              have h1 := hlivetail q hq
              have h2 : ¬ q ≤ i + md := by omega
              simp [h2])]
          rfl
        simp only [jaroPairs, hfind]
        by_cases hc : c1 = c
        · subst hc
          rw [lpos_cons_self, ih flags hpw' c1, ← hsplitF,
            gMatch_dropDead md D (i :: lpos c1 rest) (q0 :: live') hDall,
            gMatch_dropDead md D (lpos c1 rest) (q0 :: live') hDall']
          rw [show gMatch md (i :: lpos c1 rest) (q0 :: live')
              = gMatch md (lpos c1 rest) (q0 :: live') from by
            simp only [gMatch]
            rw [if_neg hq0nd, if_pos (by omega)]]
        · rw [lpos_cons_ne c c1 hc]
          exact ih flags hpw' c

/-! ### Flag positions, enumerated positions -/

/-- The ascending list of indices whose flag is set. -/
def trueIdx (F : List Bool) : List ℕ :=
  (List.range F.length).filter fun j => F.getD j false

theorem getD_true_bound (f : List Bool) (j : ℕ) (h : f.getD j false = true) :
    j < f.length := by
  by_contra hj
  rw [List.getD_eq_default _ _ (by omega)] at h
  exact absurd h (by simp)

theorem trueIdx_sorted (F : List Bool) : (trueIdx F).Pairwise (· < ·) :=
  (List.pairwise_lt_range _).filter _

theorem mem_trueIdx (F : List Bool) (j : ℕ) : j ∈ trueIdx F ↔ F.getD j false = true := by
  unfold trueIdx
  rw [List.mem_filter, List.mem_range]
  constructor
  · exact fun h => h.2
  · exact fun h => ⟨getD_true_bound F j h, h⟩

theorem trueIdx_cons (b : Bool) (F : List Bool) :
    trueIdx (b :: F) = (if b then [0] else []) ++ (trueIdx F).map Nat.succ := by
  unfold trueIdx
  rw [show (b :: F).length = F.length + 1 from rfl, List.range_succ_eq_map,
    List.filter_cons, List.filter_map]
  have hcomp : ((fun j => (b :: F).getD j false) ∘ Nat.succ) = fun j => F.getD j false := by
    funext j
    simp [Function.comp]
  rw [hcomp]
  cases b <;> simp

theorem trueIdx_length : ∀ F : List Bool, (trueIdx F).length = F.countP id := by
  intro F
  induction F with
  | nil => rfl
  | cons b F ih =>
    rw [trueIdx_cons, List.length_append, List.length_map, ih, List.countP_cons]
    cases b <;> simp [Nat.add_comm]

theorem selChars_zip_trueIdx : ∀ (s : Str) (F : List Bool), F.length = s.length →
    selChars (s.zip F) = (trueIdx F).map fun j => s.getD j ' ' := by
  intro s
  induction s with
  | nil =>
    intro F h
    rw [List.length_nil] at h
    rw [List.eq_nil_of_length_eq_zero h]
    rfl
  | cons a s ih =>
    intro F h
    cases F with
    | nil => simp at h
    | cons b F' =>
      rw [List.zip_cons_cons, trueIdx_cons, List.map_append, List.map_map]
      have hcomp : ((fun j => (a :: s).getD j ' ') ∘ Nat.succ) = fun j => s.getD j ' ' := by
        funext j
        simp [Function.comp]
      rw [hcomp, ← ih F' (by simpa using h)]
      cases b
      · rw [selChars_cons_false]
        simp
      · rw [selChars_cons_true]
        simp

theorem enum_pairwise_fst {α : Type} (s : List α) :
    s.enum.Pairwise fun a b => a.1 < b.1 := by
  have h := List.pairwise_lt_range s.length
  rw [← List.enum_map_fst s] at h
  exact List.pairwise_map.mp h

theorem posC_cons (c a : Char) (s : Str) :
    posC c (a :: s) = (if a == c then [0] else []) ++ (posC c s).map Nat.succ := by
  unfold posC
  rw [show (a :: s).length = s.length + 1 from rfl, List.range_succ_eq_map,
    List.filter_cons, List.filter_map]
  have hcomp : ((fun j => (a :: s).getD j ' ' == c) ∘ Nat.succ)
      = fun j => s.getD j ' ' == c := by
    funext j
    simp [Function.comp]
  rw [hcomp]
  by_cases hb : a = c
  · simp [hb]
  · simp [hb]

theorem lpos_map_succ (c : Char) (l : List (ℕ × Char)) :
    lpos c (l.map (Prod.map Nat.succ id)) = (lpos c l).map Nat.succ := by
  unfold lpos
  rw [List.filter_map, List.map_map, List.map_map]
  have h1 : ((fun p : ℕ × Char => p.2 == c) ∘ Prod.map Nat.succ id)
      = fun p : ℕ × Char => p.2 == c := by
    funext p
    cases p
    simp [Function.comp, Prod.map]
  have h2 : ((fun p : ℕ × Char => p.1) ∘ Prod.map Nat.succ id)
      = Nat.succ ∘ fun p : ℕ × Char => p.1 := by
    funext p
    cases p
    simp [Function.comp, Prod.map]
  rw [h1, h2]

theorem lpos_enum (c : Char) : ∀ s : Str, lpos c s.enum = posC c s := by
  intro s
  induction s with
  | nil => rfl
  | cons a s ih =>
    rw [List.enum_eq_zip_range, show (a :: s).length = s.length + 1 from rfl,
      List.range_succ_eq_map, List.zip_cons_cons, List.zip_map_left, posC_cons]
    by_cases hc : a = c
    · subst hc
      rw [lpos_cons_self, lpos_map_succ, ← List.enum_eq_zip_range, ih]
      simp
    · rw [lpos_cons_ne c a hc, lpos_map_succ, ← List.enum_eq_zip_range, ih]
      simp [hc]

theorem enum_getD {α : Type} (d : α) : ∀ (s : List α) (i : ℕ) (a : α),
    (i, a) ∈ s.enum → s.getD i d = a := by
  intro s
  induction s with
  | nil => intro i a h; simp at h
  | cons b s ih =>
    intro i a h
    rw [List.enum_eq_zip_range, show (b :: s).length = s.length + 1 from rfl,
      List.range_succ_eq_map, List.zip_cons_cons, List.zip_map_left] at h
    rcases List.mem_cons.mp h with h1 | h1
    · rw [Prod.mk.injEq] at h1
      obtain ⟨rfl, rfl⟩ := h1
      rfl
    · rw [List.mem_map] at h1
      obtain ⟨⟨i', a'⟩, hpr, heq⟩ := h1
      rw [Prod.mk.injEq] at heq
      obtain ⟨h2, h3⟩ := heq
      simp only [Prod.map, id] at h2 h3
      subst h2
      rw [List.getD_cons_succ, ← h3]
      exact ih i' a' (by rw [List.enum_eq_zip_range]; exact hpr)

theorem mem_trace_snd_letter (tr : List ((ℕ × Char) × ℕ)) (j : ℕ) :
    j ∈ tr.map (·.2) ↔ ∃ c, j ∈ (letterPairs c tr).map (·.2) := by
  constructor
  · intro h
    rw [List.mem_map] at h
    obtain ⟨pr, hpr, rfl⟩ := h
    refine ⟨pr.1.2, ?_⟩
    rw [List.mem_map]
    refine ⟨(pr.1.1, pr.2), ?_, rfl⟩
    unfold letterPairs
    rw [List.mem_map]
    exact ⟨pr, List.mem_filter.mpr ⟨hpr, by simp⟩, rfl⟩
  · rintro ⟨c, hc⟩
    rw [List.mem_map] at hc ⊢
    obtain ⟨pq, hpq, rfl⟩ := hc
    unfold letterPairs at hpq
    rw [List.mem_map] at hpq
    obtain ⟨pr, hpr, rfl⟩ := hpq
    exact ⟨pr, (List.mem_filter.mp hpr).1, rfl⟩

theorem mem_trace_fst_letter (tr : List ((ℕ × Char) × ℕ)) (i : ℕ) :
    i ∈ tr.map (·.1.1) ↔ ∃ c, i ∈ (letterPairs c tr).map (·.1) := by
  constructor
  · intro h
    rw [List.mem_map] at h
    obtain ⟨pr, hpr, rfl⟩ := h
    refine ⟨pr.1.2, ?_⟩
    rw [List.mem_map]
    refine ⟨(pr.1.1, pr.2), ?_, rfl⟩
    unfold letterPairs
    rw [List.mem_map]
    exact ⟨pr, List.mem_filter.mpr ⟨hpr, by simp⟩, rfl⟩
  · rintro ⟨c, hc⟩
    rw [List.mem_map] at hc ⊢
    obtain ⟨pq, hpq, rfl⟩ := hc
    unfold letterPairs at hpq
    rw [List.mem_map] at hpq
    obtain ⟨pr, hpr, rfl⟩ := hpq
    exact ⟨pr, (List.mem_filter.mp hpr).1, rfl⟩

theorem eq_of_sorted_of_mem_iff (a b : List ℕ) (ha : a.Pairwise (· < ·))
    (hb : b.Pairwise (· < ·)) (h : ∀ x, x ∈ a ↔ x ∈ b) : a = b := by
  have hna : a.Nodup := ha.imp Nat.ne_of_lt
  have hnb : b.Nodup := hb.imp Nat.ne_of_lt
  have hperm : a.Perm b := (List.perm_ext_iff_of_nodup hna hnb).mpr h
  exact List.eq_of_perm_of_sorted hperm
    (ha.imp fun hlt => Nat.le_of_lt hlt) (hb.imp fun hlt => Nat.le_of_lt hlt)

theorem jaroPairs_fst_sublist (s2 : Str) (md : ℕ) :
    ∀ (l : List (ℕ × Char)) (flags : List Bool),
    ((jaroPairs s2 md l flags).map (·.1)).Sublist l := by
  intro l
  induction l with
  | nil => intro flags; simp [jaroPairs]
  | cons hd rest ih =>
    obtain ⟨i, c1⟩ := hd
    intro flags
    rcases hfind : jaroFind c1 s2 flags (i - md) (min (i + md + 1) s2.length) with _ | j
    · simp only [jaroPairs, hfind]
      exact (ih flags).cons (i, c1)
    · simp only [jaroPairs, hfind, List.map_cons]
      exact (ih (flags.set j true)).cons₂ (i, c1)

/-! ### Run-level symmetry of the matching phase -/

/-- The pair trace of a full matching run of `t1` against `t2`. -/
def traceJ (md : ℕ) (t1 t2 : Str) : List ((ℕ × Char) × ℕ) :=
  jaroPairs t2 md t1.enum (List.replicate t2.length false)

theorem letterPairs_traceJ (md : ℕ) (t1 t2 : Str) (c : Char) :
    letterPairs c (traceJ md t1 t2) = gMatch md (posC c t1) (posC c t2) := by
  unfold traceJ
  rw [jaroPairs_gMatch t2 md t1.enum _ (enum_pairwise_fst t1) c, lpos_enum, freeQ_replicate]

theorem letterPairs_traceJ_swap (md : ℕ) (t1 t2 : Str) (c : Char) :
    (letterPairs c (traceJ md t2 t1)).map (·.1) = (letterPairs c (traceJ md t1 t2)).map (·.2) := by
  rw [letterPairs_traceJ, letterPairs_traceJ, gMatch_swap md (posC c t1) (posC c t2),
    List.map_map]
  simp [Function.comp]

theorem getD_replicate_false (n j : ℕ) : (List.replicate n false).getD j false = false := by
  by_cases h : j < n
  · exact getD_replicate_of_lt false false n j h
  · exact List.getD_eq_default _ _ (by rw [List.length_replicate]; omega)

theorem traceJ_fst_pairwise (md : ℕ) (t1 t2 : Str) :
    ((traceJ md t1 t2).map (·.1.1)).Pairwise (· < ·) := by
  have hsub := jaroPairs_fst_sublist t2 md t1.enum (List.replicate t2.length false)
  have hsub2 := hsub.map Prod.fst
  rw [List.enum_map_fst] at hsub2
  have hpw := List.Pairwise.sublist hsub2 (List.pairwise_lt_range t1.length)
  have heq : List.map Prod.fst
      (List.map (fun x => x.1) (jaroPairs t2 md t1.enum (List.replicate t2.length false)))
      = (traceJ md t1 t2).map (·.1.1) := by
    rw [List.map_map]
    rfl
  rw [heq] at hpw
  exact hpw

theorem trueIdx_traceJ (md : ℕ) (t1 t2 : Str) :
    trueIdx (jaroMatches t2 md t1.enum (List.replicate t2.length false) 0).2.1
      = (traceJ md t2 t1).map (·.1.1) := by
  apply eq_of_sorted_of_mem_iff
  · exact trueIdx_sorted _
  · exact traceJ_fst_pairwise md t2 t1
  · intro x
    rw [mem_trueIdx, jaroMatches_flags_pairs t2 md t1.enum (List.replicate t2.length false) 0 x,
      getD_replicate_false, Bool.false_or, decide_eq_true_eq]
    rw [show (jaroPairs t2 md t1.enum (List.replicate t2.length false)) = traceJ md t1 t2
      from rfl]
    rw [mem_trace_snd_letter, mem_trace_fst_letter]
    constructor
    · rintro ⟨c, hc⟩
      exact ⟨c, by rw [letterPairs_traceJ_swap md t1 t2 c]; exact hc⟩
    · rintro ⟨c, hc⟩
      exact ⟨c, by rw [← letterPairs_traceJ_swap md t1 t2 c]; exact hc⟩

theorem jaroM_comm (md : ℕ) (t1 t2 : Str) :
    (jaroMatches t2 md t1.enum (List.replicate t2.length false) 0).2.2
      = (jaroMatches t1 md t2.enum (List.replicate t1.length false) 0).2.2 := by
  have hA := jaroMatches_spec t2 md t1.enum (List.replicate t2.length false) 0
    (by rw [countP_replicate_false])
  have h1 : (jaroMatches t2 md t1.enum (List.replicate t2.length false) 0).2.2
      = (trueIdx (jaroMatches t2 md t1.enum (List.replicate t2.length false) 0).2.1).length := by
    rw [trueIdx_length, ← hA.2.2.1]
  rw [h1, trueIdx_traceJ md t1 t2, List.length_map]
  rw [jaroMatches_count_pairs t1 md t2.enum (List.replicate t1.length false) 0]
  simp [traceJ]

theorem traceJ_length_comm (md : ℕ) (t1 t2 : Str) :
    (traceJ md t1 t2).length = (traceJ md t2 t1).length := by
  have h1 := jaroM_comm md t1 t2
  have h2 := jaroMatches_count_pairs t2 md t1.enum (List.replicate t2.length false) 0
  have h3 := jaroMatches_count_pairs t1 md t2.enum (List.replicate t1.length false) 0
  unfold traceJ
  omega

/-! ### The transposition walk as a mismatch count -/

/-- Positional mismatches between two character lists. -/
def mmCount (a b : Str) : ℕ := (a.zip b).countP fun p => !(p.1 == p.2)

theorem mmCount_comm : ∀ a b : Str, mmCount a b = mmCount b a := by
  intro a
  induction a with
  | nil => intro b; cases b <;> rfl
  | cons x a ih =>
    intro b
    cases b with
    | nil => rfl
    | cons y b =>
      unfold mmCount at *
      rw [List.zip_cons_cons, List.zip_cons_cons, List.countP_cons, List.countP_cons, ih b]
      have hbe : (x == y) = (y == x) := by
        by_cases h : x = y
        · simp [h]
        · simp [h, Ne.symm h]
      rw [hbe]

theorem selChars_length (l : List (Char × Bool)) : (selChars l).length = l.countP (·.2) := by
  unfold selChars
  rw [List.length_map, ← List.countP_eq_length_filter]

theorem selChars_dropWhile (zs : List (Char × Bool)) :
    selChars (zs.dropWhile fun p => !p.2) = selChars zs := by
  induction zs with
  | nil => rfl
  | cons z zs ih =>
    obtain ⟨c, b⟩ := z
    cases b
    · simpa [List.dropWhile_cons, selChars_cons_false] using ih
    · simp [List.dropWhile_cons]

theorem jaroTrans_mm : ∀ (l1 zs : List (Char × Bool)) (t : ℕ),
    (selChars l1).length ≤ (selChars zs).length →
    jaroTrans l1 zs t = t + mmCount (selChars l1) (selChars zs) := by
  intro l1
  induction l1 with
  | nil => intro zs t _; simp [jaroTrans, selChars_nil, mmCount]
  | cons z rest ih =>
    obtain ⟨c1, b⟩ := z
    cases b
    · intro zs t h
      rw [selChars_cons_false] at h ⊢
      simp only [jaroTrans]
      exact ih zs t h
    · intro zs t h
      rw [selChars_cons_true] at h ⊢
      rcases hdrop : zs.dropWhile (fun p => !p.2) with _ | ⟨⟨c2, b2⟩, zrest⟩
      · exfalso
        have h1 : selChars zs = [] := by rw [← selChars_dropWhile, hdrop]; rfl
        rw [h1] at h
        simp at h
      · have hb2 : b2 = true := by
          have h1 := dropWhile_head_false _ zs _ _ hdrop
          simpa using h1
        subst hb2
        have hsel : selChars zs = c2 :: selChars zrest := by
          rw [← selChars_dropWhile zs, hdrop, selChars_cons_true]
        simp only [jaroTrans, hdrop]
        rw [hsel] at h ⊢
        rw [ih zrest _ (by simpa using h)]
        rw [show mmCount (c1 :: selChars rest) (c2 :: selChars zrest)
            = mmCount (selChars rest) (selChars zrest) + (if (!(c1 == c2)) = true then 1 else 0)
          from by unfold mmCount; rw [List.zip_cons_cons, List.countP_cons]]
        by_cases hc : c1 = c2
        · simp [hc]
        · simp [hc]
          omega

/-! ### Symmetry of the Jaro counts and of each similarity -/

theorem jaroMd_comm (t1 t2 : Str) : jaroMd t2 t1 = jaroMd t1 t2 := by
  unfold jaroMd
  rw [max_comm]

theorem traceJ_snd_chars (md : ℕ) (t1 t2 : Str) :
    (traceJ md t1 t2).map (·.1.2)
      = ((traceJ md t1 t2).map (·.1.1)).map fun j => t1.getD j ' ' := by
  rw [List.map_map]
  apply List.map_congr_left
  intro pr hpr
  have hsub := (jaroPairs_fst_sublist t2 md t1.enum (List.replicate t2.length false)).subset
  have hmem : pr.1 ∈ t1.enum := hsub (List.mem_map_of_mem (·.1) hpr)
  have hget := enum_getD ' ' t1 pr.1.1 pr.1.2 (by rw [Prod.mk.eta]; exact hmem)
  simp only [Function.comp]
  exact hget.symm

theorem selA_eq (md : ℕ) (t1 t2 : Str) :
    selChars (t1.zip (jaroMatches t2 md t1.enum (List.replicate t2.length false) 0).1)
      = (traceJ md t1 t2).map (·.1.2) := by
  have h := selChars_zip_matches t2 md t1.enum (List.replicate t2.length false) 0
  have h1 : t1.enum.map (·.2) = t1 := List.enum_map_snd t1
  rw [h1] at h
  exact h

theorem selB_eq (md : ℕ) (t1 t2 : Str) :
    selChars (t2.zip (jaroMatches t2 md t1.enum (List.replicate t2.length false) 0).2.1)
      = (traceJ md t2 t1).map (·.1.2) := by
  have hlen : (jaroMatches t2 md t1.enum (List.replicate t2.length false) 0).2.1.length
      = t2.length := by
    have hA := jaroMatches_spec t2 md t1.enum (List.replicate t2.length false) 0
      (by rw [countP_replicate_false])
    rw [hA.2.1, List.length_replicate]
  rw [selChars_zip_trueIdx t2 _ hlen, trueIdx_traceJ md t1 t2, ← traceJ_snd_chars]

theorem jaroTrans_run_comm (md : ℕ) (t1 t2 : Str) :
    jaroTrans (t1.zip (jaroMatches t2 md t1.enum (List.replicate t2.length false) 0).1)
      (t2.zip (jaroMatches t2 md t1.enum (List.replicate t2.length false) 0).2.1) 0
    = jaroTrans (t2.zip (jaroMatches t1 md t2.enum (List.replicate t1.length false) 0).1)
      (t1.zip (jaroMatches t1 md t2.enum (List.replicate t1.length false) 0).2.1) 0 := by
  have hlen12 := traceJ_length_comm md t1 t2
  rw [jaroTrans_mm _ _ 0 (by
    rw [selA_eq, selB_eq, List.length_map, List.length_map, hlen12])]
  rw [jaroTrans_mm _ _ 0 (by
    rw [selA_eq, selB_eq, List.length_map, List.length_map, hlen12])]
  rw [selA_eq, selB_eq, selA_eq, selB_eq]
  exact congrArg (0 + ·) (mmCount_comm _ _)

theorem jaroR_m_comm (t1 t2 : Str) : (jaroR t2 t1).2.2 = (jaroR t1 t2).2.2 := by
  unfold jaroR
  rw [jaroMd_comm t1 t2]
  exact jaroM_comm (jaroMd t1 t2) t2 t1

theorem jaroT_comm (t1 t2 : Str) : jaroT t2 t1 = jaroT t1 t2 := by
  unfold jaroT jaroR
  rw [jaroMd_comm t1 t2]
  exact (jaroTrans_run_comm (jaroMd t1 t2) t2 t1).trans rfl

theorem jaroMain_comm (t1 t2 : Str) : jaroMain t2 t1 = jaroMain t1 t2 := by
  unfold jaroMain
  rw [jaroR_m_comm t1 t2, jaroT_comm t1 t2]
  by_cases hm : (jaroR t1 t2).2.2 = 0
  · rw [if_pos hm, if_pos hm]
  · rw [if_neg hm, if_neg hm]
    ring

theorem jaro_similarity_comm (a b : Str) : jaro_similarity a b = jaro_similarity b a := by
  unfold jaro_similarity
  by_cases h1 : a = []
  · by_cases h2 : b = [] <;> simp [h1, h2]
  · by_cases h2 : b = []
    · simp [h1, h2]
    · simp only [h1, h2, false_and, and_false, if_false, false_or, or_false, if_neg]
      exact jaroMain_comm (lowerStr b) (lowerStr a)

theorem jwPrefixLen_comm : ∀ (xs ys : Str) (n : ℕ), jwPrefixLen xs ys n = jwPrefixLen ys xs n := by
  intro xs
  induction xs with
  | nil => intro ys n; cases ys <;> cases n <;> rfl
  | cons x xs ih =>
    intro ys n
    cases ys with
    | nil => cases n <;> rfl
    | cons y ys =>
      cases n with
      | zero => rfl
      | succ n =>
        simp only [jwPrefixLen]
        by_cases h : x = y
        · rw [if_pos h, if_pos h.symm, ih ys n]
        · rw [if_neg h, if_neg fun hh => h hh.symm]

theorem jaro_winkler_similarity_comm (a b : Str) :
    jaro_winkler_similarity a b = jaro_winkler_similarity b a := by
  unfold jaro_winkler_similarity
  rw [jaro_similarity_comm a b, jwPrefixLen_comm (lowerStr a) (lowerStr b) 4]

theorem levenshtein_similarity_comm (a b : Str) :
    levenshtein_similarity a b = levenshtein_similarity b a := by
  unfold levenshtein_similarity
  by_cases h1 : a = []
  · by_cases h2 : b = [] <;> simp [h1, h2]
  · by_cases h2 : b = []
    · simp [h1, h2]
    · simp only [h1, h2, false_and, and_false, if_false, false_or, or_false, if_neg]
      rw [levenshtein_distance_comm (lowerStr a) (lowerStr b), Nat.max_comm]

theorem phonetic_similarity_comm (a b : Str) :
    phonetic_similarity a b = phonetic_similarity b a := by
  unfold phonetic_similarity
  by_cases h : soundex a = soundex b
  · rw [if_pos h, if_pos h.symm]
  · rw [if_neg h, if_neg fun hh => h hh.symm]
    have hc : ((soundex a).zip (soundex b)).countP (fun p => p.1 == p.2)
        = ((soundex b).zip (soundex a)).countP (fun p => p.1 == p.2) := by
      rw [← List.zip_swap (soundex a) (soundex b), List.countP_map]
      apply List.countP_congr
      intro p _
      cases p with
      | mk x y =>
        simp only [Function.comp, Prod.swap, beq_iff_eq]
        exact ⟨Eq.symm, Eq.symm⟩
    rw [hc]

theorem jaccard_similarity_comm (a b : Str) :
    jaccard_similarity a b = jaccard_similarity b a := by
  unfold jaccard_similarity
  by_cases h1 : a = []
  · by_cases h2 : b = [] <;> simp [h1, h2]
  · by_cases h2 : b = []
    · simp [h1, h2]
    · simp only [h1, h2, false_and, and_false, if_false, false_or, or_false, if_neg]
      rw [Finset.inter_comm (getNgrams 2 a) (getNgrams 2 b),
        Finset.union_comm (getNgrams 2 a) (getNgrams 2 b)]

theorem token_based_similarity_comm (a b : Str) :
    token_based_similarity a b = token_based_similarity b a := by
  unfold token_based_similarity
  by_cases h1 : a = []
  · by_cases h2 : b = [] <;> simp [h1, h2]
  · by_cases h2 : b = []
    · simp [h1, h2]
    · simp only [h1, h2, false_and, and_false, if_false, false_or, or_false, if_neg]
      rw [Finset.inter_comm ((splitWs (lowerStr a)).toFinset) ((splitWs (lowerStr b)).toFinset),
        Finset.union_comm ((splitWs (lowerStr a)).toFinset) ((splitWs (lowerStr b)).toFinset)]
      by_cases h3 : (splitWs (lowerStr a)).toFinset = ∅ ∨ (splitWs (lowerStr b)).toFinset = ∅
      · rw [if_pos h3, if_pos (Or.symm h3)]
      · rw [if_neg h3, if_neg fun hh => h3 (Or.symm hh)]

theorem composite_name_score_comm (a b : Str) :
    composite_name_score a b = composite_name_score b a := by
  unfold composite_name_score
  rw [jaro_winkler_similarity_comm a b, levenshtein_similarity_comm a b,
    jaccard_similarity_comm a b, token_based_similarity_comm a b,
    phonetic_similarity_comm a b]

/-- C5: every similarity function of `SimilarityScorer` — Levenshtein, Jaro,
Jaro-Winkler, Jaccard bigram, token-set, phonetic — and the composite name
score are symmetric in their two string arguments. -/
theorem similarity_functions_symmetric :
    (∀ a b : Str, levenshtein_similarity a b = levenshtein_similarity b a) ∧
    (∀ a b : Str, jaro_similarity a b = jaro_similarity b a) ∧
    (∀ a b : Str, jaro_winkler_similarity a b = jaro_winkler_similarity b a) ∧
    (∀ a b : Str, jaccard_similarity a b = jaccard_similarity b a) ∧
    (∀ a b : Str, token_based_similarity a b = token_based_similarity b a) ∧
    (∀ a b : Str, phonetic_similarity a b = phonetic_similarity b a) ∧
    (∀ a b : Str, composite_name_score a b = composite_name_score b a) :=
  ⟨levenshtein_similarity_comm, jaro_similarity_comm, jaro_winkler_similarity_comm,
    jaccard_similarity_comm, token_based_similarity_comm, phonetic_similarity_comm,
    composite_name_score_comm⟩

/-! ## C2: transitivity of union-find clustering -/

/-! ### Pointer chasing in the parent map -/

/-- `Chases par x r`: following parent pointers from `x` reaches the root `r`
(a key that is absent from the map or points to itself). -/
inductive Chases (par : List (String × String)) : String → String → Prop
  | root (x : String) (h : dGet? par x = none ∨ dGet? par x = some x) : Chases par x x
  | step (x px r : String) (h : dGet? par x = some px) (hne : px ≠ x)
      (hc : Chases par px r) : Chases par x r

theorem Chases.terminal {par : List (String × String)} {x r : String} (h : Chases par x r) :
    dGet? par r = none ∨ dGet? par r = some r := by
  induction h with
  | root x h => exact h
  | step x px r h hne hc ih => exact ih

theorem chases_of_terminal {par : List (String × String)} {r : String}
    (h : dGet? par r = none ∨ dGet? par r = some r) : Chases par r r :=
  Chases.root r h

theorem chases_det {par : List (String × String)} {x r : String} (h : Chases par x r) :
    ∀ r', Chases par x r' → r' = r := by
  induction h with
  | root x h =>
    intro r' h'
    cases h' with
    | root => rfl
    | step _ px _ hpx hne _ =>
      rcases h with h | h
      · rw [h] at hpx; cases hpx
      · rw [h] at hpx
        injection hpx with hv
        exact absurd hv.symm hne
  | step x px r hpx hne hc ih =>
    intro r' h'
    cases h' with
    | root _ h =>
      rcases h with h | h
      · rw [h] at hpx; cases hpx
      · rw [h] at hpx
        injection hpx with hv
        exact absurd hv.symm hne
    | step _ px' _ hpx' hne' hc' =>
      rw [hpx] at hpx'
      injection hpx' with hv
      subst hv
      exact ih r' hc'

/-- Registering a fresh key as its own parent does not change the chasing
relation. -/
theorem chases_init {par : List (String × String)} {x : String}
    (hx : dGet? par x = none) :
    ∀ a b, Chases (par ++ [(x, x)]) a b ↔ Chases par a b := by
  have hget : ∀ k, dGet? (par ++ [(x, x)]) k = if k = x then some x else dGet? par k := by
    intro k
    by_cases hk : k = x
    · subst hk
      rw [dGet?_append_right par _ k hx]
      simp [dGet?]
    · rw [if_neg hk]
      rcases hl : dGet? par k with _ | v
      · rw [dGet?_append_right par _ k hl]
        simp only [dGet?]
        rw [if_neg fun h => hk h.symm]
      · rw [dGet?_append_left par _ k (by rw [hl]; rfl), hl]
  intro a b
  constructor
  · intro h
    induction h with
    | root a ha =>
      rw [hget a] at ha
      by_cases hax : a = x
      · subst hax
        exact Chases.root a (Or.inl hx)
      · rw [if_neg hax] at ha
        exact Chases.root a ha
    | step a pa r hpa hne hc ih =>
      rw [hget a] at hpa
      by_cases hax : a = x
      · subst hax
        rw [if_pos rfl] at hpa
        injection hpa with hv
        exact absurd hv.symm hne
      · rw [if_neg hax] at hpa
        exact Chases.step a pa r hpa hne ih
  · intro h
    induction h with
    | root a ha =>
      by_cases hax : a = x
      · subst hax
        exact Chases.root a (Or.inr (by rw [hget]; simp))
      · exact Chases.root a (by rw [hget, if_neg hax]; exact ha)
    | step a pa r hpa hne hc ih =>
      by_cases hax : a = x
      · subst hax
        rw [hx] at hpa
        cases hpa
      · exact Chases.step a pa r (by rw [hget, if_neg hax]; exact hpa) hne ih

/-- Path compression: rewriting `x`'s parent to `x`'s own root does not change
the chasing relation. -/
theorem chases_compress {par : List (String × String)} {x r : String}
    (hch : Chases par x r) (hxr : x ≠ r) :
    ∀ a b, Chases (dSet par x r) a b ↔ Chases par a b := by
  have hterm := hch.terminal
  have hget : ∀ k, dGet? (dSet par x r) k = if k = x then some r else dGet? par k := by
    intro k
    by_cases hk : k = x
    · subst hk
      rw [dGet?_dSet_self, if_pos rfl]
    · rw [dGet?_dSet_ne par x k r hk, if_neg hk]
  intro a b
  constructor
  · intro h
    induction h with
    | root a ha =>
      rw [hget a] at ha
      by_cases hax : a = x
      · subst hax
        rw [if_pos rfl] at ha
        rcases ha with ha | ha
        · cases ha
        · injection ha with hv
          exact absurd hv.symm hxr
      · rw [if_neg hax] at ha
        exact Chases.root a ha
    | step a pa b hpa hne hc ih =>
      rw [hget a] at hpa
      by_cases hax : a = x
      · subst hax
        rw [if_pos rfl] at hpa
        injection hpa with hv
        subst hv
        have hb := chases_det (chases_of_terminal hterm) b ih
        subst hb
        exact hch
      · rw [if_neg hax] at hpa
        exact Chases.step a pa b hpa hne ih
  · intro h
    induction h with
    | root a ha =>
      by_cases hax : a = x
      · subst hax
        have hxx := chases_det hch a (Chases.root a ha)
        exact absurd hxx hxr
      · exact Chases.root a (by rw [hget, if_neg hax]; exact ha)
    | step a pa b hpa hne hc ih =>
      by_cases hax : a = x
      · subst hax
        have hb : b = r := chases_det hch b (Chases.step a pa b hpa hne hc)
        subst hb
        refine Chases.step a b b (by rw [hget, if_pos rfl]) (Ne.symm hxr) ?_
        exact Chases.root b (by rw [hget, if_neg (Ne.symm hxr)]; exact hterm)
      · exact Chases.step a pa b (by rw [hget, if_neg hax]; exact hpa) hne ih

/-- Linking the root `small` under the root `big`: the new chasing relation is
the old one with root `small` renamed to `big`. -/
theorem chases_link {par : List (String × String)} {small big : String}
    (hsmall : dGet? par small = some small) (hbig : dGet? par big = some big)
    (hne : small ≠ big) :
    ∀ a b, Chases (dSet par small big) a b ↔
      (Chases par a b ∧ b ≠ small) ∨ (Chases par a small ∧ b = big) := by
  have hget : ∀ k, dGet? (dSet par small big) k
      = if k = small then some big else dGet? par k := by
    intro k
    by_cases hk : k = small
    · subst hk
      rw [dGet?_dSet_self, if_pos rfl]
    · rw [dGet?_dSet_ne par small k big hk, if_neg hk]
  intro a b
  constructor
  · intro h
    induction h with
    | root a ha =>
      rw [hget a] at ha
      by_cases has : a = small
      · subst has
        rw [if_pos rfl] at ha
        rcases ha with ha | ha
        · cases ha
        · injection ha with hv
          exact absurd hv.symm hne
      · rw [if_neg has] at ha
        exact Or.inl ⟨Chases.root a ha, has⟩
    | step a pa b hpa hne' hc ih =>
      rw [hget a] at hpa
      by_cases has : a = small
      · subst has
        rw [if_pos rfl] at hpa
        injection hpa with hv
        subst hv
        rcases ih with ⟨hib, _⟩ | ⟨hib, _⟩
        · have hb := chases_det (chases_of_terminal (Or.inr hbig)) b hib
          subst hb
          exact Or.inr ⟨chases_of_terminal (Or.inr hsmall), rfl⟩
        · have hb := chases_det (chases_of_terminal (Or.inr hbig)) a hib
          exact absurd hb hne
      · rw [if_neg has] at hpa
        rcases ih with ⟨hib, hbs⟩ | ⟨hib, hbb⟩
        · exact Or.inl ⟨Chases.step a pa b hpa hne' hib, hbs⟩
        · exact Or.inr ⟨Chases.step a pa small hpa hne' hib, hbb⟩
  · intro h
    rcases h with ⟨hab, hbs⟩ | ⟨hab, hbb⟩
    · induction hab with
      | root a ha =>
        exact Chases.root a (by rw [hget, if_neg hbs]; exact ha)
      | step a pa b hpa hne' hc ih =>
        have has : a ≠ small := by
          intro hh
          subst hh
          rw [hsmall] at hpa
          injection hpa with hv
          exact hne' hv.symm
        exact Chases.step a pa b (by rw [hget, if_neg has]; exact hpa) hne' (ih hbs)
    · have key : ∀ a' b', Chases par a' b' → b' = small →
          Chases (dSet par small big) a' big := by
        intro a' b' hab'
        induction hab' with
        | root c hc =>
          intro hbs
          subst hbs
          exact Chases.step c big big (by rw [hget, if_pos rfl]) (Ne.symm hne)
            (Chases.root big (by rw [hget, if_neg (Ne.symm hne)]; exact Or.inr hbig))
        | step c pc d hpc hnec hcc ih =>
          intro hbs
          have hcs : c ≠ small := by
            intro hh
            subst hh
            rw [hsmall] at hpc
            injection hpc with hv
            exact hnec hv.symm
          exact Chases.step c pc big (by rw [hget, if_neg hcs]; exact hpc) hnec (ih hbs)
      rw [hbb]
      exact key a small hab rfl

/-! ### The union-find invariant -/

/-- Rank lookup with the source's `get(x, 0)` default. -/
def rankOf (uf : UF) (x : String) : ℕ := (dGet? uf.rank x).getD 0

/-- Sum of all stored ranks. -/
def Rsum (uf : UF) : ℕ := (uf.rank.map (·.2)).sum

/-- Number of self-parent entries. -/
def rootCnt (par : List (String × String)) : ℕ :=
  (par.filter fun p => decide (p.2 = p.1)).length

/-- Invariant of every union-find state the engine builds: parent and rank
carry the same duplicate-free keys, ranks strictly increase along proper
parent edges (the classic union-by-rank invariant, which bounds every chase),
and the stored ranks plus the self-roots are bounded by the number of keys
(each rank bump is paid for by a root lost to a union). -/
def UFInv (uf : UF) : Prop :=
  (uf.parent.map (·.1)).Nodup ∧
  uf.rank.map (·.1) = uf.parent.map (·.1) ∧
  (∀ x px, dGet? uf.parent x = some px → px ≠ x → rankOf uf x < rankOf uf px) ∧
  Rsum uf + rootCnt uf.parent ≤ uf.parent.length

theorem dGet?_mem [DecidableEq κ] (l : List (κ × α)) (k : κ) (v : α)
    (h : dGet? l k = some v) : (k, v) ∈ l := by
  induction l with
  | nil => cases h
  | cons p ps ih =>
    rw [dGet?] at h
    by_cases hp : p.1 = k
    · rw [if_pos hp] at h
      injection h with hv
      subst hp
      subst hv
      simp
    · rw [if_neg hp] at h
      exact List.mem_cons_of_mem p (ih h)

theorem rankOf_le_Rsum (uf : UF) (x : String) : rankOf uf x ≤ Rsum uf := by
  unfold rankOf Rsum
  rcases h : dGet? uf.rank x with _ | v
  · simp
  · have hm := dGet?_mem uf.rank x v h
    have hv : v ∈ uf.rank.map (·.2) := List.mem_map_of_mem _ hm
    exact List.single_le_sum (fun _ _ => Nat.zero_le _) _ hv

theorem chases_rank_lt (uf : UF) (hinv : UFInv uf) {x r : String}
    (h : Chases uf.parent x r) : x = r ∨ rankOf uf x < rankOf uf r := by
  induction h with
  | root x h => exact Or.inl rfl
  | step x px r hpx hne hc ih =>
    right
    have h1 := hinv.2.2.1 x px hpx hne
    rcases ih with rfl | ih
    · exact h1
    · omega

theorem chases_exists (uf : UF) (hinv : UFInv uf) (x : String) :
    ∃ r, Chases uf.parent x r := by
  have main : ∀ (n : ℕ) (y : String), Rsum uf ≤ rankOf uf y + n →
      ∃ r, Chases uf.parent y r := by
    intro n
    induction n with
    | zero =>
      intro y hy
      rcases hp : dGet? uf.parent y with _ | py
      · exact ⟨y, Chases.root y (Or.inl hp)⟩
      · by_cases hpy : py = y
        · exact ⟨y, Chases.root y (Or.inr (by rw [hpy] at hp; exact hp))⟩
        · exfalso
          have h1 := hinv.2.2.1 y py hp hpy
          have h2 := rankOf_le_Rsum uf py
          omega
    | succ n ih =>
      intro y hy
      rcases hp : dGet? uf.parent y with _ | py
      · exact ⟨y, Chases.root y (Or.inl hp)⟩
      · by_cases hpy : py = y
        · exact ⟨y, Chases.root y (Or.inr (by rw [hpy] at hp; exact hp))⟩
        · have h1 := hinv.2.2.1 y py hp hpy
          obtain ⟨r, hr⟩ := ih py (by omega)
          exact ⟨r, Chases.step y py r hp hpy hr⟩
  exact main (Rsum uf) x (by omega)

theorem dGet?_ext_single [DecidableEq κ] (l : List (κ × α)) (x : κ) (v : α)
    (hx : dGet? l x = none) (k : κ) :
    dGet? (l ++ [(x, v)]) k = if k = x then some v else dGet? l k := by
  by_cases hk : k = x
  · subst hk
    rw [dGet?_append_right l _ k hx, if_pos rfl]
    simp [dGet?]
  · rw [if_neg hk]
    rcases hl : dGet? l k with _ | w
    · rw [dGet?_append_right l _ k hl]
      simp only [dGet?]
      rw [if_neg fun h => hk h.symm]
    · rw [dGet?_append_left l _ k (by rw [hl]; rfl), hl]

theorem dSet_length_of_present [DecidableEq κ] (l : List (κ × α)) (k : κ) (v : α)
    (h : (dGet? l k).isSome) : (dSet l k v).length = l.length := by
  have h1 := keys_dSet l k v
  rw [if_pos h] at h1
  have h2 := congrArg List.length h1
  rwa [List.length_map, List.length_map] at h2

theorem rootCnt_dSet (par : List (String × String)) (x v w : String)
    (hx : dGet? par x = some v) (hv : v ≠ x) (hw : w ≠ x) :
    rootCnt (dSet par x w) = rootCnt par := by
  induction par with
  | nil => cases hx
  | cons p ps ih =>
    rw [dGet?] at hx
    by_cases hp : p.1 = x
    · rw [if_pos hp] at hx
      injection hx with hval
      unfold rootCnt dSet
      rw [if_pos hp]
      simp only [List.filter_cons]
      rw [show (decide ((x, w).2 = (x, w).1)) = false from by simp [hw]]
      rw [show (decide (p.2 = p.1)) = false from by
        subst hval
        simp only [decide_eq_false_iff_not]
        exact fun hh => hv (hh.trans hp)]
      simp
    · rw [if_neg hp] at hx
      unfold rootCnt dSet
      rw [if_neg hp]
      simp only [List.filter_cons]
      have ihr := ih hx
      unfold rootCnt at ihr
      by_cases hself : p.2 = p.1 <;> simp [hself, ihr]

theorem dGet?_dSet_fun [DecidableEq κ] (l : List (κ × α)) (k0 : κ) (v : α) (k : κ) :
    dGet? (dSet l k0 v) k = if k = k0 then some v else dGet? l k := by
  by_cases hk : k = k0
  · subst hk
    rw [dGet?_dSet_self, if_pos rfl]
  · rw [dGet?_dSet_ne l k0 k v hk, if_neg hk]

/-! ### Specification of `find` -/

theorem ufFind_spec : ∀ (fuel : ℕ) (uf : UF) (x r : String), UFInv uf →
    Chases uf.parent x r → rankOf uf r < fuel + rankOf uf x →
    (ufFind fuel uf x).1 = r ∧
    UFInv (ufFind fuel uf x).2 ∧
    (∀ a b, Chases (ufFind fuel uf x).2.parent a b ↔ Chases uf.parent a b) ∧
    (∀ k, rankOf (ufFind fuel uf x).2 k = rankOf uf k) ∧
    dGet? (ufFind fuel uf x).2.parent r = some r ∧
    (∀ k, dGet? uf.parent k = some k → dGet? (ufFind fuel uf x).2.parent k = some k) ∧
    Rsum (ufFind fuel uf x).2 = Rsum uf := by
  intro fuel
  induction fuel with
  | zero =>
    intro uf x r hinv hch hfuel
    exfalso
    rcases chases_rank_lt uf hinv hch with rfl | hlt <;> omega
  | succ fuel ih =>
    intro uf x r hinv hch hfuel
    rcases hx : dGet? uf.parent x with _ | px
    · -- x unseen: initialise it as its own root and return it
      have hrx : x = r := chases_det hch x (Chases.root x (Or.inl hx))
      subst hrx
      have hxmem : x ∉ uf.parent.map (·.1) := by
        rw [← dGet?_isSome_iff_mem, hx]
        simp
      have hrankx : dGet? uf.rank x = none := by
        rcases hr : dGet? uf.rank x with _ | v
        · rfl
        · exfalso
          have := dGet?_isSome_iff_mem uf.rank x
          rw [hr, hinv.2.1] at this
          exact hxmem (this.mp rfl)
      have heq : ufFind (fuel + 1) uf x
          = (x, ⟨uf.parent ++ [(x, x)], uf.rank ++ [(x, 0)]⟩) := by
        simp only [ufFind, hx, Option.isSome_none, Bool.false_eq_true, if_false,
          dGet?_ext_single uf.parent x x hx, if_pos rfl, Option.getD_some, if_true]
      rw [heq]
      have hrank0 : ∀ k, rankOf (⟨uf.parent ++ [(x, x)], uf.rank ++ [(x, 0)]⟩ : UF) k
          = rankOf uf k := by
        intro k
        show (dGet? (uf.rank ++ [(x, 0)]) k).getD 0 = (dGet? uf.rank k).getD 0
        rw [dGet?_ext_single uf.rank x 0 hrankx k]
        by_cases hk : k = x
        · subst hk
          rw [if_pos rfl, hrankx]
          rfl
        · rw [if_neg hk]
      refine ⟨rfl, ⟨?_, ?_, ?_, ?_⟩, ?_, hrank0, ?_, ?_, ?_⟩
      · show ((uf.parent ++ [(x, x)]).map (·.1)).Nodup
        rw [List.map_append]
        simp only [List.map_cons, List.map_nil]
        rw [List.nodup_append]
        exact ⟨hinv.1, List.nodup_singleton x, by simpa using hxmem⟩
      · show (uf.rank ++ [(x, 0)]).map (fun p : String × ℕ => p.1)
            = (uf.parent ++ [(x, x)]).map (fun p : String × String => p.1)
        rw [List.map_append, List.map_append, hinv.2.1]
        rfl
      · intro y py hy hne
        show rankOf _ y < rankOf _ py
        rw [hrank0, hrank0]
        have hy' : dGet? (uf.parent ++ [(x, x)]) y = some py := hy
        rw [dGet?_ext_single uf.parent x x hx y] at hy'
        by_cases hyx : y = x
        · rw [if_pos hyx] at hy'
          injection hy' with hv
          exact absurd (hv.symm.trans hyx.symm) hne
        · rw [if_neg hyx] at hy'
          exact hinv.2.2.1 y py hy' hne
      · show Rsum _ + rootCnt (uf.parent ++ [(x, x)]) ≤ (uf.parent ++ [(x, x)]).length
        have h1 : Rsum (⟨uf.parent ++ [(x, x)], uf.rank ++ [(x, 0)]⟩ : UF) = Rsum uf := by
          unfold Rsum
          simp
        have h2 : rootCnt (uf.parent ++ [(x, x)]) = rootCnt uf.parent + 1 := by
          unfold rootCnt
          rw [List.filter_append]
          simp
        rw [h1, h2, List.length_append]
        have := hinv.2.2.2
        simp only [List.length_cons, List.length_nil]
        omega
      · exact chases_init hx
      · show dGet? (uf.parent ++ [(x, x)]) x = some x
        rw [dGet?_ext_single uf.parent x x hx x, if_pos rfl]
      · intro k hk
        show dGet? (uf.parent ++ [(x, x)]) k = some k
        have hkx : k ≠ x := by
          intro he
          rw [he, hx] at hk
          cases hk
        rw [dGet?_ext_single uf.parent x x hx k, if_neg hkx]
        exact hk
      · show Rsum _ = Rsum uf
        unfold Rsum
        simp
    · by_cases hpxx : px = x
      · -- x is already its own root
        subst hpxx
        have hrx : px = r := chases_det hch px (Chases.root px (Or.inr hx))
        subst hrx
        have heq : ufFind (fuel + 1) uf px = (px, uf) := by
          simp only [ufFind, hx, Option.isSome_some, if_true, Option.getD_some, if_pos rfl]
        rw [heq]
        exact ⟨rfl, hinv, fun a b => Iff.rfl, fun k => rfl, hx, fun k hk => hk, rfl⟩
      · -- chase the parent, then compress
        have hsub : Chases uf.parent px r := by
          cases hch with
          | root _ h =>
            rcases h with h | h
            · rw [hx] at h; cases h
            · rw [hx] at h
              injection h with hv
              exact absurd hv hpxx
          | step _ px' _ h' hne' hc' =>
            rw [hx] at h'
            injection h' with hv
            rw [← hv] at hc'
            exact hc'
        have hedge := hinv.2.2.1 x px hx hpxx
        obtain ⟨ih1, ih2, ih3, ih4, ih5, ih6, ih7⟩ :=
          ih uf px r hinv hsub (by omega)
        have hlt2 : rankOf uf x < rankOf uf r := by
          rcases chases_rank_lt uf hinv hsub with heq2 | hlt
          · rw [← heq2]; exact hedge
          · omega
        have hxr : x ≠ r := by
          intro he
          rw [he] at hlt2
          omega
        have hch1 : Chases (ufFind fuel uf px).2.parent x r := (ih3 x r).mpr hch
        have heq : ufFind (fuel + 1) uf x
            = (r, { (ufFind fuel uf px).2 with
                parent := dSet (ufFind fuel uf px).2.parent x r }) := by
          simp only [ufFind, hx, Option.isSome_some, if_true, Option.getD_some,
            if_neg hpxx, ih1]
        rw [heq]
        obtain ⟨px1, hpx1, hpx1ne⟩ : ∃ px1,
            dGet? (ufFind fuel uf px).2.parent x = some px1 ∧ px1 ≠ x := by
          cases hch1 with
          | root _ h => exact absurd rfl hxr
          | step _ px1 _ h1 hne1 _ => exact ⟨px1, h1, hne1⟩
        have hcomp := chases_compress hch1 hxr
        have hkeys : (dSet (ufFind fuel uf px).2.parent x r).map (·.1)
            = (ufFind fuel uf px).2.parent.map (·.1) := by
          rw [keys_dSet, if_pos (by rw [hpx1]; rfl)]
        refine ⟨rfl, ⟨?_, ?_, ?_, ?_⟩, ?_, ?_, ?_, ?_, ?_⟩
        · show ((dSet (ufFind fuel uf px).2.parent x r).map (·.1)).Nodup
          rw [hkeys]
          exact ih2.1
        · show (ufFind fuel uf px).2.rank.map (fun p : String × ℕ => p.1)
            = (dSet (ufFind fuel uf px).2.parent x r).map (fun p : String × String => p.1)
          rw [hkeys]
          exact ih2.2.1
        · intro y py hy hne
          show rankOf _ y < rankOf _ py
          have hr2 : ∀ k, rankOf ({ (ufFind fuel uf px).2 with
              parent := dSet (ufFind fuel uf px).2.parent x r } : UF) k
              = rankOf (ufFind fuel uf px).2 k := fun k => rfl
          rw [hr2, hr2]
          rw [show dGet? ({ (ufFind fuel uf px).2 with
              parent := dSet (ufFind fuel uf px).2.parent x r } : UF).parent y
            = dGet? (dSet (ufFind fuel uf px).2.parent x r) y from rfl,
            dGet?_dSet_fun] at hy
          by_cases hyx : y = x
          · rw [if_pos hyx] at hy
            injection hy with hv
            rw [ih4, ih4, hyx, ← hv]
            exact hlt2
          · rw [if_neg hyx] at hy
            exact ih2.2.2.1 y py hy hne
        · show Rsum _ + rootCnt (dSet (ufFind fuel uf px).2.parent x r)
            ≤ (dSet (ufFind fuel uf px).2.parent x r).length
          rw [show Rsum ({ (ufFind fuel uf px).2 with
              parent := dSet (ufFind fuel uf px).2.parent x r } : UF)
            = Rsum (ufFind fuel uf px).2 from rfl]
          rw [rootCnt_dSet _ x px1 r hpx1 hpx1ne (Ne.symm hxr)]
          rw [dSet_length_of_present _ x r (by rw [hpx1]; rfl)]
          exact ih2.2.2.2
        · exact fun a b => (hcomp a b).trans (ih3 a b)
        · exact fun k => ih4 k
        · show dGet? (dSet (ufFind fuel uf px).2.parent x r) r = some r
          rw [dGet?_dSet_fun, if_neg (Ne.symm hxr)]
          exact ih5
        · intro k hk
          show dGet? (dSet (ufFind fuel uf px).2.parent x r) k = some k
          have hkx : k ≠ x := by
            intro he
            rw [he, hx] at hk
            injection hk with hv
            exact hpxx hv
          rw [dGet?_dSet_fun, if_neg hkx]
          exact ih6 k hk
        · show Rsum _ = Rsum uf
          exact ih7

/-- Two ids lie in the same union-find class. -/
def SameRoot (uf : UF) (a b : String) : Prop :=
  ∃ r, Chases uf.parent a r ∧ Chases uf.parent b r

theorem ufFindTop_spec (uf : UF) (x r : String) (hinv : UFInv uf)
    (hch : Chases uf.parent x r) :
    (ufFindTop uf x).1 = r ∧
    UFInv (ufFindTop uf x).2 ∧
    (∀ a b, Chases (ufFindTop uf x).2.parent a b ↔ Chases uf.parent a b) ∧
    (∀ k, rankOf (ufFindTop uf x).2 k = rankOf uf k) ∧
    dGet? (ufFindTop uf x).2.parent r = some r ∧
    (∀ k, dGet? uf.parent k = some k → dGet? (ufFindTop uf x).2.parent k = some k) ∧
    Rsum (ufFindTop uf x).2 = Rsum uf := by
  apply ufFind_spec (uf.parent.length + 2) uf x r hinv hch
  have h1 := rankOf_le_Rsum uf r
  have h2 := hinv.2.2.2
  omega

theorem rootCnt_dSet_unself (par : List (String × String)) (small big : String)
    (hs : dGet? par small = some small) (hne : big ≠ small) :
    rootCnt (dSet par small big) + 1 = rootCnt par := by
  induction par with
  | nil => cases hs
  | cons p ps ih =>
    rw [dGet?] at hs
    by_cases hp : p.1 = small
    · rw [if_pos hp] at hs
      injection hs with hval
      unfold rootCnt dSet
      rw [if_pos hp]
      simp only [List.filter_cons]
      rw [show (decide ((small, big).2 = (small, big).1)) = false from by simp [hne]]
      rw [show (decide (p.2 = p.1)) = true from by simp [hval, hp]]
      simp
    · rw [if_neg hp] at hs
      unfold rootCnt dSet
      rw [if_neg hp]
      simp only [List.filter_cons]
      have ihr := ih hs
      unfold rootCnt at ihr
      by_cases hself : p.2 = p.1 <;> simp [hself] <;> omega

theorem sum_dSet (l : List (String × ℕ)) (k : String) (v w : ℕ)
    (h : dGet? l k = some v) :
    ((dSet l k w).map (·.2)).sum + v = (l.map (·.2)).sum + w := by
  induction l with
  | nil => cases h
  | cons p ps ih =>
    rw [dGet?] at h
    by_cases hp : p.1 = k
    · rw [if_pos hp] at h
      injection h with hval
      unfold dSet
      rw [if_pos hp]
      simp only [List.map_cons, List.sum_cons]
      omega
    · rw [if_neg hp] at h
      unfold dSet
      rw [if_neg hp]
      simp only [List.map_cons, List.sum_cons]
      have ihr := ih h
      omega

theorem ufLink_spec (uf2 : UF) (hinv2 : UFInv uf2) (small big : String)
    (hsmall : dGet? uf2.parent small = some small)
    (hbig : dGet? uf2.parent big = some big)
    (hne : small ≠ big) (hrk : rankOf uf2 small ≤ rankOf uf2 big) :
    UFInv (if (dGet? ({ uf2 with parent := dSet uf2.parent small big } : UF).rank big).getD 0
          = (dGet? ({ uf2 with parent := dSet uf2.parent small big } : UF).rank small).getD 0
        then { ({ uf2 with parent := dSet uf2.parent small big } : UF) with
          rank := dSet ({ uf2 with parent := dSet uf2.parent small big } : UF).rank big
            ((dGet? ({ uf2 with parent := dSet uf2.parent small big } : UF).rank big).getD 0 + 1) }
        else ({ uf2 with parent := dSet uf2.parent small big } : UF)) ∧
    (∀ a b, SameRoot uf2 a b →
      SameRoot (if (dGet? ({ uf2 with parent := dSet uf2.parent small big } : UF).rank big).getD 0
          = (dGet? ({ uf2 with parent := dSet uf2.parent small big } : UF).rank small).getD 0
        then { ({ uf2 with parent := dSet uf2.parent small big } : UF) with
          rank := dSet ({ uf2 with parent := dSet uf2.parent small big } : UF).rank big
            ((dGet? ({ uf2 with parent := dSet uf2.parent small big } : UF).rank big).getD 0 + 1) }
        else ({ uf2 with parent := dSet uf2.parent small big } : UF)) a b) ∧
    SameRoot (if (dGet? ({ uf2 with parent := dSet uf2.parent small big } : UF).rank big).getD 0
          = (dGet? ({ uf2 with parent := dSet uf2.parent small big } : UF).rank small).getD 0
        then { ({ uf2 with parent := dSet uf2.parent small big } : UF) with
          rank := dSet ({ uf2 with parent := dSet uf2.parent small big } : UF).rank big
            ((dGet? ({ uf2 with parent := dSet uf2.parent small big } : UF).rank big).getD 0 + 1) }
        else ({ uf2 with parent := dSet uf2.parent small big } : UF)) small big := by
  have hlink := chases_link hsmall hbig hne
  have hbigmem : (dGet? uf2.rank big).isSome := by
    rw [dGet?_isSome_iff_mem, hinv2.2.1, ← dGet?_isSome_iff_mem, hbig]
    rfl
  obtain ⟨vb, hvb⟩ := Option.isSome_iff_exists.mp hbigmem
  have hchase_pres : ∀ a b, SameRoot uf2 a b →
      ∀ c d, Chases (dSet uf2.parent small big) c d ↔
        (Chases uf2.parent c d ∧ d ≠ small) ∨ (Chases uf2.parent c small ∧ d = big) :=
    fun _ _ _ => hlink
  have hsr_pres : ∀ a b, SameRoot uf2 a b → SameRoot
      ({ uf2 with parent := dSet uf2.parent small big } : UF) a b := by
    rintro a b ⟨r, hra, hrb⟩
    by_cases hrs : r = small
    · subst hrs
      exact ⟨big, (hlink a big).mpr (Or.inr ⟨hra, rfl⟩),
        (hlink b big).mpr (Or.inr ⟨hrb, rfl⟩)⟩
    · exact ⟨r, (hlink a r).mpr (Or.inl ⟨hra, hrs⟩),
        (hlink b r).mpr (Or.inl ⟨hrb, hrs⟩)⟩
  have hsr_sb : SameRoot ({ uf2 with parent := dSet uf2.parent small big } : UF) small big :=
    ⟨big, (hlink small big).mpr (Or.inr ⟨chases_of_terminal (Or.inr hsmall), rfl⟩),
      (hlink big big).mpr (Or.inl ⟨chases_of_terminal (Or.inr hbig), Ne.symm hne⟩)⟩
  have hkeys : (dSet uf2.parent small big).map (·.1) = uf2.parent.map (·.1) := by
    rw [keys_dSet, if_pos (by rw [hsmall]; rfl)]
  have hlen : (dSet uf2.parent small big).length = uf2.parent.length :=
    dSet_length_of_present _ small big (by rw [hsmall]; rfl)
  have hroot : rootCnt (dSet uf2.parent small big) + 1 = rootCnt uf2.parent :=
    rootCnt_dSet_unself uf2.parent small big hsmall (Ne.symm hne)
  by_cases hbump : (dGet? ({ uf2 with parent := dSet uf2.parent small big } : UF).rank big).getD 0
      = (dGet? ({ uf2 with parent := dSet uf2.parent small big } : UF).rank small).getD 0
  · rw [if_pos hbump]
    have hbump' : rankOf uf2 big = rankOf uf2 small := hbump
    have hrank4 : ∀ k, rankOf ({ ({ uf2 with parent := dSet uf2.parent small big } : UF) with
        rank := dSet ({ uf2 with parent := dSet uf2.parent small big } : UF).rank big
          ((dGet? ({ uf2 with parent := dSet uf2.parent small big } : UF).rank big).getD 0 + 1) } : UF) k
        = if k = big then rankOf uf2 big + 1 else rankOf uf2 k := by
      intro k
      show (dGet? (dSet uf2.rank big ((dGet? uf2.rank big).getD 0 + 1)) k).getD 0 = _
      rw [dGet?_dSet_fun]
      by_cases hk : k = big
      · rw [if_pos hk, if_pos hk]
        rfl
      · rw [if_neg hk, if_neg hk]
        rfl
    refine ⟨⟨?_, ?_, ?_, ?_⟩, fun a b h => hsr_pres a b h, hsr_sb⟩
    · show ((dSet uf2.parent small big).map (·.1)).Nodup
      rw [hkeys]
      exact hinv2.1
    · show (dSet uf2.rank big _).map (fun p : String × ℕ => p.1)
        = (dSet uf2.parent small big).map (fun p : String × String => p.1)
      rw [hkeys, keys_dSet, if_pos hbigmem]
      exact hinv2.2.1
    · intro a pa hpa hnea
      have hpa' : dGet? (dSet uf2.parent small big) a = some pa := hpa
      rw [hrank4 a, hrank4 pa]
      rw [dGet?_dSet_fun] at hpa'
      by_cases has : a = small
      · rw [if_pos has] at hpa'
        injection hpa' with hv
        have hab : a ≠ big := by rw [has]; exact hne
        rw [if_neg hab, if_pos hv.symm, has]
        omega
      · rw [if_neg has] at hpa'
        have hedge := hinv2.2.2.1 a pa hpa' hnea
        by_cases hab : a = big
        · exfalso
          rw [hab, hbig] at hpa'
          injection hpa' with hv
          exact hnea (by rw [← hv, hab])
        · rw [if_neg hab]
          by_cases hpb : pa = big
          · rw [if_pos hpb]
            rw [hpb] at hedge
            omega
          · rw [if_neg hpb]
            exact hedge
    · show Rsum _ + rootCnt (dSet uf2.parent small big) ≤ (dSet uf2.parent small big).length
      have hsum : Rsum ({ ({ uf2 with parent := dSet uf2.parent small big } : UF) with
          rank := dSet ({ uf2 with parent := dSet uf2.parent small big } : UF).rank big
            ((dGet? ({ uf2 with parent := dSet uf2.parent small big } : UF).rank big).getD 0 + 1) } : UF)
          = Rsum uf2 + 1 := by
        have hgd : (dGet? uf2.rank big).getD 0 = vb := by rw [hvb]; rfl
        show ((dSet uf2.rank big ((dGet? uf2.rank big).getD 0 + 1)).map (·.2)).sum
          = Rsum uf2 + 1
        rw [hgd]
        have h2 := sum_dSet uf2.rank big vb (vb + 1) hvb
        unfold Rsum
        omega
      rw [hsum, hlen]
      have := hinv2.2.2.2
      omega
  · rw [if_neg hbump]
    have hbump' : rankOf uf2 big ≠ rankOf uf2 small := hbump
    have hlt : rankOf uf2 small < rankOf uf2 big := by
      rcases Nat.lt_or_ge (rankOf uf2 small) (rankOf uf2 big) with h | h
      · exact h
      · exfalso
        exact hbump' (by omega)
    refine ⟨⟨?_, ?_, ?_, ?_⟩, fun a b h => hsr_pres a b h, hsr_sb⟩
    · show ((dSet uf2.parent small big).map (·.1)).Nodup
      rw [hkeys]
      exact hinv2.1
    · show uf2.rank.map (fun p : String × ℕ => p.1)
        = (dSet uf2.parent small big).map (fun p : String × String => p.1)
      rw [hkeys]
      exact hinv2.2.1
    · intro a pa hpa hnea
      have hpa' : dGet? (dSet uf2.parent small big) a = some pa := hpa
      rw [dGet?_dSet_fun] at hpa'
      show rankOf uf2 a < rankOf uf2 pa
      by_cases has : a = small
      · rw [if_pos has] at hpa'
        injection hpa' with hv
        rw [has, ← hv]
        exact hlt
      · rw [if_neg has] at hpa'
        exact hinv2.2.2.1 a pa hpa' hnea
    · show Rsum uf2 + rootCnt (dSet uf2.parent small big) ≤ (dSet uf2.parent small big).length
      rw [hlen]
      have := hinv2.2.2.2
      omega

theorem sameRoot_symm {uf : UF} {a b : String} (h : SameRoot uf a b) : SameRoot uf b a := by
  obtain ⟨r, ha, hb⟩ := h
  exact ⟨r, hb, ha⟩

theorem sameRoot_trans {uf : UF} {a b c : String} (h1 : SameRoot uf a b)
    (h2 : SameRoot uf b c) : SameRoot uf a c := by
  obtain ⟨r1, ha, hb⟩ := h1
  obtain ⟨r2, hb2, hc⟩ := h2
  have hr := chases_det hb2 r1 hb
  exact ⟨r2, by rw [← hr] at hb2 ⊢; rw [hr]; exact hr ▸ ha, hc⟩

theorem sameRoot_refl (uf : UF) (hinv : UFInv uf) (a : String) : SameRoot uf a a := by
  obtain ⟨r, hr⟩ := chases_exists uf hinv a
  exact ⟨r, hr, hr⟩

/-- The linking tail of `ufUnion`, after both finds have returned roots. -/
def ufUnionCore (uf2 : UF) (px py : String) : UF :=
  let rx := (dGet? uf2.rank px).getD 0
  let ry := (dGet? uf2.rank py).getD 0
  let big := if rx < ry then py else px
  let small := if rx < ry then px else py
  let uf3 := { uf2 with parent := dSet uf2.parent small big }
  if (dGet? uf3.rank big).getD 0 = (dGet? uf3.rank small).getD 0
  then { uf3 with rank := dSet uf3.rank big ((dGet? uf3.rank big).getD 0 + 1) }
  else uf3

theorem ufUnion_eq (uf : UF) (x y : String) :
    ufUnion uf x y =
      if (ufFindTop uf x).1 = (ufFindTop (ufFindTop uf x).2 y).1
      then (ufFindTop (ufFindTop uf x).2 y).2
      else ufUnionCore (ufFindTop (ufFindTop uf x).2 y).2 (ufFindTop uf x).1
        (ufFindTop (ufFindTop uf x).2 y).1 := rfl

theorem ufUnionCore_spec (uf2 : UF) (hinv2 : UFInv uf2) (px py : String)
    (hne : px ≠ py) (hpx : dGet? uf2.parent px = some px)
    (hpy : dGet? uf2.parent py = some py) :
    UFInv (ufUnionCore uf2 px py) ∧
    (∀ a b, SameRoot uf2 a b → SameRoot (ufUnionCore uf2 px py) a b) ∧
    SameRoot (ufUnionCore uf2 px py) px py := by
  unfold ufUnionCore
  by_cases hrcmp : (dGet? uf2.rank px).getD 0 < (dGet? uf2.rank py).getD 0
  · simp only [hrcmp, if_true]
    obtain ⟨l1, l2, l3⟩ := ufLink_spec uf2 hinv2 px py hpx hpy hne (Nat.le_of_lt hrcmp)
    exact ⟨l1, l2, l3⟩
  · simp only [hrcmp, if_false]
    obtain ⟨l1, l2, l3⟩ := ufLink_spec uf2 hinv2 py px hpy hpx (Ne.symm hne)
      (Nat.le_of_not_lt hrcmp)
    exact ⟨l1, l2, sameRoot_symm l3⟩

theorem ufUnion_spec (uf : UF) (x y : String) (hinv : UFInv uf) :
    UFInv (ufUnion uf x y) ∧
    (∀ a b, SameRoot uf a b → SameRoot (ufUnion uf x y) a b) ∧
    SameRoot (ufUnion uf x y) x y := by
  obtain ⟨rx, hrx⟩ := chases_exists uf hinv x
  obtain ⟨f1a, f1inv, f1iff, f1rank, f1root, f1self, f1sum⟩ := ufFindTop_spec uf x rx hinv hrx
  obtain ⟨ry, hry⟩ := chases_exists (ufFindTop uf x).2 f1inv y
  obtain ⟨f2a, f2inv, f2iff, f2rank, f2root, f2self, f2sum⟩ :=
    ufFindTop_spec (ufFindTop uf x).2 y ry f1inv hry
  have hrootx2 : dGet? (ufFindTop (ufFindTop uf x).2 y).2.parent rx = some rx :=
    f2self rx f1root
  have hchx2 : Chases (ufFindTop (ufFindTop uf x).2 y).2.parent x rx :=
    (f2iff x rx).mpr ((f1iff x rx).mpr hrx)
  have hchy2 : Chases (ufFindTop (ufFindTop uf x).2 y).2.parent y ry := (f2iff y ry).mpr hry
  have hpres2 : ∀ a b, SameRoot uf a b → SameRoot (ufFindTop (ufFindTop uf x).2 y).2 a b := by
    rintro a b ⟨r, hra, hrb⟩
    exact ⟨r, (f2iff a r).mpr ((f1iff a r).mpr hra), (f2iff b r).mpr ((f1iff b r).mpr hrb)⟩
  rw [ufUnion_eq]
  by_cases hpq : (ufFindTop uf x).1 = (ufFindTop (ufFindTop uf x).2 y).1
  · rw [if_pos hpq]
    refine ⟨f2inv, hpres2, ⟨rx, hchx2, ?_⟩⟩
    have hxy : rx = ry := by rw [← f1a, ← f2a]; exact hpq
    rw [hxy]
    exact hchy2
  · rw [if_neg hpq]
    rw [f1a, f2a]
    have hpq' : ¬ rx = ry := by rw [← f1a, ← f2a]; exact hpq
    obtain ⟨l1, l2, l3⟩ := ufUnionCore_spec (ufFindTop (ufFindTop uf x).2 y).2 f2inv rx ry
      hpq' hrootx2 f2root
    refine ⟨l1, ?_, ?_⟩
    · intro a b hab
      exact l2 a b (hpres2 a b hab)
    · have hxrx : SameRoot (ufFindTop (ufFindTop uf x).2 y).2 x rx :=
        ⟨rx, hchx2, chases_of_terminal (Or.inr hrootx2)⟩
      have hyry : SameRoot (ufFindTop (ufFindTop uf x).2 y).2 y ry :=
        ⟨ry, hchy2, chases_of_terminal (Or.inr f2root)⟩
      exact sameRoot_trans (l2 x rx hxrx) (sameRoot_trans l3 (sameRoot_symm (l2 y ry hyry)))

/-! ### The union loop and the grouping loop -/

theorem clusterUnionLoop_spec (threshold : ℚ) :
    ∀ (ms : List MatchCandidate) (uf : UF) (recs : List (String × EntityRecord)),
    UFInv uf →
    (∀ k rec, dGet? recs k = some rec → rec.id = k) →
    UFInv (clusterUnionLoop threshold ms uf recs).1 ∧
    (∀ a b, SameRoot uf a b → SameRoot (clusterUnionLoop threshold ms uf recs).1 a b) ∧
    (∀ k, (dGet? recs k).isSome → (dGet? (clusterUnionLoop threshold ms uf recs).2 k).isSome) ∧
    (∀ k rec, dGet? (clusterUnionLoop threshold ms uf recs).2 k = some rec → rec.id = k) ∧
    (∀ m ∈ ms, threshold ≤ m.overall_score →
      SameRoot (clusterUnionLoop threshold ms uf recs).1 m.record_a.id m.record_b.id ∧
      (dGet? (clusterUnionLoop threshold ms uf recs).2 m.record_a.id).isSome ∧
      (dGet? (clusterUnionLoop threshold ms uf recs).2 m.record_b.id).isSome) := by
  intro ms
  induction ms with
  | nil =>
    intro uf recs hinv hrecs
    exact ⟨hinv, fun a b h => h, fun k h => h, hrecs, fun m hm => absurd hm (by simp)⟩
  | cons m ms ih =>
    intro uf recs hinv hrecs
    by_cases hacc : threshold ≤ m.overall_score
    · have hstep : clusterUnionLoop threshold (m :: ms) uf recs
          = clusterUnionLoop threshold ms (ufUnion uf m.record_a.id m.record_b.id)
            (dSet (dSet recs m.record_a.id m.record_a) m.record_b.id m.record_b) := by
        rw [clusterUnionLoop, if_pos hacc]
      obtain ⟨u1, u2, u3⟩ := ufUnion_spec uf m.record_a.id m.record_b.id hinv
      have hrecs' : ∀ k rec,
          dGet? (dSet (dSet recs m.record_a.id m.record_a) m.record_b.id m.record_b) k
            = some rec → rec.id = k := by
        intro k rec h
        rw [dGet?_dSet_fun] at h
        by_cases hk : k = m.record_b.id
        · rw [if_pos hk] at h
          injection h with hv
          rw [← hv, hk]
        · rw [if_neg hk, dGet?_dSet_fun] at h
          by_cases hk2 : k = m.record_a.id
          · rw [if_pos hk2] at h
            injection h with hv
            rw [← hv, hk2]
          · rw [if_neg hk2] at h
            exact hrecs k rec h
      obtain ⟨i1, i2, i3, i4, i5⟩ := ih (ufUnion uf m.record_a.id m.record_b.id)
        (dSet (dSet recs m.record_a.id m.record_a) m.record_b.id m.record_b) u1 hrecs'
      rw [hstep]
      refine ⟨i1, ?_, ?_, i4, ?_⟩
      · intro a b h
        exact i2 a b (u2 a b h)
      · intro k h
        apply i3
        rw [dGet?_dSet_fun]
        by_cases hk : k = m.record_b.id
        · rw [if_pos hk]; rfl
        · rw [if_neg hk, dGet?_dSet_fun]
          by_cases hk2 : k = m.record_a.id
          · rw [if_pos hk2]; rfl
          · rw [if_neg hk2]; exact h
      · intro m' hm' hsc'
        rcases List.mem_cons.mp hm' with rfl | hm'
        · refine ⟨i2 _ _ u3, ?_, ?_⟩
          · apply i3
            rw [dGet?_dSet_fun]
            by_cases hk : m'.record_a.id = m'.record_b.id
            · rw [if_pos hk]; rfl
            · rw [if_neg hk, dGet?_dSet_fun, if_pos rfl]; rfl
          · apply i3
            rw [dGet?_dSet_fun, if_pos rfl]; rfl
        · exact i5 m' hm' hsc'
    · have hstep : clusterUnionLoop threshold (m :: ms) uf recs
          = clusterUnionLoop threshold ms uf recs := by
        rw [clusterUnionLoop, if_neg hacc]
      obtain ⟨i1, i2, i3, i4, i5⟩ := ih uf recs hinv hrecs
      rw [hstep]
      refine ⟨i1, i2, i3, i4, ?_⟩
      intro m' hm' hsc'
      rcases List.mem_cons.mp hm' with rfl | hm'
      · exact absurd hsc' hacc
      · exact i5 m' hm' hsc'

theorem clusterGroupLoop_spec :
    ∀ (entries : List (String × EntityRecord)) (uf : UF)
      (cl : List (String × List EntityRecord)), UFInv uf →
    (∀ ρ rec, rec ∈ (dGet? cl ρ).getD [] →
      rec ∈ (dGet? (clusterGroupLoop entries uf cl) ρ).getD []) ∧
    (∀ k rec, (k, rec) ∈ entries → ∀ ρ, Chases uf.parent k ρ →
      rec ∈ (dGet? (clusterGroupLoop entries uf cl) ρ).getD []) := by
  intro entries
  induction entries with
  | nil =>
    intro uf cl _
    exact ⟨fun ρ rec h => h, fun k rec h => absurd h (by simp)⟩
  | cons e rest ih =>
    obtain ⟨rid, rec⟩ := e
    intro uf cl hinv
    obtain ⟨r0, hr0⟩ := chases_exists uf hinv rid
    obtain ⟨fa, finv, fiff, _, _, _, _⟩ := ufFindTop_spec uf rid r0 hinv hr0
    have hstep : clusterGroupLoop ((rid, rec) :: rest) uf cl
        = clusterGroupLoop rest (ufFindTop uf rid).2
          (dSet cl (ufFindTop uf rid).1
            ((dGet? cl (ufFindTop uf rid).1).getD [] ++ [rec])) := rfl
    obtain ⟨ig, im⟩ := ih (ufFindTop uf rid).2
      (dSet cl (ufFindTop uf rid).1 ((dGet? cl (ufFindTop uf rid).1).getD [] ++ [rec])) finv
    have hgrow : ∀ ρ rec', rec' ∈ (dGet? cl ρ).getD [] →
        rec' ∈ (dGet? (dSet cl (ufFindTop uf rid).1
          ((dGet? cl (ufFindTop uf rid).1).getD [] ++ [rec])) ρ).getD [] := by
      intro ρ rec' h
      rw [dGet?_dSet_fun]
      by_cases hρ : ρ = (ufFindTop uf rid).1
      · rw [if_pos hρ]
        simp only [Option.getD_some]
        rw [← hρ]
        exact List.mem_append_left _ h
      · rw [if_neg hρ]
        exact h
    rw [hstep]
    constructor
    · intro ρ rec' h
      exact ig ρ rec' (hgrow ρ rec' h)
    · intro k rec' hk ρ hρ
      rcases List.mem_cons.mp hk with heq | hk'
      · injection heq with h1 h2
        subst h1
        subst h2
        have hρr0 : ρ = r0 := chases_det hr0 ρ hρ
        apply ig
        rw [dGet?_dSet_fun, if_pos (by rw [hρr0, ← fa]), Option.getD_some]
        exact List.mem_append_right _ (by simp)
      · exact im k rec' hk' ρ ((fiff k ρ).mpr hρ)

/-- C2: clustering is transitive: whenever two scored candidate pairs (A, B)
and (B, C) both reach the match threshold, the records with ids A, B and C all
appear in one cluster produced by `cluster_matches`, even though no pair
(A, C) was ever scored. -/
theorem clustering_transitive (threshold : ℚ) (cands : List MatchCandidate)
    (m1 m2 : MatchCandidate) (h1 : m1 ∈ cands) (h2 : m2 ∈ cands)
    (hs1 : threshold ≤ m1.overall_score) (hs2 : threshold ≤ m2.overall_score)
    (hmid : m1.record_b.id = m2.record_a.id) :
    ∃ cl ∈ cluster_matches threshold cands,
      (∃ r ∈ cl, r.id = m1.record_a.id) ∧ (∃ r ∈ cl, r.id = m1.record_b.id) ∧
      (∃ r ∈ cl, r.id = m2.record_b.id) := by
  have hinv0 : UFInv (⟨[], []⟩ : UF) := by
    refine ⟨List.nodup_nil, rfl, ?_, ?_⟩
    · intro x px h
      cases h
    · show Rsum ⟨[], []⟩ + rootCnt [] ≤ 0
      simp [Rsum, rootCnt]
  obtain ⟨L1, L2, L3, L4, L5⟩ := clusterUnionLoop_spec threshold cands ⟨[], []⟩ [] hinv0
    (fun k rec h => by cases h)
  obtain ⟨P1a, P1b, P1c⟩ := L5 m1 h1 hs1
  obtain ⟨P2a, P2b, P2c⟩ := L5 m2 h2 hs2
  rw [hmid] at P1a
  have hscd := sameRoot_trans P1a P2a
  obtain ⟨ρ, hρa, hρc⟩ := hscd
  obtain ⟨ρ2, hρ2b, hρ2c⟩ := P2a
  have hρeq : ρ2 = ρ := chases_det hρc ρ2 hρ2c
  rw [hρeq] at hρ2b
  obtain ⟨ra, hra⟩ := Option.isSome_iff_exists.mp P1b
  obtain ⟨rb, hrb⟩ := Option.isSome_iff_exists.mp P2b
  obtain ⟨rc, hrc⟩ := Option.isSome_iff_exists.mp P2c
  obtain ⟨Ggrow, Gmem⟩ := clusterGroupLoop_spec
    (clusterUnionLoop threshold cands ⟨[], []⟩ []).2
    (clusterUnionLoop threshold cands ⟨[], []⟩ []).1 [] L1
  have hmema := Gmem m1.record_a.id ra (dGet?_mem _ _ _ hra) ρ hρa
  have hmemb := Gmem m2.record_a.id rb (dGet?_mem _ _ _ hrb) ρ hρ2b
  have hmemc := Gmem m2.record_b.id rc (dGet?_mem _ _ _ hrc) ρ hρc
  rcases hG : dGet? (clusterGroupLoop (clusterUnionLoop threshold cands ⟨[], []⟩ []).2
      (clusterUnionLoop threshold cands ⟨[], []⟩ []).1 []) ρ with _ | l
  · rw [hG] at hmema
    simp at hmema
  · rw [hG] at hmema hmemb hmemc
    simp only [Option.getD_some] at hmema hmemb hmemc
    refine ⟨l, ?_, ⟨ra, hmema, L4 _ _ hra⟩, ⟨rb, hmemb, ?_⟩, ⟨rc, hmemc, L4 _ _ hrc⟩⟩
    · show l ∈ cluster_matches threshold cands
      unfold cluster_matches
      exact List.mem_map_of_mem (·.2) (dGet?_mem _ _ _ hG)
    · rw [L4 _ _ hrb, hmid]

/-- Fixture record for the clustering witness. -/
def recA : EntityRecord := { id := "a", source_system := "s1", entity_type := "person" }

/-- Fixture record for the clustering witness. -/
def recB : EntityRecord := { id := "b", source_system := "s2", entity_type := "person" }

/-- Fixture record for the clustering witness. -/
def recC : EntityRecord := { id := "c", source_system := "s3", entity_type := "person" }

/-- Accepted candidate pair (A, B). -/
def candAB : MatchCandidate :=
  { record_a := recA, record_b := recB, blocking_key := "k",
    similarity_scores := [], overall_score := 1 }

/-- Accepted candidate pair (B, C). -/
def candBC : MatchCandidate :=
  { record_a := recB, record_b := recC, blocking_key := "k",
    similarity_scores := [], overall_score := 1 }

theorem clustering_transitive_witness :
    ∃ cl ∈ cluster_matches (1 / 2) [candAB, candBC],
      (∃ r ∈ cl, r.id = candAB.record_a.id) ∧ (∃ r ∈ cl, r.id = candAB.record_b.id) ∧
      (∃ r ∈ cl, r.id = candBC.record_b.id) :=
  clustering_transitive (1 / 2) [candAB, candBC] candAB candBC
    (List.mem_cons_self candAB [candBC])
    (List.mem_cons_of_mem candAB (List.mem_cons_self candBC []))
    (by with_unfolding_all decide) (by with_unfolding_all decide) rfl

/-! ## C1: idempotence and order-independence of `resolve`

Each stage of the resolution pipeline is characterized by an
input-order-independent description: the block index as a per-key selection
from the record list, the scored candidates as the unordered in-block pairs,
the union-find closure as the equivalence closure of the accepted pairs, and
the produced `resolved_id`s as hashes of the sorted matched classes plus the
unmatched singleton ids. -/

theorem dGet?_of_mem_nodup [DecidableEq κ] (l : List (κ × α)) (k : κ) (v : α)
    (hnd : (l.map (·.1)).Nodup) (hmem : (k, v) ∈ l) : dGet? l k = some v := by
  induction l with
  | nil => cases hmem
  | cons p ps ih =>
    rcases List.mem_cons.mp hmem with rfl | hm
    · rw [dGet?, if_pos rfl]
    · rw [dGet?]
      by_cases hp : p.1 = k
      · exfalso
        have hk : k ∈ ps.map (·.1) := List.mem_map_of_mem _ hm
        rw [List.map_cons, List.nodup_cons] at hnd
        exact hnd.1 (hp ▸ hk)
      · rw [if_neg hp]
        rw [List.map_cons, List.nodup_cons] at hnd
        exact ih hnd.2 hm

theorem nodupKeys_dSet [DecidableEq κ] (l : List (κ × α)) (k : κ) (v : α)
    (h : (l.map (·.1)).Nodup) : ((dSet l k v).map (·.1)).Nodup := by
  rw [keys_dSet]
  by_cases hs : (dGet? l k).isSome
  · rw [if_pos hs]; exact h
  · rw [if_neg hs]
    have hk : k ∉ l.map (·.1) := by
      rw [← dGet?_isSome_iff_mem]; exact hs
    simp [List.nodup_append, h, hk]

theorem pairKey_comm (x y : String) : pairKey y x = pairKey x y := by
  unfold pairKey
  by_cases hxy : x ≤ y
  · by_cases hyx : y ≤ x
    · have : x = y := le_antisymm hxy hyx
      subst this; rfl
    · rw [if_neg hyx, if_pos hxy]
  · have hyx : y ≤ x := le_of_not_le hxy
    rw [if_pos hyx, if_neg hxy]

theorem pairKey_cases {a b c d : String} (h : pairKey a b = pairKey c d) :
    (a = c ∧ b = d) ∨ (a = d ∧ b = c) := by
  unfold pairKey at h
  by_cases hab : a ≤ b <;> by_cases hcd : c ≤ d
  · rw [if_pos hab, if_pos hcd] at h
    injection h with h1 h2; exact Or.inl ⟨h1, h2⟩
  · rw [if_pos hab, if_neg hcd] at h
    injection h with h1 h2; exact Or.inr ⟨h1, h2⟩
  · rw [if_neg hab, if_pos hcd] at h
    injection h with h1 h2; exact Or.inr ⟨h2, h1⟩
  · rw [if_neg hab, if_neg hcd] at h
    injection h with h1 h2; exact Or.inl ⟨h2, h1⟩

theorem sublist_pair_decomp {α : Type} {a b : α} :
    ∀ {l : List α}, List.Sublist [a, b] l → ∃ l1 l2 l3, l = l1 ++ a :: l2 ++ b :: l3 := by
  intro l h
  induction l with
  | nil => cases h
  | cons x l ih =>
    cases h with
    | cons _ h' =>
      obtain ⟨l1, l2, l3, rfl⟩ := ih h'
      exact ⟨x :: l1, l2, l3, rfl⟩
    | cons₂ _ h' =>
      have hb : b ∈ l := h'.subset (List.mem_singleton_self b)
      obtain ⟨l2, l3, rfl⟩ := List.append_of_mem hb
      exact ⟨[], l2, l3, rfl⟩

theorem pair_sublist_of_mem {α : Type} {a b : α} (hne : a ≠ b) :
    ∀ {l : List α}, a ∈ l → b ∈ l → List.Sublist [a, b] l ∨ List.Sublist [b, a] l := by
  intro l
  induction l with
  | nil => intro h; cases h
  | cons x l ih =>
    intro ha hb
    rcases List.mem_cons.mp ha with rfl | ha'
    · left
      have hb' : b ∈ l := by
        rcases List.mem_cons.mp hb with h | h
        · exact absurd h.symm hne
        · exact h
      exact (List.singleton_sublist.mpr hb').cons₂ a
    · rcases List.mem_cons.mp hb with rfl | hb'
      · right
        exact (List.singleton_sublist.mpr ha').cons₂ b
      · rcases ih ha' hb' with h | h
        · exact Or.inl (h.cons x)
        · exact Or.inr (h.cons x)

theorem pair_sublist_of_count {α : Type} [DecidableEq α] {a : α} {l : List α}
    (h : 2 ≤ l.count a) : List.Sublist [a, a] l := by
  have h2 := List.le_count_iff_replicate_sublist.mp h
  simpa [List.replicate] using h2

/-! ### The block index as a per-key selection -/

/-- The contents of the block for key `k` after indexing `S`: each record, as
many times as `k` occurs among its blocking keys, in record order. -/
def blockAt (S : List EntityRecord) (k : String) : List EntityRecord :=
  S.flatMap fun r => List.replicate ((generate_blocking_keys r).count k) r

theorem blockFold_inner (r : EntityRecord) :
    ∀ (ks : List String) (idx : List (String × List EntityRecord)) (k : String),
    (dGet? (ks.foldl (fun idx k => dSet idx k ((dGet? idx k).getD [] ++ [r])) idx) k).getD []
      = (dGet? idx k).getD [] ++ List.replicate (ks.count k) r := by
  intro ks
  induction ks with
  | nil => intro idx k; simp
  | cons k0 ks ih =>
    intro idx k
    rw [List.foldl_cons, ih, dGet?_dSet_fun]
    by_cases hk : k = k0
    · subst hk
      rw [if_pos rfl, Option.getD_some]
      have hc : (k :: ks).count k = ks.count k + 1 := by
        simp [List.count_cons]
      rw [hc, List.replicate_succ, List.append_assoc]
      rfl
    · rw [if_neg hk]
      have hc : (k0 :: ks).count k = ks.count k := by
        simp [List.count_cons, hk]
      rw [hc]

theorem blockFold_inner_nodup (r : EntityRecord) :
    ∀ (ks : List String) (idx : List (String × List EntityRecord)),
    (idx.map (·.1)).Nodup →
    (((ks.foldl (fun idx k => dSet idx k ((dGet? idx k).getD [] ++ [r])) idx)).map
      (·.1)).Nodup := by
  intro ks
  induction ks with
  | nil => intro idx h; exact h
  | cons k0 ks ih =>
    intro idx h
    rw [List.foldl_cons]
    exact ih _ (nodupKeys_dSet _ _ _ h)

theorem blockFold_outer :
    ∀ (S : List EntityRecord) (idx : List (String × List EntityRecord)) (k : String),
    (dGet? (S.foldl (fun idx r => (generate_blocking_keys r).foldl
        (fun idx k => dSet idx k ((dGet? idx k).getD [] ++ [r])) idx) idx) k).getD []
      = (dGet? idx k).getD [] ++ blockAt S k := by
  intro S
  induction S with
  | nil => intro idx k; simp [blockAt]
  | cons r S ih =>
    intro idx k
    rw [List.foldl_cons, ih, blockFold_inner]
    unfold blockAt
    rw [List.flatMap_cons, List.append_assoc]

theorem blockFold_outer_nodup :
    ∀ (S : List EntityRecord) (idx : List (String × List EntityRecord)),
    (idx.map (·.1)).Nodup →
    ((S.foldl (fun idx r => (generate_blocking_keys r).foldl
        (fun idx k => dSet idx k ((dGet? idx k).getD [] ++ [r])) idx) idx).map (·.1)).Nodup := by
  intro S
  induction S with
  | nil => intro idx h; exact h
  | cons r S ih =>
    intro idx h
    rw [List.foldl_cons]
    exact ih _ (blockFold_inner_nodup r _ _ h)

theorem blockIndex_getD (S : List EntityRecord) (k : String) :
    (dGet? (buildBlockIndex S) k).getD [] = blockAt S k := by
  unfold buildBlockIndex
  rw [blockFold_outer]
  simp [dGet?]

theorem blockIndex_nodup (S : List EntityRecord) :
    ((buildBlockIndex S).map (·.1)).Nodup := by
  unfold buildBlockIndex
  exact blockFold_outer_nodup S [] (by simp)

theorem blockIndex_entry (S : List EntityRecord) (k : String)
    (l : List EntityRecord) (h : (k, l) ∈ buildBlockIndex S) : l = blockAt S k := by
  have hg := dGet?_of_mem_nodup _ _ _ (blockIndex_nodup S) h
  have := blockIndex_getD S k
  rw [hg, Option.getD_some] at this
  exact this

theorem blockIndex_mem_of_ne (S : List EntityRecord) (k : String)
    (hne : blockAt S k ≠ []) : (k, blockAt S k) ∈ buildBlockIndex S := by
  have hg := blockIndex_getD S k
  rcases hd : dGet? (buildBlockIndex S) k with _ | l
  · rw [hd] at hg
    exact absurd hg.symm hne
  · rw [hd, Option.getD_some] at hg
    rw [← hg]
    exact dGet?_mem _ _ _ hd

theorem mem_blockAt (S : List EntityRecord) (k : String) (r : EntityRecord) :
    r ∈ blockAt S k ↔ r ∈ S ∧ k ∈ generate_blocking_keys r := by
  unfold blockAt
  rw [List.mem_flatMap]
  constructor
  · rintro ⟨r', hr', hmem⟩
    rw [List.mem_replicate] at hmem
    obtain ⟨hn, rfl⟩ := hmem
    refine ⟨hr', ?_⟩
    rw [← List.count_pos_iff]
    omega
  · rintro ⟨hr, hk⟩
    refine ⟨r, hr, ?_⟩
    rw [List.mem_replicate]
    have := List.count_pos_iff.mpr hk
    exact ⟨by omega, rfl⟩

theorem count_blockAt (S : List EntityRecord) (k : String) (r : EntityRecord)
    (hnd : (S.map (·.id)).Nodup) :
    (blockAt S k).count r
      = if r ∈ S then (generate_blocking_keys r).count k else 0 := by
  induction S with
  | nil => simp [blockAt]
  | cons r' S ih =>
    rw [List.map_cons, List.nodup_cons] at hnd
    unfold blockAt
    rw [List.flatMap_cons, List.count_append]
    have ihr := ih hnd.2
    unfold blockAt at ihr
    rw [ihr]
    by_cases hrr : r = r'
    · subst hrr
      have hnot : r ∉ S := fun hm => hnd.1 (List.mem_map_of_mem _ hm)
      rw [if_neg hnot, if_pos (List.mem_cons_self r S)]
      rw [List.count_replicate_self]
      omega
    · have hcr : List.count r
          (List.replicate ((generate_blocking_keys r').count k) r') = 0 :=
        List.count_eq_zero.mpr (by simp [List.mem_replicate, hrr])
      rw [hcr]
      by_cases hm : r ∈ S
      · rw [if_pos hm, if_pos (List.mem_cons_of_mem r' hm)]
        omega
      · rw [if_neg hm, if_neg (by
          intro hc
          rcases List.mem_cons.mp hc with h | h
          · exact hrr h
          · exact hm h)]

/-! ### Orientation-independence of the pair score -/

theorem score_pair_record_a (ra rb : EntityRecord) :
    (score_candidate_pair ra rb).record_a = ra := rfl

theorem score_pair_record_b (ra rb : EntityRecord) :
    (score_candidate_pair ra rb).record_b = rb := rfl

theorem idScore_comm (key : String) (a b : Option Str) :
    idScore key b a = idScore key a b := by
  unfold idScore
  by_cases ha : truthy a <;> by_cases hb : truthy b
  · by_cases hab : a.getD [] = b.getD []
    · simp [ha, hb, hab]
    · simp [ha, hb, hab, Ne.symm hab]
  all_goals simp [ha, hb]

theorem score_scores_comm (ra rb : EntityRecord) :
    (score_candidate_pair rb ra).similarity_scores
      = (score_candidate_pair ra rb).similarity_scores := by
  simp only [score_candidate_pair]
  have hname : (if orGet rb.name_standardized rb.name ≠ [] ∧
        orGet ra.name_standardized ra.name ≠ [] then
        [("name", composite_name_score (orGet rb.name_standardized rb.name)
          (orGet ra.name_standardized ra.name))] else [])
      = (if orGet ra.name_standardized ra.name ≠ [] ∧
        orGet rb.name_standardized rb.name ≠ [] then
        [("name", composite_name_score (orGet ra.name_standardized ra.name)
          (orGet rb.name_standardized rb.name))] else []) := by
    rw [composite_name_score_comm]
    exact if_congr and_comm rfl rfl
  have hdob : (if truthy rb.date_of_birth ∧ truthy ra.date_of_birth then
        [("dob", if rb.date_of_birth.getD [] = ra.date_of_birth.getD [] then (1 : ℚ) else 0)]
        else [])
      = (if truthy ra.date_of_birth ∧ truthy rb.date_of_birth then
        [("dob", if ra.date_of_birth.getD [] = rb.date_of_birth.getD [] then (1 : ℚ) else 0)]
        else []) := by
    refine if_congr and_comm ?_ rfl
    by_cases hab : ra.date_of_birth.getD [] = rb.date_of_birth.getD []
    · simp [hab]
    · simp [hab, Ne.symm hab]
  have haddr : (if orGet rb.address_standardized rb.address ≠ [] ∧
        orGet ra.address_standardized ra.address ≠ [] then
        [("address", jaro_winkler_similarity (orGet rb.address_standardized rb.address)
          (orGet ra.address_standardized ra.address))] else [])
      = (if orGet ra.address_standardized ra.address ≠ [] ∧
        orGet rb.address_standardized rb.address ≠ [] then
        [("address", jaro_winkler_similarity (orGet ra.address_standardized ra.address)
          (orGet rb.address_standardized rb.address))] else []) := by
    rw [jaro_winkler_similarity_comm]
    exact if_congr and_comm rfl rfl
  rw [hname, hdob, haddr, idScore_comm "national_id" ra.national_id rb.national_id,
    idScore_comm "passport" ra.passport rb.passport,
    idScore_comm "tax_id" ra.tax_id rb.tax_id,
    idScore_comm "company_reg" ra.company_reg rb.company_reg]

theorem score_overall_of_scores (ra rb : EntityRecord) :
    (score_candidate_pair ra rb).overall_score
      = (if 0 < (((score_candidate_pair ra rb).similarity_scores.map
            fun p => attrWeight p.1).sum)
        then ((score_candidate_pair ra rb).similarity_scores.map
            fun p => p.2 * attrWeight p.1).sum
          / (((score_candidate_pair ra rb).similarity_scores.map
            fun p => attrWeight p.1).sum)
        else 0) := rfl

theorem score_overall_comm (ra rb : EntityRecord) :
    (score_candidate_pair rb ra).overall_score
      = (score_candidate_pair ra rb).overall_score := by
  rw [score_overall_of_scores, score_overall_of_scores, score_scores_comm]

/-! ### The scored candidates as the unordered in-block pairs -/

/-- The deduplication key of a candidate. -/
def pkOf (m : MatchCandidate) : String × String := pairKey m.record_a.id m.record_b.id

/-- `seen_pairs` holds exactly the keys of the emitted candidates. -/
def SeenInv (seen : List (String × String)) (out : List MatchCandidate) : Prop :=
  ∀ pk, pk ∈ seen ↔ ∃ m ∈ out, pkOf m = pk

theorem pkOf_mk (key : String) (ra rb : EntityRecord) :
    pkOf { score_candidate_pair ra rb with blocking_key := key } = pairKey ra.id rb.id := rfl

theorem overall_mk (key : String) (ra rb : EntityRecord) :
    ({ score_candidate_pair ra rb with blocking_key := key } : MatchCandidate).overall_score
      = (score_candidate_pair ra rb).overall_score := rfl

theorem recs_mk (key : String) (ra rb : EntityRecord) :
    ({ score_candidate_pair ra rb with blocking_key := key } : MatchCandidate).record_a = ra ∧
    ({ score_candidate_pair ra rb with blocking_key := key } : MatchCandidate).record_b = rb :=
  ⟨rfl, rfl⟩

theorem pairsForA_cons_seen (key : String) (ra rb : EntityRecord)
    (rest : List EntityRecord) (seen : List (String × String)) (out : List MatchCandidate)
    (h : pairKey ra.id rb.id ∈ seen) :
    pairsForA key ra (rb :: rest) seen out = pairsForA key ra rest seen out := by
  rw [pairsForA, if_pos h]

theorem pairsForA_cons_new (key : String) (ra rb : EntityRecord)
    (rest : List EntityRecord) (seen : List (String × String)) (out : List MatchCandidate)
    (h : pairKey ra.id rb.id ∉ seen) :
    pairsForA key ra (rb :: rest) seen out
      = pairsForA key ra rest (seen ++ [pairKey ra.id rb.id])
          (out ++ [{ score_candidate_pair ra rb with blocking_key := key }]) := by
  rw [pairsForA, if_neg h]

theorem pairsForA_spec (key : String) (ra : EntityRecord) :
    ∀ (rest : List EntityRecord) (seen : List (String × String)) (out : List MatchCandidate),
    (∀ m ∈ (pairsForA key ra rest seen out).2, m ∈ out ∨
      ∃ rb ∈ rest, m = { score_candidate_pair ra rb with blocking_key := key }) ∧
    (SeenInv seen out →
      SeenInv (pairsForA key ra rest seen out).1 (pairsForA key ra rest seen out).2) ∧
    (∀ pk ∈ seen, pk ∈ (pairsForA key ra rest seen out).1) ∧
    (∀ m ∈ out, m ∈ (pairsForA key ra rest seen out).2) ∧
    (∀ rb ∈ rest, pairKey ra.id rb.id ∈ (pairsForA key ra rest seen out).1) := by
  intro rest
  induction rest with
  | nil =>
    intro seen out
    rw [pairsForA]
    exact ⟨fun m hm => Or.inl hm, fun h => h, fun pk h => h, fun m h => h,
      fun rb h => absurd h (by simp)⟩
  | cons rb rest ih =>
    intro seen out
    by_cases hseen : pairKey ra.id rb.id ∈ seen
    · rw [pairsForA_cons_seen key ra rb rest seen out hseen]
      obtain ⟨i1, i2, i3, i4, i5⟩ := ih seen out
      refine ⟨?_, i2, i3, i4, ?_⟩
      · intro m hm
        rcases i1 m hm with h | ⟨rb', hrb', hm'⟩
        · exact Or.inl h
        · exact Or.inr ⟨rb', List.mem_cons_of_mem rb hrb', hm'⟩
      · intro rb' hrb'
        rcases List.mem_cons.mp hrb' with rfl | h
        · exact i3 _ hseen
        · exact i5 rb' h
    · rw [pairsForA_cons_new key ra rb rest seen out hseen]
      obtain ⟨i1, i2, i3, i4, i5⟩ := ih (seen ++ [pairKey ra.id rb.id])
        (out ++ [{ score_candidate_pair ra rb with blocking_key := key }])
      refine ⟨?_, ?_, ?_, ?_, ?_⟩
      · intro m hm
        rcases i1 m hm with h | ⟨rb', hrb', hm'⟩
        · rcases List.mem_append.mp h with h | h
          · exact Or.inl h
          · refine Or.inr ⟨rb, List.mem_cons_self rb rest, ?_⟩
            rcases List.mem_singleton.mp h with rfl
            rfl
        · exact Or.inr ⟨rb', List.mem_cons_of_mem rb hrb', hm'⟩
      · intro hinv
        apply i2
        intro pk
        rw [List.mem_append, List.mem_singleton, hinv pk]
        constructor
        · rintro (⟨m, hm, hpk⟩ | rfl)
          · exact ⟨m, List.mem_append_left _ hm, hpk⟩
          · exact ⟨_, List.mem_append_right _ (List.mem_singleton_self _), rfl⟩
        · rintro ⟨m, hm, hpk⟩
          rcases List.mem_append.mp hm with h | h
          · exact Or.inl ⟨m, h, hpk⟩
          · rcases List.mem_singleton.mp h with rfl
            exact Or.inr hpk.symm
      · intro pk hpk
        exact i3 pk (List.mem_append_left _ hpk)
      · intro m hm
        exact i4 m (List.mem_append_left _ hm)
      · intro rb' hrb'
        rcases List.mem_cons.mp hrb' with rfl | h
        · exact i3 _ (List.mem_append_right _ (List.mem_singleton_self _))
        · exact i5 rb' h

theorem pairsForBlock_cons (key : String) (r0 : EntityRecord) (rest : List EntityRecord)
    (seen : List (String × String)) (out : List MatchCandidate) :
    pairsForBlock key (r0 :: rest) seen out
      = pairsForBlock key rest (pairsForA key r0 rest seen out).1
          (pairsForA key r0 rest seen out).2 := by
  rw [pairsForBlock]

theorem pairsForBlock_spec (key : String) :
    ∀ (l : List EntityRecord) (seen : List (String × String)) (out : List MatchCandidate),
    (∀ m ∈ (pairsForBlock key l seen out).2, m ∈ out ∨
      ∃ l1 ra l2 rb l3, l = l1 ++ ra :: l2 ++ rb :: l3 ∧
        m = { score_candidate_pair ra rb with blocking_key := key }) ∧
    (SeenInv seen out →
      SeenInv (pairsForBlock key l seen out).1 (pairsForBlock key l seen out).2) ∧
    (∀ pk ∈ seen, pk ∈ (pairsForBlock key l seen out).1) ∧
    (∀ m ∈ out, m ∈ (pairsForBlock key l seen out).2) ∧
    (∀ l1 ra l2 rb l3, l = l1 ++ ra :: l2 ++ rb :: l3 →
      pairKey ra.id rb.id ∈ (pairsForBlock key l seen out).1) := by
  intro l
  induction l with
  | nil =>
    intro seen out
    rw [pairsForBlock]
    refine ⟨fun m hm => Or.inl hm, fun h => h, fun pk h => h, fun m h => h, ?_⟩
    intro l1 ra l2 rb l3 h
    exact absurd h (by simp)
  | cons r0 rest ih =>
    intro seen out
    rw [pairsForBlock_cons]
    obtain ⟨a1, a2, a3, a4, a5⟩ := pairsForA_spec key r0 rest seen out
    obtain ⟨i1, i2, i3, i4, i5⟩ := ih (pairsForA key r0 rest seen out).1
      (pairsForA key r0 rest seen out).2
    refine ⟨?_, fun h => i2 (a2 h), fun pk h => i3 pk (a3 pk h), fun m h => i4 m (a4 m h), ?_⟩
    · intro m hm
      rcases i1 m hm with h | ⟨l1, ra, l2, rb, l3, hl, hm'⟩
      · rcases a1 m h with h' | ⟨rb, hrb, hm'⟩
        · exact Or.inl h'
        · obtain ⟨l2, l3, rfl⟩ := List.append_of_mem hrb
          exact Or.inr ⟨[], r0, l2, rb, l3, rfl, hm'⟩
      · exact Or.inr ⟨r0 :: l1, ra, l2, rb, l3, by simp [hl], hm'⟩
    · intro l1 ra l2 rb l3 h
      cases l1 with
      | nil =>
        injection h with h1 h2
        subst h1
        subst h2
        exact i3 _ (a5 rb (by simp))
      | cons x l1' =>
        injection h with h1 h2
        exact i5 l1' ra l2 rb l3 h2

theorem scoredFold_spec :
    ∀ (bs : List (String × List EntityRecord))
      (st0 : List (String × String) × List MatchCandidate),
    (∀ m ∈ (bs.foldl (fun st b => pairsForBlock b.1 b.2 st.1 st.2) st0).2, m ∈ st0.2 ∨
      ∃ b ∈ bs, ∃ l1 ra l2 rb l3, b.2 = l1 ++ ra :: l2 ++ rb :: l3 ∧
        m = { score_candidate_pair ra rb with blocking_key := b.1 }) ∧
    (SeenInv st0.1 st0.2 →
      SeenInv (bs.foldl (fun st b => pairsForBlock b.1 b.2 st.1 st.2) st0).1
        (bs.foldl (fun st b => pairsForBlock b.1 b.2 st.1 st.2) st0).2) ∧
    (∀ pk ∈ st0.1, pk ∈ (bs.foldl (fun st b => pairsForBlock b.1 b.2 st.1 st.2) st0).1) ∧
    (∀ b ∈ bs, ∀ l1 ra l2 rb l3, b.2 = l1 ++ ra :: l2 ++ rb :: l3 →
      pairKey ra.id rb.id ∈ (bs.foldl (fun st b => pairsForBlock b.1 b.2 st.1 st.2) st0).1) := by
  intro bs
  induction bs with
  | nil =>
    intro st0
    refine ⟨fun m hm => Or.inl hm, fun h => h, fun pk h => h, ?_⟩
    intro b hb
    exact absurd hb (by simp)
  | cons b0 bs ih =>
    intro st0
    rw [List.foldl_cons]
    obtain ⟨b1, b2, b3, b4, b5⟩ := pairsForBlock_spec b0.1 b0.2 st0.1 st0.2
    obtain ⟨i1, i2, i3, i4⟩ := ih (pairsForBlock b0.1 b0.2 st0.1 st0.2)
    refine ⟨?_, fun h => i2 (b2 h), fun pk h => i3 pk (b3 pk h), ?_⟩
    · intro m hm
      rcases i1 m hm with h | ⟨b, hb, hdec⟩
      · rcases b1 m h with h' | ⟨l1, ra, l2, rb, l3, hl, hm'⟩
        · exact Or.inl h'
        · exact Or.inr ⟨b0, List.mem_cons_self b0 bs, l1, ra, l2, rb, l3, hl, hm'⟩
      · exact Or.inr ⟨b, List.mem_cons_of_mem b0 hb, hdec⟩
    · intro b hb l1 ra l2 rb l3 h
      rcases List.mem_cons.mp hb with rfl | hb'
      · exact i3 _ (b5 l1 ra l2 rb l3 h)
      · exact i4 b hb' l1 ra l2 rb l3 h

theorem seenInv_nil : SeenInv [] [] := by
  intro pk
  simp

theorem scoredPairs_sound (blocks : List (String × List EntityRecord)) :
    ∀ m ∈ scoredPairs blocks, ∃ b ∈ blocks, ∃ l1 ra l2 rb l3,
      b.2 = l1 ++ ra :: l2 ++ rb :: l3 ∧
      m = { score_candidate_pair ra rb with blocking_key := b.1 } := by
  intro m hm
  obtain ⟨s1, _, _, _⟩ := scoredFold_spec blocks ([], [])
  rcases s1 m hm with h | h
  · exact absurd h (by simp)
  · exact h

theorem scoredPairs_cover (blocks : List (String × List EntityRecord))
    (b : String × List EntityRecord) (hb : b ∈ blocks)
    (l1 : List EntityRecord) (ra : EntityRecord) (l2 : List EntityRecord)
    (rb : EntityRecord) (l3 : List EntityRecord)
    (hdec : b.2 = l1 ++ ra :: l2 ++ rb :: l3) :
    ∃ m ∈ scoredPairs blocks, pkOf m = pairKey ra.id rb.id := by
  obtain ⟨_, s2, _, s4⟩ := scoredFold_spec blocks ([], [])
  have hseen := s4 b hb l1 ra l2 rb l3 hdec
  exact (s2 seenInv_nil (pairKey ra.id rb.id)).mp hseen

/-! ### The union-find closure as an equivalence closure -/

/-- Equivalence closure of a relation on ids. -/
inductive EqvCl (r : String → String → Prop) : String → String → Prop
  | base {a b : String} : r a b → EqvCl r a b
  | refl (a : String) : EqvCl r a a
  | symm {a b : String} : EqvCl r a b → EqvCl r b a
  | trans {a b c : String} : EqvCl r a b → EqvCl r b c → EqvCl r a c

theorem eqvCl_mono {r s : String → String → Prop}
    (h : ∀ a b, r a b → EqvCl s a b) : ∀ {a b : String}, EqvCl r a b → EqvCl s a b := by
  intro a b hab
  induction hab with
  | base h' => exact h _ _ h'
  | refl a => exact EqvCl.refl a
  | symm _ ih => exact EqvCl.symm ih
  | trans _ _ ih1 ih2 => exact EqvCl.trans ih1 ih2

theorem eqvCl_collapse {r : String → String → Prop} (hrefl : ∀ a, r a a)
    (hsymm : ∀ {a b}, r a b → r b a) (htrans : ∀ {a b c}, r a b → r b c → r a c) :
    ∀ {a b : String}, EqvCl r a b → r a b := by
  intro a b hab
  induction hab with
  | base h' => exact h'
  | refl a => exact hrefl a
  | symm _ ih => exact hsymm ih
  | trans _ _ ih1 ih2 => exact htrans ih1 ih2

theorem eqvCl_iff_congr {r s : String → String → Prop} (h : ∀ a b, r a b ↔ s a b)
    {a b : String} : EqvCl r a b ↔ EqvCl s a b :=
  ⟨eqvCl_mono fun u v hr => EqvCl.base ((h u v).mp hr),
   eqvCl_mono fun u v hs => EqvCl.base ((h u v).mpr hs)⟩

theorem chases_nil (a b : String) : Chases [] a b ↔ b = a := by
  constructor
  · intro h
    cases h with
    | root => rfl
    | step x px r hpx => cases hpx
  · rintro rfl
    exact Chases.root _ (Or.inl rfl)

theorem sameRoot_nil (a b : String) : SameRoot ⟨[], []⟩ a b ↔ a = b := by
  constructor
  · rintro ⟨r, hra, hrb⟩
    rw [← (chases_nil a r).mp hra, ← (chases_nil b r).mp hrb]
  · rintro rfl
    exact ⟨a, Chases.root a (Or.inl rfl), Chases.root a (Or.inl rfl)⟩

theorem sameRoot_parent_congr {u1 u2 : UF} (h : u1.parent = u2.parent) (a b : String) :
    SameRoot u1 a b ↔ SameRoot u2 a b := by
  unfold SameRoot
  rw [h]

theorem ufUnionCore_parent (uf2 : UF) (px py : String) :
    (ufUnionCore uf2 px py).parent
      = dSet uf2.parent
          (if (dGet? uf2.rank px).getD 0 < (dGet? uf2.rank py).getD 0 then px else py)
          (if (dGet? uf2.rank px).getD 0 < (dGet? uf2.rank py).getD 0 then py else px) := by
  unfold ufUnionCore
  by_cases hrcmp : (dGet? uf2.rank px).getD 0 < (dGet? uf2.rank py).getD 0 <;>
    simp only [hrcmp, if_true, if_false] <;> split <;> rfl

theorem ufUnion_sameRoot_bound (uf : UF) (x y : String) (hinv : UFInv uf) :
    ∀ a b, SameRoot (ufUnion uf x y) a b →
      SameRoot uf a b ∨ (SameRoot uf a x ∧ SameRoot uf y b) ∨
        (SameRoot uf a y ∧ SameRoot uf x b) := by
  obtain ⟨rx, hrx⟩ := chases_exists uf hinv x
  obtain ⟨f1a, f1inv, f1iff, f1rank, f1root, f1self, f1sum⟩ := ufFindTop_spec uf x rx hinv hrx
  obtain ⟨ry, hry⟩ := chases_exists (ufFindTop uf x).2 f1inv y
  obtain ⟨f2a, f2inv, f2iff, f2rank, f2root, f2self, f2sum⟩ :=
    ufFindTop_spec (ufFindTop uf x).2 y ry f1inv hry
  have hiff2 : ∀ a b, Chases (ufFindTop (ufFindTop uf x).2 y).2.parent a b ↔
      Chases uf.parent a b := fun a b => (f2iff a b).trans (f1iff a b)
  have hrootx2 : dGet? (ufFindTop (ufFindTop uf x).2 y).2.parent rx = some rx :=
    f2self rx f1root
  have hchx : Chases uf.parent x rx := hrx
  have hchy : Chases uf.parent y ry := (f1iff y ry).mp hry
  intro a b h
  rw [ufUnion_eq] at h
  by_cases hpq : (ufFindTop uf x).1 = (ufFindTop (ufFindTop uf x).2 y).1
  · rw [if_pos hpq] at h
    obtain ⟨r, h1, h2⟩ := h
    exact Or.inl ⟨r, (hiff2 a r).mp h1, (hiff2 b r).mp h2⟩
  · rw [if_neg hpq] at h
    rw [f1a, f2a] at h
    have hpq' : rx ≠ ry := by rw [← f1a, ← f2a]; exact hpq
    obtain ⟨d, hda, hdb⟩ := h
    rw [show (ufUnionCore (ufFindTop (ufFindTop uf x).2 y).2 rx ry).parent
        = dSet (ufFindTop (ufFindTop uf x).2 y).2.parent
          (if (dGet? (ufFindTop (ufFindTop uf x).2 y).2.rank rx).getD 0
              < (dGet? (ufFindTop (ufFindTop uf x).2 y).2.rank ry).getD 0 then rx else ry)
          (if (dGet? (ufFindTop (ufFindTop uf x).2 y).2.rank rx).getD 0
              < (dGet? (ufFindTop (ufFindTop uf x).2 y).2.rank ry).getD 0 then ry else rx)
      from ufUnionCore_parent _ rx ry] at hda hdb
    by_cases hrcmp : (dGet? (ufFindTop (ufFindTop uf x).2 y).2.rank rx).getD 0
        < (dGet? (ufFindTop (ufFindTop uf x).2 y).2.rank ry).getD 0
    · rw [if_pos hrcmp, if_pos hrcmp] at hda hdb
      have hlink := chases_link hrootx2 f2root hpq'
      rcases (hlink a d).mp hda with ⟨ha, _⟩ | ⟨ha, rfl⟩ <;>
        rcases (hlink b d).mp hdb with ⟨hb, hbne⟩ | ⟨hb, hbd⟩
      · exact Or.inl ⟨d, (hiff2 a d).mp ha, (hiff2 b d).mp hb⟩
      · subst hbd
        refine Or.inr (Or.inr ⟨⟨d, (hiff2 a d).mp ha, hchy⟩, ?_⟩)
        exact ⟨rx, hchx, (hiff2 b rx).mp hb⟩
      · exact Or.inr (Or.inl ⟨⟨rx, (hiff2 a rx).mp ha, hchx⟩,
          ⟨d, hchy, (hiff2 b d).mp hb⟩⟩)
      · exact Or.inl ⟨rx, (hiff2 a rx).mp ha, (hiff2 b rx).mp hb⟩
    · rw [if_neg hrcmp, if_neg hrcmp] at hda hdb
      have hlink := chases_link f2root hrootx2 (Ne.symm hpq')
      rcases (hlink a d).mp hda with ⟨ha, _⟩ | ⟨ha, rfl⟩ <;>
        rcases (hlink b d).mp hdb with ⟨hb, hbne⟩ | ⟨hb, hbd⟩
      · exact Or.inl ⟨d, (hiff2 a d).mp ha, (hiff2 b d).mp hb⟩
      · subst hbd
        refine Or.inr (Or.inl ⟨⟨d, (hiff2 a d).mp ha, hchx⟩, ?_⟩)
        exact ⟨ry, hchy, (hiff2 b ry).mp hb⟩
      · exact Or.inr (Or.inr ⟨⟨ry, (hiff2 a ry).mp ha, hchy⟩,
          ⟨d, hchx, (hiff2 b d).mp hb⟩⟩)
      · exact Or.inl ⟨ry, (hiff2 a ry).mp ha, (hiff2 b ry).mp hb⟩

/-- Id pairs of the accepted candidates of a candidate list. -/
def accRel (threshold : ℚ) (ms : List MatchCandidate) (u v : String) : Prop :=
  ∃ m ∈ ms, threshold ≤ m.overall_score ∧ m.record_a.id = u ∧ m.record_b.id = v

theorem ufInv_empty : UFInv ⟨[], []⟩ := by
  refine ⟨List.nodup_nil, rfl, ?_, ?_⟩
  · intro x px h
    cases h
  · simp [Rsum, rootCnt]

theorem clusterUnionLoop_sameRoot_iff (threshold : ℚ) :
    ∀ (ms : List MatchCandidate) (uf : UF) (recs : List (String × EntityRecord)),
    UFInv uf → ∀ a b,
    SameRoot (clusterUnionLoop threshold ms uf recs).1 a b ↔
      EqvCl (fun u v => SameRoot uf u v ∨ accRel threshold ms u v) a b := by
  intro ms
  induction ms with
  | nil =>
    intro uf recs hinv a b
    rw [clusterUnionLoop]
    constructor
    · intro h
      exact EqvCl.base (Or.inl h)
    · intro h
      refine eqvCl_collapse (sameRoot_refl uf hinv) sameRoot_symm sameRoot_trans
        (eqvCl_mono ?_ h)
      intro u v huv
      rcases huv with h' | h'
      · exact EqvCl.base h'
      · obtain ⟨m, hm, _⟩ := h'
        exact absurd hm (by simp)
  | cons m ms ih =>
    intro uf recs hinv a b
    by_cases hacc : threshold ≤ m.overall_score
    · have hstep : clusterUnionLoop threshold (m :: ms) uf recs
          = clusterUnionLoop threshold ms (ufUnion uf m.record_a.id m.record_b.id)
            (dSet (dSet recs m.record_a.id m.record_a) m.record_b.id m.record_b) := by
        rw [clusterUnionLoop, if_pos hacc]
      obtain ⟨u1, u2, u3⟩ := ufUnion_spec uf m.record_a.id m.record_b.id hinv
      rw [hstep, ih _ _ u1]
      constructor
      · refine eqvCl_mono ?_
        intro u v huv
        rcases huv with h' | h'
        · rcases ufUnion_sameRoot_bound uf m.record_a.id m.record_b.id hinv u v h' with
            h'' | ⟨hux, hyv⟩ | ⟨huy, hxv⟩
          · exact EqvCl.base (Or.inl h'')
          · refine EqvCl.trans (EqvCl.base (Or.inl hux)) (EqvCl.trans ?_
              (EqvCl.base (Or.inl hyv)))
            exact EqvCl.base (Or.inr ⟨m, List.mem_cons_self m ms, hacc, rfl, rfl⟩)
          · refine EqvCl.trans (EqvCl.base (Or.inl huy)) (EqvCl.trans ?_
              (EqvCl.base (Or.inl hxv)))
            exact EqvCl.symm (EqvCl.base (Or.inr ⟨m, List.mem_cons_self m ms, hacc, rfl, rfl⟩))
        · obtain ⟨m', hm', hsc', hu', hv'⟩ := h'
          exact EqvCl.base (Or.inr ⟨m', List.mem_cons_of_mem m hm', hsc', hu', hv'⟩)
      · refine eqvCl_mono ?_
        intro u v huv
        rcases huv with h' | h'
        · exact EqvCl.base (Or.inl (u2 u v h'))
        · obtain ⟨m', hm', hsc', hu', hv'⟩ := h'
          rcases List.mem_cons.mp hm' with rfl | hm''
          · subst hu'
            subst hv'
            exact EqvCl.base (Or.inl u3)
          · exact EqvCl.base (Or.inr ⟨m', hm'', hsc', hu', hv'⟩)
    · have hstep : clusterUnionLoop threshold (m :: ms) uf recs
          = clusterUnionLoop threshold ms uf recs := by
        rw [clusterUnionLoop, if_neg hacc]
      rw [hstep, ih _ _ hinv]
      refine eqvCl_iff_congr ?_
      intro u v
      constructor
      · rintro (h' | ⟨m', hm', hsc', hu', hv'⟩)
        · exact Or.inl h'
        · exact Or.inr ⟨m', List.mem_cons_of_mem m hm', hsc', hu', hv'⟩
      · rintro (h' | ⟨m', hm', hsc', hu', hv'⟩)
        · exact Or.inl h'
        · rcases List.mem_cons.mp hm' with rfl | hm''
          · exact absurd hsc' hacc
          · exact Or.inr ⟨m', hm'', hsc', hu', hv'⟩

theorem clusterUnionLoop_recs (threshold : ℚ) :
    ∀ (ms : List MatchCandidate) (uf : UF) (recs : List (String × EntityRecord)),
    (∀ k, (dGet? (clusterUnionLoop threshold ms uf recs).2 k).isSome ↔
      ((dGet? recs k).isSome ∨ ∃ m ∈ ms, threshold ≤ m.overall_score ∧
        (m.record_a.id = k ∨ m.record_b.id = k))) ∧
    (∀ k v, dGet? (clusterUnionLoop threshold ms uf recs).2 k = some v →
      dGet? recs k = some v ∨ ∃ m ∈ ms, threshold ≤ m.overall_score ∧
        (v = m.record_a ∨ v = m.record_b)) ∧
    ((recs.map (·.1)).Nodup → (((clusterUnionLoop threshold ms uf recs).2).map (·.1)).Nodup) := by
  intro ms
  induction ms with
  | nil =>
    intro uf recs
    rw [clusterUnionLoop]
    refine ⟨?_, ?_, fun h => h⟩
    · intro k
      simp
    · intro k v h
      exact Or.inl h
  | cons m ms ih =>
    intro uf recs
    by_cases hacc : threshold ≤ m.overall_score
    · have hstep : clusterUnionLoop threshold (m :: ms) uf recs
          = clusterUnionLoop threshold ms (ufUnion uf m.record_a.id m.record_b.id)
            (dSet (dSet recs m.record_a.id m.record_a) m.record_b.id m.record_b) := by
        rw [clusterUnionLoop, if_pos hacc]
      rw [hstep]
      obtain ⟨i1, i2, i3⟩ := ih (ufUnion uf m.record_a.id m.record_b.id)
        (dSet (dSet recs m.record_a.id m.record_a) m.record_b.id m.record_b)
      refine ⟨?_, ?_, ?_⟩
      · intro k
        rw [i1 k, dGet?_dSet_fun]
        by_cases hkb : k = m.record_b.id
        · subst hkb
          rw [if_pos rfl]
          constructor
          · intro _
            exact Or.inr ⟨m, List.mem_cons_self m ms, hacc, Or.inr rfl⟩
          · intro _
            exact Or.inl rfl
        · rw [if_neg hkb, dGet?_dSet_fun]
          by_cases hka : k = m.record_a.id
          · subst hka
            rw [if_pos rfl]
            constructor
            · intro _
              exact Or.inr ⟨m, List.mem_cons_self m ms, hacc, Or.inl rfl⟩
            · intro _
              exact Or.inl rfl
          · rw [if_neg hka]
            constructor
            · rintro (h | ⟨m', hm', hsc', hk'⟩)
              · exact Or.inl h
              · exact Or.inr ⟨m', List.mem_cons_of_mem m hm', hsc', hk'⟩
            · rintro (h | ⟨m', hm', hsc', hk'⟩)
              · exact Or.inl h
              · rcases List.mem_cons.mp hm' with rfl | hm''
                · rcases hk' with h' | h'
                  · exact absurd h'.symm hka
                  · exact absurd h'.symm hkb
                · exact Or.inr ⟨m', hm'', hsc', hk'⟩
      · intro k v h
        rcases i2 k v h with h' | ⟨m', hm', hsc', hv'⟩
        · rw [dGet?_dSet_fun] at h'
          by_cases hkb : k = m.record_b.id
          · rw [if_pos hkb] at h'
            injection h' with h''
            exact Or.inr ⟨m, List.mem_cons_self m ms, hacc, Or.inr h''.symm⟩
          · rw [if_neg hkb, dGet?_dSet_fun] at h'
            by_cases hka : k = m.record_a.id
            · rw [if_pos hka] at h'
              injection h' with h''
              exact Or.inr ⟨m, List.mem_cons_self m ms, hacc, Or.inl h''.symm⟩
            · rw [if_neg hka] at h'
              exact Or.inl h'
        · exact Or.inr ⟨m', List.mem_cons_of_mem m hm', hsc', hv'⟩
      · intro hnd
        exact i3 (nodupKeys_dSet _ _ _ (nodupKeys_dSet _ _ _ hnd))
    · have hstep : clusterUnionLoop threshold (m :: ms) uf recs
          = clusterUnionLoop threshold ms uf recs := by
        rw [clusterUnionLoop, if_neg hacc]
      rw [hstep]
      obtain ⟨i1, i2, i3⟩ := ih uf recs
      refine ⟨?_, ?_, i3⟩
      · intro k
        rw [i1 k]
        constructor
        · rintro (h | ⟨m', hm', hsc', hk'⟩)
          · exact Or.inl h
          · exact Or.inr ⟨m', List.mem_cons_of_mem m hm', hsc', hk'⟩
        · rintro (h | ⟨m', hm', hsc', hk'⟩)
          · exact Or.inl h
          · rcases List.mem_cons.mp hm' with rfl | hm''
            · exact absurd hsc' hacc
            · exact Or.inr ⟨m', hm'', hsc', hk'⟩
      · intro k v h
        rcases i2 k v h with h' | ⟨m', hm', hsc', hv'⟩
        · exact Or.inl h'
        · exact Or.inr ⟨m', List.mem_cons_of_mem m hm', hsc', hv'⟩

/-! ### Grouping by root -/

/-- The root of an id, as computed by a full-fuel `find` (pure observation:
the state returned by the find is discarded). -/
def rootF (uf : UF) (x : String) : String := (ufFindTop uf x).1

theorem rootF_root (uf : UF) (hinv : UFInv uf) (x : String) :
    Chases uf.parent x (rootF uf x) := by
  obtain ⟨r, hr⟩ := chases_exists uf hinv x
  have h := (ufFindTop_spec uf x r hinv hr).1
  unfold rootF
  rw [h]
  exact hr

theorem chases_iff_rootF (uf : UF) (hinv : UFInv uf) (x ρ : String) :
    Chases uf.parent x ρ ↔ rootF uf x = ρ := by
  constructor
  · intro h
    exact (chases_det h _ (rootF_root uf hinv x)).symm ▸
      (chases_det (rootF_root uf hinv x) ρ h)
  · rintro rfl
    exact rootF_root uf hinv x

theorem rootF_congr {uf uf' : UF} (hinv : UFInv uf) (hinv' : UFInv uf')
    (hiff : ∀ a b, Chases uf'.parent a b ↔ Chases uf.parent a b) (x : String) :
    rootF uf' x = rootF uf x := by
  have h2 : Chases uf.parent x (rootF uf' x) := (hiff x _).mp (rootF_root uf' hinv' x)
  exact chases_det (rootF_root uf hinv x) _ h2

theorem sameRoot_iff_rootF (uf : UF) (hinv : UFInv uf) (a b : String) :
    SameRoot uf a b ↔ rootF uf a = rootF uf b := by
  constructor
  · rintro ⟨r, h1, h2⟩
    rw [(chases_iff_rootF uf hinv a r).mp h1, (chases_iff_rootF uf hinv b r).mp h2]
  · intro h
    exact ⟨rootF uf b, h ▸ rootF_root uf hinv a, rootF_root uf hinv b⟩

theorem clusterGroupLoop_char :
    ∀ (entries : List (String × EntityRecord)) (uf : UF)
      (cl : List (String × List EntityRecord)), UFInv uf →
    (∀ ρ, (dGet? (clusterGroupLoop entries uf cl) ρ).getD []
      = (dGet? cl ρ).getD [] ++ (entries.filter fun e => rootF uf e.1 == ρ).map (·.2)) ∧
    (∀ ρ, (dGet? (clusterGroupLoop entries uf cl) ρ).isSome ↔
      ((dGet? cl ρ).isSome ∨ ∃ e ∈ entries, rootF uf e.1 = ρ)) ∧
    ((cl.map (·.1)).Nodup → ((clusterGroupLoop entries uf cl).map (·.1)).Nodup) := by
  intro entries
  induction entries with
  | nil =>
    intro uf cl hinv
    rw [clusterGroupLoop]
    refine ⟨?_, ?_, fun h => h⟩
    · intro ρ
      simp
    · intro ρ
      simp
  | cons e rest ih =>
    obtain ⟨rid, rec⟩ := e
    intro uf cl hinv
    obtain ⟨r0, hr0⟩ := chases_exists uf hinv rid
    obtain ⟨fa, finv, fiff, _, _, _, _⟩ := ufFindTop_spec uf rid r0 hinv hr0
    have hstep : clusterGroupLoop ((rid, rec) :: rest) uf cl
        = clusterGroupLoop rest (ufFindTop uf rid).2
          (dSet cl (ufFindTop uf rid).1
            ((dGet? cl (ufFindTop uf rid).1).getD [] ++ [rec])) := rfl
    obtain ⟨i1, i2, i3⟩ := ih (ufFindTop uf rid).2
      (dSet cl (ufFindTop uf rid).1 ((dGet? cl (ufFindTop uf rid).1).getD [] ++ [rec])) finv
    have hrootF : ∀ x, rootF (ufFindTop uf rid).2 x = rootF uf x :=
      rootF_congr hinv finv fiff
    have hfrid : (ufFindTop uf rid).1 = rootF uf rid := rfl
    rw [hstep]
    refine ⟨?_, ?_, ?_⟩
    · intro ρ
      rw [i1 ρ]
      have hfilter : (rest.filter fun e => rootF (ufFindTop uf rid).2 e.1 == ρ)
          = rest.filter fun e => rootF uf e.1 == ρ := by
        apply List.filter_congr
        intro e _
        rw [hrootF]
      rw [hfilter, dGet?_dSet_fun, hfrid]
      by_cases hρ : ρ = rootF uf rid
      · subst hρ
        rw [if_pos rfl, List.filter_cons_of_pos (by simp), List.map_cons,
          Option.getD_some, List.append_assoc, List.singleton_append]
      · rw [if_neg hρ, List.filter_cons_of_neg
          (by simp only [beq_iff_eq]; exact fun h => hρ h.symm)]
    · intro ρ
      rw [i2 ρ, dGet?_dSet_fun, hfrid]
      simp only [hrootF]
      by_cases hρ : ρ = rootF uf rid
      · subst hρ
        rw [if_pos rfl]
        constructor
        · intro _
          exact Or.inr ⟨(rid, rec), List.mem_cons_self _ _, rfl⟩
        · intro _
          exact Or.inl rfl
      · rw [if_neg hρ]
        constructor
        · rintro (h | ⟨e, he, hre⟩)
          · exact Or.inl h
          · exact Or.inr ⟨e, List.mem_cons_of_mem _ he, hre⟩
        · rintro (h | ⟨e, he, hre⟩)
          · exact Or.inl h
          · rcases List.mem_cons.mp he with rfl | he'
            · exact absurd hre.symm hρ
            · exact Or.inr ⟨e, he', hre⟩
    · intro hnd
      exact i3 (nodupKeys_dSet _ _ _ hnd)

/-! ### The canonical, order-independent description of acceptance -/

/-- Two records land in a common block. -/
def shareBlock (ra rb : EntityRecord) : Prop :=
  ∃ k, k ∈ generate_blocking_keys ra ∧ k ∈ generate_blocking_keys rb

/-- A record occupies two slots of one of its own blocks (a repeated blocking
key), which makes the engine score it against itself. -/
def selfBlock (r : EntityRecord) : Prop :=
  ∃ k, 2 ≤ (generate_blocking_keys r).count k

/-- Canonical description of an accepted pair of ids: records of `S` carrying
those ids that meet in a block and whose pair score reaches the threshold. -/
def AccPair (threshold : ℚ) (S : List EntityRecord) (u v : String) : Prop :=
  ∃ ra ∈ S, ∃ rb ∈ S, ra.id = u ∧ rb.id = v ∧
    threshold ≤ (score_candidate_pair ra rb).overall_score ∧
    ((u ≠ v ∧ shareBlock ra rb) ∨ (u = v ∧ selfBlock ra ∧ selfBlock rb))

/-- An id touched by some accepted pair. -/
def Matched (threshold : ℚ) (S : List EntityRecord) (u : String) : Prop :=
  ∃ v, AccPair threshold S u v

theorem accPair_symm {threshold : ℚ} {S : List EntityRecord} {u v : String}
    (h : AccPair threshold S u v) : AccPair threshold S v u := by
  obtain ⟨ra, hra, rb, hrb, hia, hib, hsc, hcond⟩ := h
  refine ⟨rb, hrb, ra, hra, hib, hia, ?_, ?_⟩
  · rw [score_overall_comm ra rb]
    exact hsc
  · rcases hcond with ⟨hne, k, hka, hkb⟩ | ⟨heq, hsa, hsb⟩
    · exact Or.inl ⟨Ne.symm hne, k, hkb, hka⟩
    · exact Or.inr ⟨heq.symm, hsb, hsa⟩

theorem eqvCl_endpoints {r : String → String → Prop} (hsymm : ∀ {a b}, r a b → r b a) :
    ∀ {a b : String}, EqvCl r a b → a = b ∨ ((∃ c, r a c) ∧ (∃ c, r b c)) := by
  intro a b h
  induction h with
  | base h' => exact Or.inr ⟨⟨_, h'⟩, ⟨_, hsymm h'⟩⟩
  | refl a => exact Or.inl rfl
  | symm _ ih =>
    rcases ih with rfl | ⟨h1, h2⟩
    · exact Or.inl rfl
    · exact Or.inr ⟨h2, h1⟩
  | trans _ _ ih1 ih2 =>
    rcases ih1 with rfl | ⟨h1, h2⟩
    · exact ih2
    · rcases ih2 with rfl | ⟨h3, h4⟩
      · exact Or.inr ⟨h1, h2⟩
      · exact Or.inr ⟨h1, h4⟩

theorem scored_accRel_accPair (threshold : ℚ) (S : List EntityRecord)
    (hnd : (S.map (·.id)).Nodup) (u v : String)
    (h : accRel threshold (scoredPairs (buildBlockIndex S)) u v) :
    AccPair threshold S u v := by
  obtain ⟨m, hm, hsc, hu, hv⟩ := h
  obtain ⟨b, hb, l1, ra, l2, rb, l3, hdec, hmk⟩ := scoredPairs_sound _ m hm
  obtain ⟨key, bl⟩ := b
  have hbl : bl = blockAt S key := blockIndex_entry S key bl hb
  subst hbl
  subst hmk
  simp only at hdec
  have hmemA : ra ∈ blockAt S key := by
    rw [hdec]
    simp
  have hmemB : rb ∈ blockAt S key := by
    rw [hdec]
    simp
  obtain ⟨hraS, hka⟩ := (mem_blockAt S key ra).mp hmemA
  obtain ⟨hrbS, hkb⟩ := (mem_blockAt S key rb).mp hmemB
  have hua : ra.id = u := hu
  have hvb : rb.id = v := hv
  have hscore : threshold ≤ (score_candidate_pair ra rb).overall_score := hsc
  by_cases hab : u = v
  · have hids : ra.id = rb.id := by rw [hua, hvb, hab]
    have hrarb : ra = rb := List.inj_on_of_nodup_map hnd hraS hrbS hids
    have hcount : 2 ≤ (blockAt S key).count ra := by
      rw [hdec, ← hrarb]
      simp only [List.count_append, List.count_cons]
      simp
      omega
    rw [count_blockAt S key ra hnd, if_pos hraS] at hcount
    exact ⟨ra, hraS, rb, hrbS, hua, hvb, hscore,
      Or.inr ⟨hab, ⟨key, hcount⟩, ⟨key, hrarb ▸ hcount⟩⟩⟩
  · exact ⟨ra, hraS, rb, hrbS, hua, hvb, hscore, Or.inl ⟨hab, key, hka, hkb⟩⟩

theorem scored_pk_accRel (threshold : ℚ) (S : List EntityRecord)
    (hnd : (S.map (·.id)).Nodup) (rx ry : EntityRecord)
    (hrxS : rx ∈ S) (hryS : ry ∈ S)
    (hsc : threshold ≤ (score_candidate_pair rx ry).overall_score)
    (m : MatchCandidate) (hm : m ∈ scoredPairs (buildBlockIndex S))
    (hpk : pkOf m = pairKey rx.id ry.id) :
    accRel threshold (scoredPairs (buildBlockIndex S)) rx.id ry.id ∨
    accRel threshold (scoredPairs (buildBlockIndex S)) ry.id rx.id := by
  obtain ⟨b, hb, l1, ra, l2, rb, l3, hdec, hmk⟩ := scoredPairs_sound _ m hm
  obtain ⟨key, bl⟩ := b
  have hbl : bl = blockAt S key := blockIndex_entry S key bl hb
  subst hbl
  simp only at hdec
  have hmemA : ra ∈ blockAt S key := by
    rw [hdec]
    simp
  have hmemB : rb ∈ blockAt S key := by
    rw [hdec]
    simp
  obtain ⟨hraS, _⟩ := (mem_blockAt S key ra).mp hmemA
  obtain ⟨hrbS, _⟩ := (mem_blockAt S key rb).mp hmemB
  have hids : pairKey ra.id rb.id = pairKey rx.id ry.id := by
    rw [← hpk, hmk]
    rfl
  rcases pairKey_cases hids with ⟨h1, h2⟩ | ⟨h1, h2⟩
  · have hra : ra = rx := List.inj_on_of_nodup_map hnd hraS hrxS h1
    have hrb : rb = ry := List.inj_on_of_nodup_map hnd hrbS hryS h2
    refine Or.inl ⟨m, hm, ?_, ?_, ?_⟩
    · rw [hmk, overall_mk, hra, hrb]
      exact hsc
    · rw [hmk]
      exact hra ▸ h1
    · rw [hmk]
      exact hrb ▸ h2
  · have hra : ra = ry := List.inj_on_of_nodup_map hnd hraS hryS h1
    have hrb : rb = rx := List.inj_on_of_nodup_map hnd hrbS hrxS h2
    refine Or.inr ⟨m, hm, ?_, ?_, ?_⟩
    · rw [hmk, overall_mk, hra, hrb, score_overall_comm rx ry]
      exact hsc
    · rw [hmk]
      exact hra ▸ h1
    · rw [hmk]
      exact hrb ▸ h2

theorem accPair_scored (threshold : ℚ) (S : List EntityRecord)
    (hnd : (S.map (·.id)).Nodup) (u v : String) (h : AccPair threshold S u v) :
    accRel threshold (scoredPairs (buildBlockIndex S)) u v ∨
    accRel threshold (scoredPairs (buildBlockIndex S)) v u := by
  obtain ⟨ra, hraS, rb, hrbS, hu, hv, hsc, hcond⟩ := h
  subst hu
  subst hv
  rcases hcond with ⟨hne, k, hka, hkb⟩ | ⟨heq, ⟨k, hcnt⟩, _⟩
  · have hrarb : ra ≠ rb := fun hcontr => hne (by rw [hcontr])
    have hmemA : ra ∈ blockAt S k := (mem_blockAt S k ra).mpr ⟨hraS, hka⟩
    have hmemB : rb ∈ blockAt S k := (mem_blockAt S k rb).mpr ⟨hrbS, hkb⟩
    have hbne : blockAt S k ≠ [] := fun hempty => by
      rw [hempty] at hmemA
      cases hmemA
    rcases pair_sublist_of_mem hrarb hmemA hmemB with hsub | hsub
    · obtain ⟨l1, l2, l3, hdec⟩ := sublist_pair_decomp hsub
      obtain ⟨m, hm, hpk⟩ := scoredPairs_cover (buildBlockIndex S) (k, blockAt S k)
        (blockIndex_mem_of_ne S k hbne) l1 ra l2 rb l3 hdec
      exact scored_pk_accRel threshold S hnd ra rb hraS hrbS hsc m hm hpk
    · obtain ⟨l1, l2, l3, hdec⟩ := sublist_pair_decomp hsub
      obtain ⟨m, hm, hpk⟩ := scoredPairs_cover (buildBlockIndex S) (k, blockAt S k)
        (blockIndex_mem_of_ne S k hbne) l1 rb l2 ra l3 hdec
      rcases scored_pk_accRel threshold S hnd rb ra hrbS hraS
        (by rw [score_overall_comm ra rb]; exact hsc) m hm hpk with h' | h'
      · exact Or.inr h'
      · exact Or.inl h'
  · have hrarb : ra = rb := List.inj_on_of_nodup_map hnd hraS hrbS heq
    subst hrarb
    have hcount : 2 ≤ (blockAt S k).count ra := by
      rw [count_blockAt S k ra hnd, if_pos hraS]
      exact hcnt
    have hsub := pair_sublist_of_count hcount
    obtain ⟨l1, l2, l3, hdec⟩ := sublist_pair_decomp hsub
    have hbne : blockAt S k ≠ [] := by
      rw [hdec]
      simp
    obtain ⟨m, hm, hpk⟩ := scoredPairs_cover (buildBlockIndex S) (k, blockAt S k)
      (blockIndex_mem_of_ne S k hbne) l1 ra l2 ra l3 hdec
    rcases scored_pk_accRel threshold S hnd ra ra hraS hraS hsc m hm hpk with h' | h'
    · exact Or.inl h'
    · exact Or.inl h'

/-! ### Canonical cluster descriptions -/

/-- The canonical contents of the cluster of `a`: the sorted duplicate-free
list of the matched ids equivalent to `a`. -/
def IsClassList (threshold : ℚ) (S : List EntityRecord) (a : String)
    (l : List String) : Prop :=
  l.Sorted (· ≤ ·) ∧ l.Nodup ∧
    ∀ b, b ∈ l ↔ (Matched threshold S b ∧ EqvCl (AccPair threshold S) a b)

/-- Canonical description of a produced resolved id: the hash of a matched
class, or the hash of an unmatched record's id. -/
def CanonMem (threshold : ℚ) (S : List EntityRecord) (x : String) : Prop :=
  (∃ a, Matched threshold S a ∧ ∃ l, IsClassList threshold S a l ∧
    x = md5Hex16 (String.intercalate "_" l))
  ∨ (∃ r ∈ S, ¬ Matched threshold S r.id ∧ x = md5Hex16 r.id)

theorem isClassList_unique {threshold : ℚ} {S : List EntityRecord} {a : String}
    {l1 l2 : List String} (h1 : IsClassList threshold S a l1)
    (h2 : IsClassList threshold S a l2) : l1 = l2 := by
  obtain ⟨hs1, hn1, hm1⟩ := h1
  obtain ⟨hs2, hn2, hm2⟩ := h2
  refine List.eq_of_perm_of_sorted ?_ hs1 hs2
  rw [List.perm_ext_iff_of_nodup hn1 hn2]
  intro b
  rw [hm1 b, hm2 b]

theorem accPair_mono {S S' : List EntityRecord}
    (hS : ∀ r : EntityRecord, r ∈ S → r ∈ S') (threshold : ℚ) (u v : String)
    (h : AccPair threshold S u v) : AccPair threshold S' u v := by
  obtain ⟨ra, hra, rb, hrb, h1, h2, h3, h4⟩ := h
  exact ⟨ra, hS ra hra, rb, hS rb hrb, h1, h2, h3, h4⟩

theorem accPair_iff_congr {S S' : List EntityRecord}
    (hS : ∀ r : EntityRecord, r ∈ S ↔ r ∈ S') (threshold : ℚ) (u v : String) :
    AccPair threshold S u v ↔ AccPair threshold S' u v :=
  ⟨accPair_mono (fun r => (hS r).mp) threshold u v,
   accPair_mono (fun r => (hS r).mpr) threshold u v⟩

theorem matched_iff_congr {S S' : List EntityRecord}
    (hS : ∀ r : EntityRecord, r ∈ S ↔ r ∈ S') (threshold : ℚ) (u : String) :
    Matched threshold S u ↔ Matched threshold S' u := by
  unfold Matched
  constructor <;> rintro ⟨v, hv⟩
  · exact ⟨v, (accPair_iff_congr hS threshold u v).mp hv⟩
  · exact ⟨v, (accPair_iff_congr hS threshold u v).mpr hv⟩

theorem canonMem_iff_congr {S S' : List EntityRecord}
    (hS : ∀ r : EntityRecord, r ∈ S ↔ r ∈ S') (threshold : ℚ) (x : String) :
    CanonMem threshold S x ↔ CanonMem threshold S' x := by
  have hacc : ∀ u v, AccPair threshold S u v ↔ AccPair threshold S' u v :=
    accPair_iff_congr hS threshold
  have hmat : ∀ u, Matched threshold S u ↔ Matched threshold S' u :=
    matched_iff_congr hS threshold
  have hcls : ∀ a l, IsClassList threshold S a l ↔ IsClassList threshold S' a l := by
    intro a l
    unfold IsClassList
    constructor <;> rintro ⟨hs, hn, hm⟩ <;> refine ⟨hs, hn, ?_⟩ <;> intro b <;> rw [hm b]
    · rw [hmat b, eqvCl_iff_congr hacc]
    · rw [hmat b, eqvCl_iff_congr hacc]
  unfold CanonMem
  constructor
  · rintro (⟨a, ha, l, hl, hx⟩ | ⟨r, hr, hnm, hx⟩)
    · exact Or.inl ⟨a, (hmat a).mp ha, l, (hcls a l).mp hl, hx⟩
    · exact Or.inr ⟨r, (hS r).mp hr, fun hc => hnm ((hmat r.id).mpr hc), hx⟩
  · rintro (⟨a, ha, l, hl, hx⟩ | ⟨r, hr, hnm, hx⟩)
    · exact Or.inl ⟨a, (hmat a).mpr ha, l, (hcls a l).mpr hl, hx⟩
    · exact Or.inr ⟨r, (hS r).mpr hr, fun hc => hnm ((hmat r.id).mp hc), hx⟩

theorem create_canonical_char (c : List EntityRecord) (hne : c ≠ []) :
    ∃ e, create_canonical_record c = some e ∧
      e.resolved_id
        = md5Hex16 (String.intercalate "_" ((c.map (·.id)).insertionSort (· ≤ ·))) ∧
      e.source_records = c := by
  cases c with
  | nil => exact absurd rfl hne
  | cons c0 cs =>
    rw [create_canonical_record]
    exact ⟨_, rfl, rfl, rfl⟩

theorem create_canonical_sound (c : List EntityRecord) (e : ResolvedEntity)
    (h : create_canonical_record c = some e) :
    c ≠ [] ∧
    e.resolved_id
      = md5Hex16 (String.intercalate "_" ((c.map (·.id)).insertionSort (· ≤ ·))) ∧
    e.source_records = c := by
  cases c with
  | nil =>
    rw [create_canonical_record] at h
    cases h
  | cons c0 cs =>
    obtain ⟨e', he', h1, h2⟩ := create_canonical_char (c0 :: cs) (by simp)
    rw [he'] at h
    injection h with h3
    subst h3
    exact ⟨by simp, h1, h2⟩

theorem standardize_id (r : EntityRecord) : (standardize_record r).id = r.id := by
  unfold standardize_record
  rcases r.name with _ | n <;> rcases hd : r.date_of_birth with _ | d <;>
    rcases ha : r.address with _ | a <;> simp [hd, ha]

theorem intercalate_singleton (s : String) : String.intercalate "_" [s] = s := rfl

/-! ### The pipeline state, canonically -/

theorem pipeline_inv (threshold : ℚ) (cands : List MatchCandidate) :
    UFInv (clusterUnionLoop threshold cands ⟨[], []⟩ []).1 ∧
    (∀ k rec, dGet? (clusterUnionLoop threshold cands ⟨[], []⟩ []).2 k = some rec →
      rec.id = k) ∧
    (((clusterUnionLoop threshold cands ⟨[], []⟩ []).2).map (·.1)).Nodup := by
  obtain ⟨h1, _, _, h4, _⟩ := clusterUnionLoop_spec threshold cands ⟨[], []⟩ []
    ufInv_empty (fun k rec h => by cases h)
  obtain ⟨_, _, h3⟩ := clusterUnionLoop_recs threshold cands ⟨[], []⟩ []
  exact ⟨h1, h4, h3 (by simp)⟩

theorem pipeline_sameRoot (threshold : ℚ) (S : List EntityRecord)
    (hnd : (S.map (·.id)).Nodup) (a b : String) :
    SameRoot (clusterUnionLoop threshold (scoredPairs (buildBlockIndex S)) ⟨[], []⟩ []).1 a b
      ↔ EqvCl (AccPair threshold S) a b := by
  rw [clusterUnionLoop_sameRoot_iff threshold _ _ [] ufInv_empty a b]
  constructor
  · refine eqvCl_mono ?_
    intro u v huv
    rcases huv with h0 | hr
    · rw [sameRoot_nil u v] at h0
      subst h0
      exact EqvCl.refl u
    · exact EqvCl.base (scored_accRel_accPair threshold S hnd u v hr)
  · refine eqvCl_mono ?_
    intro u v huv
    rcases accPair_scored threshold S hnd u v huv with h | h
    · exact EqvCl.base (Or.inr h)
    · exact EqvCl.symm (EqvCl.base (Or.inr h))

theorem pipeline_matched (threshold : ℚ) (S : List EntityRecord)
    (hnd : (S.map (·.id)).Nodup) (k : String) :
    (dGet? (clusterUnionLoop threshold (scoredPairs (buildBlockIndex S)) ⟨[], []⟩ []).2
      k).isSome ↔ Matched threshold S k := by
  obtain ⟨h1, _, _⟩ := clusterUnionLoop_recs threshold (scoredPairs (buildBlockIndex S))
    ⟨[], []⟩ []
  rw [h1 k]
  constructor
  · rintro (h | ⟨m, hm, hsc, hk⟩)
    · simp [dGet?] at h
    · rcases hk with hk | hk
      · exact ⟨m.record_b.id,
          scored_accRel_accPair threshold S hnd _ _ ⟨m, hm, hsc, hk, rfl⟩⟩
      · exact ⟨m.record_a.id,
          accPair_symm (scored_accRel_accPair threshold S hnd _ _ ⟨m, hm, hsc, rfl, hk⟩)⟩
  · rintro ⟨v, hv⟩
    rcases accPair_scored threshold S hnd k v hv with ⟨m, hm, hsc, hk, _⟩ |
      ⟨m, hm, hsc, _, hk⟩
    · exact Or.inr ⟨m, hm, hsc, Or.inl hk⟩
    · exact Or.inr ⟨m, hm, hsc, Or.inr hk⟩

theorem filter_ids (recs : List (String × EntityRecord)) (uf : UF)
    (hid : ∀ k rec, dGet? recs k = some rec → rec.id = k)
    (hn2 : (recs.map (·.1)).Nodup) (ρ : String) :
    ((recs.filter fun e => rootF uf e.1 == ρ).map (·.2)).map (·.id)
      = (recs.filter fun e => rootF uf e.1 == ρ).map (·.1) := by
  rw [List.map_map]
  apply List.map_congr_left
  intro e he
  rw [List.mem_filter] at he
  exact hid e.1 e.2 (dGet?_of_mem_nodup _ _ _ hn2 (by rw [Prod.mk.eta]; exact he.1))

theorem isClassList_of_filter (threshold : ℚ) (S : List EntityRecord)
    (uf : UF) (recs : List (String × EntityRecord)) (huf : UFInv uf)
    (hmat : ∀ k, (dGet? recs k).isSome ↔ Matched threshold S k)
    (hsr : ∀ u v, SameRoot uf u v ↔ EqvCl (AccPair threshold S) u v)
    (hid : ∀ k rec, dGet? recs k = some rec → rec.id = k)
    (hn2 : (recs.map (·.1)).Nodup) (a : String) :
    IsClassList threshold S a
      ((((recs.filter fun e => rootF uf e.1 == rootF uf a).map (·.2)).map
        (·.id)).insertionSort (· ≤ ·)) := by
  have hids := filter_ids recs uf hid hn2 (rootF uf a)
  refine ⟨List.sorted_insertionSort _ _, ?_, ?_⟩
  · refine (List.perm_insertionSort _ _).nodup_iff.mpr ?_
    rw [hids]
    exact hn2.sublist ((List.filter_sublist _).map _)
  · intro b
    rw [List.mem_insertionSort, hids]
    constructor
    · intro hb
      rw [List.mem_map] at hb
      obtain ⟨e, he, rfl⟩ := hb
      rw [List.mem_filter] at he
      have hsome : (dGet? recs e.1).isSome :=
        (dGet?_isSome_iff_mem _ _).mpr (List.mem_map_of_mem _ he.1)
      refine ⟨(hmat e.1).mp hsome, ?_⟩
      rw [← hsr a e.1, sameRoot_iff_rootF uf huf]
      have hre : rootF uf e.1 = rootF uf a := by simpa using he.2
      rw [hre]
    · rintro ⟨hMb, hEq⟩
      have hsome : (dGet? recs b).isSome := (hmat b).mpr hMb
      obtain ⟨v, hv⟩ := Option.isSome_iff_exists.mp hsome
      rw [List.mem_map]
      refine ⟨(b, v), ?_, rfl⟩
      rw [List.mem_filter]
      refine ⟨dGet?_mem _ _ _ hv, ?_⟩
      have hrr : rootF uf b = rootF uf a :=
        ((sameRoot_iff_rootF uf huf a b).mp ((hsr a b).mpr hEq)).symm
      simpa using hrr

theorem flatMap_ids_iff (uf : UF) (recs : List (String × EntityRecord))
    (hid : ∀ k rec, dGet? recs k = some rec → rec.id = k)
    (hn2 : (recs.map (·.1)).Nodup)
    (cl : List (String × List EntityRecord))
    (hclval : ∀ ρ, (dGet? cl ρ).getD []
      = (recs.filter fun e => rootF uf e.1 == ρ).map (·.2))
    (hclkey : ∀ ρ, (dGet? cl ρ).isSome ↔ ∃ e ∈ recs, rootF uf e.1 = ρ)
    (hclnd : (cl.map (·.1)).Nodup) (i : String) :
    (i ∈ (cl.map (·.2)).flatMap fun c => c.map (·.id)) ↔ (dGet? recs i).isSome := by
  rw [List.mem_flatMap]
  constructor
  · rintro ⟨c, hcm, hic⟩
    rw [List.mem_map] at hcm
    obtain ⟨p, hp, rfl⟩ := hcm
    have hpget : dGet? cl p.1 = some p.2 := dGet?_of_mem_nodup _ _ _ hclnd hp
    have h' := hclval p.1
    rw [hpget, Option.getD_some] at h'
    rw [h', filter_ids recs uf hid hn2 p.1] at hic
    rw [List.mem_map] at hic
    obtain ⟨e, he, rfl⟩ := hic
    rw [List.mem_filter] at he
    exact (dGet?_isSome_iff_mem _ _).mpr (List.mem_map_of_mem _ he.1)
  · intro hsome
    obtain ⟨v, hv⟩ := Option.isSome_iff_exists.mp hsome
    have hentry : (i, v) ∈ recs := dGet?_mem _ _ _ hv
    have hkey : (dGet? cl (rootF uf i)).isSome := (hclkey _).mpr ⟨(i, v), hentry, rfl⟩
    obtain ⟨c0, hc0⟩ := Option.isSome_iff_exists.mp hkey
    have h' := hclval (rootF uf i)
    rw [hc0, Option.getD_some] at h'
    refine ⟨c0, List.mem_map.mpr ⟨(rootF uf i, c0), dGet?_mem _ _ _ hc0, rfl⟩, ?_⟩
    rw [h', filter_ids recs uf hid hn2 _, List.mem_map]
    exact ⟨(i, v), List.mem_filter.mpr ⟨hentry, by simp⟩, rfl⟩

theorem resolve_mem_iff (threshold : ℚ) (S records : List EntityRecord)
    (hSdef : records.map standardize_record = S)
    (hnd : (S.map (·.id)).Nodup) (x : String) :
    (∃ e ∈ resolve threshold records, e.resolved_id = x) ↔ CanonMem threshold S x := by
  have hres : resolve threshold records
      = (cluster_matches threshold (scoredPairs (buildBlockIndex S))
          ++ (S.filter fun r =>
            !(((cluster_matches threshold (scoredPairs (buildBlockIndex S))).flatMap
              fun c => c.map (·.id)).contains r.id)).map fun r => [r]).filterMap
        create_canonical_record := by
    rw [← hSdef]
    rfl
  rw [hres]
  obtain ⟨huf, hid, hn2⟩ := pipeline_inv threshold (scoredPairs (buildBlockIndex S))
  have hsr := pipeline_sameRoot threshold S hnd
  have hmat := pipeline_matched threshold S hnd
  obtain ⟨g1, g2, g3⟩ := clusterGroupLoop_char
    (clusterUnionLoop threshold (scoredPairs (buildBlockIndex S)) ⟨[], []⟩ []).2
    (clusterUnionLoop threshold (scoredPairs (buildBlockIndex S)) ⟨[], []⟩ []).1 [] huf
  have hclnd : ((clusterGroupLoop
      (clusterUnionLoop threshold (scoredPairs (buildBlockIndex S)) ⟨[], []⟩ []).2
      (clusterUnionLoop threshold (scoredPairs (buildBlockIndex S)) ⟨[], []⟩ []).1
      []).map (·.1)).Nodup := g3 (by simp)
  have hclval : ∀ ρ, (dGet? (clusterGroupLoop
      (clusterUnionLoop threshold (scoredPairs (buildBlockIndex S)) ⟨[], []⟩ []).2
      (clusterUnionLoop threshold (scoredPairs (buildBlockIndex S)) ⟨[], []⟩ []).1 []) ρ).getD []
      = ((clusterUnionLoop threshold (scoredPairs (buildBlockIndex S)) ⟨[], []⟩ []).2.filter
          fun e => rootF (clusterUnionLoop threshold (scoredPairs (buildBlockIndex S))
            ⟨[], []⟩ []).1 e.1 == ρ).map (·.2) := by
    intro ρ
    rw [g1 ρ]
    simp [dGet?]
  have hclkey : ∀ ρ, (dGet? (clusterGroupLoop
      (clusterUnionLoop threshold (scoredPairs (buildBlockIndex S)) ⟨[], []⟩ []).2
      (clusterUnionLoop threshold (scoredPairs (buildBlockIndex S)) ⟨[], []⟩ []).1 []) ρ).isSome
      ↔ ∃ e ∈ (clusterUnionLoop threshold (scoredPairs (buildBlockIndex S)) ⟨[], []⟩ []).2,
        rootF (clusterUnionLoop threshold (scoredPairs (buildBlockIndex S)) ⟨[], []⟩ []).1 e.1
          = ρ := by
    intro ρ
    rw [g2 ρ]
    simp [dGet?]
  have hmid := flatMap_ids_iff _ _ hid hn2 _ hclval hclkey hclnd
  have hcm : cluster_matches threshold (scoredPairs (buildBlockIndex S))
      = (clusterGroupLoop
          (clusterUnionLoop threshold (scoredPairs (buildBlockIndex S)) ⟨[], []⟩ []).2
          (clusterUnionLoop threshold (scoredPairs (buildBlockIndex S)) ⟨[], []⟩ []).1
          []).map (·.2) := rfl
  rw [hcm]
  constructor
  · rintro ⟨e, he, rfl⟩
    rw [List.mem_filterMap] at he
    obtain ⟨c, hc, hce⟩ := he
    obtain ⟨hcne, hrid, hsrc⟩ := create_canonical_sound c e hce
    rw [List.mem_append] at hc
    rcases hc with hc | hc
    · rw [List.mem_map] at hc
      obtain ⟨p, hp, hpc⟩ := hc
      have hpget := dGet?_of_mem_nodup _ _ _ hclnd hp
      have h' := hclval p.1
      rw [hpget, Option.getD_some] at h'
      have hcval : c
          = ((clusterUnionLoop threshold (scoredPairs (buildBlockIndex S))
              ⟨[], []⟩ []).2.filter
            fun e => rootF (clusterUnionLoop threshold (scoredPairs (buildBlockIndex S))
              ⟨[], []⟩ []).1 e.1 == p.1).map (·.2) := by
        rw [← hpc]
        exact h'
      have hcne' : ((clusterUnionLoop threshold (scoredPairs (buildBlockIndex S))
          ⟨[], []⟩ []).2.filter
          fun e => rootF (clusterUnionLoop threshold (scoredPairs (buildBlockIndex S))
            ⟨[], []⟩ []).1 e.1 == p.1) ≠ [] := by
        intro hemp
        apply hcne
        rw [hcval, hemp]
        rfl
      obtain ⟨e0, he0⟩ := List.exists_mem_of_ne_nil _ hcne'
      rw [List.mem_filter] at he0
      obtain ⟨he0m, he0r⟩ := he0
      have hroot0 : rootF (clusterUnionLoop threshold (scoredPairs (buildBlockIndex S))
          ⟨[], []⟩ []).1 e0.1 = p.1 := by simpa using he0r
      have hMa : Matched threshold S e0.1 := (hmat e0.1).mp
        ((dGet?_isSome_iff_mem _ _).mpr (List.mem_map_of_mem _ he0m))
      have hcls := isClassList_of_filter threshold S _ _ huf hmat hsr hid hn2 e0.1
      rw [hroot0] at hcls
      refine Or.inl ⟨e0.1, hMa, (c.map (·.id)).insertionSort (· ≤ ·), ?_, hrid⟩
      rw [hcval]
      exact hcls
    · rw [List.mem_map] at hc
      obtain ⟨r, hr, hrc⟩ := hc
      rw [List.mem_filter] at hr
      obtain ⟨hrS, hrf⟩ := hr
      have hrnm : r.id ∉ ((clusterGroupLoop
          (clusterUnionLoop threshold (scoredPairs (buildBlockIndex S)) ⟨[], []⟩ []).2
          (clusterUnionLoop threshold (scoredPairs (buildBlockIndex S)) ⟨[], []⟩ []).1
          []).map (·.2)).flatMap fun c => c.map (·.id) := by
        simpa using hrf
      have hnm : ¬ Matched threshold S r.id := by
        intro hm
        exact hrnm ((hmid r.id).mpr ((hmat r.id).mpr hm))
      refine Or.inr ⟨r, hrS, hnm, ?_⟩
      rw [hrid, ← hrc]
      rw [show (([r] : List EntityRecord).map (·.id)).insertionSort (· ≤ ·) = [r.id] from rfl]
      rw [intercalate_singleton]
  · rintro (⟨a, hMa, l, hcls, hx⟩ | ⟨r, hrS, hnm, hx⟩)
    · have hsome : (dGet? (clusterUnionLoop threshold (scoredPairs (buildBlockIndex S))
          ⟨[], []⟩ []).2 a).isSome := (hmat a).mpr hMa
      obtain ⟨v, hv⟩ := Option.isSome_iff_exists.mp hsome
      have hentry := dGet?_mem _ _ _ hv
      have hkey := (hclkey (rootF (clusterUnionLoop threshold
          (scoredPairs (buildBlockIndex S)) ⟨[], []⟩ []).1 a)).mpr ⟨(a, v), hentry, rfl⟩
      obtain ⟨c0, hc0⟩ := Option.isSome_iff_exists.mp hkey
      have h' := hclval (rootF (clusterUnionLoop threshold
          (scoredPairs (buildBlockIndex S)) ⟨[], []⟩ []).1 a)
      rw [hc0, Option.getD_some] at h'
      have hc0ne : c0 ≠ [] := by
        intro hemp
        have hvm : v ∈ ((clusterUnionLoop threshold (scoredPairs (buildBlockIndex S))
            ⟨[], []⟩ []).2.filter
            fun e => rootF (clusterUnionLoop threshold (scoredPairs (buildBlockIndex S))
              ⟨[], []⟩ []).1 e.1 == rootF (clusterUnionLoop threshold
                (scoredPairs (buildBlockIndex S)) ⟨[], []⟩ []).1 a).map (·.2) := by
          rw [List.mem_map]
          exact ⟨(a, v), List.mem_filter.mpr ⟨hentry, by simp⟩, rfl⟩
        rw [← h', hemp] at hvm
        cases hvm
      obtain ⟨e1, he1, h1id, h1src⟩ := create_canonical_char c0 hc0ne
      have hcls2 := isClassList_of_filter threshold S _ _ huf hmat hsr hid hn2 a
      rw [← h'] at hcls2
      have hleq : (c0.map (·.id)).insertionSort (· ≤ ·) = l := isClassList_unique hcls2 hcls
      refine ⟨e1, ?_, ?_⟩
      · rw [List.mem_filterMap]
        refine ⟨c0, ?_, he1⟩
        rw [List.mem_append]
        left
        rw [List.mem_map]
        exact ⟨(rootF (clusterUnionLoop threshold (scoredPairs (buildBlockIndex S))
          ⟨[], []⟩ []).1 a, c0), dGet?_mem _ _ _ hc0, rfl⟩
      · rw [h1id, hleq, hx]
    · have hnm' : ¬ (dGet? (clusterUnionLoop threshold (scoredPairs (buildBlockIndex S))
          ⟨[], []⟩ []).2 r.id).isSome := fun h => hnm ((hmat r.id).mp h)
      obtain ⟨e1, he1, h1id, h1src⟩ := create_canonical_char [r] (by simp)
      refine ⟨e1, ?_, ?_⟩
      · rw [List.mem_filterMap]
        refine ⟨[r], ?_, he1⟩
        rw [List.mem_append]
        right
        rw [List.mem_map]
        refine ⟨r, ?_, rfl⟩
        rw [List.mem_filter]
        refine ⟨hrS, ?_⟩
        simp only [Bool.not_eq_true']
        rw [← Bool.not_eq_true]
        intro hcontains
        apply hnm'
        apply (hmid r.id).mp
        exact List.elem_iff.mp hcontains
      · rw [h1id]
        rw [show (([r] : List EntityRecord).map (·.id)).insertionSort (· ≤ ·) = [r.id] from rfl]
        rw [intercalate_singleton, hx]

theorem resolve_resolved_id (threshold : ℚ) (records : List EntityRecord) :
    ∀ e ∈ resolve threshold records,
      e.resolved_id = md5Hex16 (String.intercalate "_"
        ((e.source_records.map (·.id)).insertionSort (· ≤ ·))) := by
  intro e he
  have hL : resolve threshold records
      = (cluster_matches threshold (scoredPairs (buildBlockIndex
          (records.map standardize_record)))
        ++ ((records.map standardize_record).filter fun r =>
          !(((cluster_matches threshold (scoredPairs (buildBlockIndex
            (records.map standardize_record)))).flatMap
            fun c => c.map (·.id)).contains r.id)).map fun r => [r]).filterMap
        create_canonical_record := rfl
  rw [hL, List.mem_filterMap] at he
  obtain ⟨c, _, hce⟩ := he
  obtain ⟨_, hrid, hsrc⟩ := create_canonical_sound c e hce
  rw [hrid, hsrc]

/-- C1: resolution is idempotent and order-independent: the `resolved_id` of
every produced entity is the (modelled) content hash of its member record ids
sorted lexicographically — a pure function of the set of member ids — and
resolving a batch of records (with the batch-unique ids the specification
requires of `RawRecord`) in any input order yields the same set of
`resolved_id`s. -/
theorem resolution_idempotent_order_independent (threshold : ℚ)
    (records records' : List EntityRecord) (hperm : records.Perm records')
    (hnodup : (records.map (·.id)).Nodup) :
    (∀ e ∈ resolve threshold records,
      e.resolved_id = md5Hex16 (String.intercalate "_"
        ((e.source_records.map (·.id)).insertionSort (· ≤ ·)))) ∧
    ((resolve threshold records).map (·.resolved_id)).toFinset
      = ((resolve threshold records').map (·.resolved_id)).toFinset := by
  refine ⟨resolve_resolved_id threshold records, ?_⟩
  have hids : (records.map standardize_record).map (·.id) = records.map (·.id) := by
    rw [List.map_map]
    apply List.map_congr_left
    intro r _
    exact standardize_id r
  have hids' : (records'.map standardize_record).map (·.id) = records'.map (·.id) := by
    rw [List.map_map]
    apply List.map_congr_left
    intro r _
    exact standardize_id r
  have hnd : ((records.map standardize_record).map (·.id)).Nodup := by
    rw [hids]
    exact hnodup
  have hnodup' : (records'.map (·.id)).Nodup := (hperm.map (·.id)).nodup_iff.mp hnodup
  have hnd' : ((records'.map standardize_record).map (·.id)).Nodup := by
    rw [hids']
    exact hnodup'
  have hmemS : ∀ r : EntityRecord,
      r ∈ records.map standardize_record ↔ r ∈ records'.map standardize_record :=
    fun r => (hperm.map standardize_record).mem_iff
  apply Finset.ext
  intro x
  rw [List.mem_toFinset, List.mem_toFinset, List.mem_map, List.mem_map]
  rw [show (∃ a, a ∈ resolve threshold records ∧ a.resolved_id = x)
      ↔ CanonMem threshold (records.map standardize_record) x from
    resolve_mem_iff threshold _ records rfl hnd x]
  rw [show (∃ a, a ∈ resolve threshold records' ∧ a.resolved_id = x)
      ↔ CanonMem threshold (records'.map standardize_record) x from
    resolve_mem_iff threshold _ records' rfl hnd' x]
  exact canonMem_iff_congr hmemS threshold x

theorem resolution_idempotent_order_independent_witness :
    (∀ e ∈ resolve (3 / 4) [recA, recB],
      e.resolved_id = md5Hex16 (String.intercalate "_"
        ((e.source_records.map (·.id)).insertionSort (· ≤ ·)))) ∧
    ((resolve (3 / 4) [recA, recB]).map (·.resolved_id)).toFinset
      = ((resolve (3 / 4) [recB, recA]).map (·.resolved_id)).toFinset :=
  resolution_idempotent_order_independent (3 / 4) [recA, recB] [recB, recA]
    (List.Perm.swap recB recA []) (by decide)

end FTex
